import Mathlib

/-!
Verification of the Nous compiler middle/back end: a shallow embedding of
the IR generator (`src/tac.rs`), the instruction selector and emitter
(`src/assembly.rs`) and the assembly passes (`src/assembly_passes.rs`),
together with theorems settling the specification claims.

Rust `String` identifiers are modelled as `String`; `i64` constants and
stack offsets as `Int`; `usize` counters as `Nat`.  Panicking code paths
(`unwrap`, `assert!`, `todo!`, `unimplemented!`) are modelled with
`Option`, `none` standing for an abort.
-/

namespace Nous

/-! ### Syntax-tree data model (`src/ast.rs`, as consumed by `src/tac.rs`) -/

inductive UnaryOperator where
  | Complement
  | Negate
  | Not
deriving DecidableEq, Repr

inductive BinaryOperator where
  | Add
  | Subtract
  | Multiply
  | Divide
  | Remainder
  | And
  | Or
  | Equal
  | NotEqual
  | LessThan
  | LessOrEqual
  | GreaterThan
  | GreaterOrEqual
deriving DecidableEq, Repr

inductive Expression where
  | Constant (i : Int)
  | Var (id : String)
  | Unary (op : UnaryOperator) (inner : Expression)
  | Binary (op : BinaryOperator) (e1 e2 : Expression)
  | Assignment (lhs rhs : Expression)
  | Conditional (condition exp1 exp2 : Expression)
deriving DecidableEq, Repr

/-- A variable declaration: a name and an optional initializer
(the `Declaration` shape consumed by `TAC::process_declaration`). -/
structure Declaration where
  name : String
  initializer : Option Expression
deriving Repr

mutual

inductive Statement where
  | Return (e : Expression)
  | Expression (e : Expression)
  | Null
  | If (condition : Expression) (thenS : Statement) (elseS : Option Statement)
  | Compound (items : List BlockItem)
  | Break (label : Option String)
  | Continue (label : Option String)
  | While (condition : Expression) (body : Statement) (identifier : Option String)
  | DoWhile (body : Statement) (condition : Expression) (identifier : Option String)
  | For (initializer : ForInit) (condition : Option Expression)
      (post : Option Expression) (body : Statement) (identifier : Option String)

inductive BlockItem where
  | S (s : Statement)
  | D (d : Declaration)

inductive ForInit where
  | InitDecl (d : Declaration)
  | InitExp (e : Option Expression)

end

/-- A syntax-tree function: name and body block items. -/
structure AstFunction where
  name : String
  body : List BlockItem

/-! ### Three-address-code data model (`src/tac.rs`) -/

namespace Tac

inductive Val where
  | Constant (i : Int)
  | Var (id : String)
deriving DecidableEq, Repr

inductive Instruction where
  | Return (v : Val)
  | Unary (operator : UnaryOperator) (src dst : Val)
  | Binary (binary_operator : BinaryOperator) (src_1 src_2 dst : Val)
  | Copy (src dst : Val)
  | Jump (target : String)
  | JumpIfZero (condition : Val) (target : String)
  | JumpIfNotZero (condition : Val) (target : String)
  | Label (name : String)
deriving DecidableEq, Repr

structure Function where
  identifier : String
  body : List Instruction
deriving DecidableEq, Repr

end Tac

/-- The mutable state of a `TAC` instance during lowering. -/
structure TACState where
  temp_count : Nat
  label_count : Nat
  instructions : List Tac.Instruction
deriving DecidableEq, Repr

/-- The fresh state built by `TAC::from` (counters zero, empty buffer). -/
def initTAC : TACState := ⟨0, 0, []⟩

/-- `self.instructions.push(i)` -/
def TACState.push (s : TACState) (i : Tac.Instruction) : TACState :=
  { s with instructions := s.instructions ++ [i] }

/-- `self.instructions.append(v)` -/
def TACState.pushMany (s : TACState) (l : List Tac.Instruction) : TACState :=
  { s with instructions := s.instructions ++ l }

/-- `TAC::make_temporary_name` -/
def makeTemporaryName (s : TACState) : String × TACState :=
  ("tmp." ++ Nat.repr (s.temp_count + 1), { s with temp_count := s.temp_count + 1 })

/-- `TAC::make_label` -/
def makeLabel (s : TACState) (pre : String) : String × TACState :=
  let n := s.label_count + 1
  let s' := { s with label_count := n }
  if pre = "and" then ("and_false." ++ Nat.repr n, s')
  else if pre = "or" then ("or_false." ++ Nat.repr n, s')
  else (pre ++ Nat.repr n, s')

/-- `TAC::parse_val`: lowers an expression, returning the produced `Val` and
the updated state; `none` models a panic (the `assert!` on assignment
targets). -/
def parseVal : Expression → TACState → Option (Tac.Val × TACState)
  | .Constant i, s => some (.Constant i, s)
  | .Var id, s => some (.Var id, s)
  | .Unary op inner, s =>
    match parseVal inner s with
    | none => none
    | some (src, s1) =>
      let (dstName, s2) := makeTemporaryName s1
      let dst := Tac.Val.Var dstName
      some (dst, s2.push (.Unary op src dst))
  | .Binary op e1 e2, s =>
    match op with
    | .And =>
      match parseVal e1 s with
      | none => none
      | some (v1, s1) =>
        match parseVal e2 s1 with
        | none => none
        | some (v2, s2) =>
          let (lbl, s3) := makeLabel s2 "and"
          let res := "result." ++ Nat.repr s3.label_count
          let endL := "end." ++ Nat.repr s3.label_count
          some (.Var res, s3.pushMany
            [.JumpIfZero v1 lbl,
             .JumpIfZero v2 lbl,
             .Copy (.Constant 1) (.Var res),
             .Jump endL,
             .Label lbl,
             .Copy (.Constant 0) (.Var res),
             .Label endL])
    | .Or =>
      match parseVal e1 s with
      | none => none
      | some (v1, s1) =>
        match parseVal e2 s1 with
        | none => none
        | some (v2, s2) =>
          let (lbl, s3) := makeLabel s2 "or"
          let res := "result." ++ Nat.repr s3.label_count
          let endL := "end." ++ Nat.repr s3.label_count
          some (.Var res, s3.pushMany
            [.JumpIfNotZero v1 lbl,
             .JumpIfNotZero v2 lbl,
             .Copy (.Constant 0) (.Var res),
             .Jump endL,
             .Label lbl,
             .Copy (.Constant 1) (.Var res),
             .Label endL])
    | _ =>
      match parseVal e1 s with
      | none => none
      | some (v1, s1) =>
        match parseVal e2 s1 with
        | none => none
        | some (v2, s2) =>
          let (dstName, s3) := makeTemporaryName s2
          let dst := Tac.Val.Var dstName
          some (dst, s3.push (.Binary op v1 v2 dst))
  | .Assignment a rhs, s =>
    match a with
    | .Var id =>
      match parseVal rhs s with
      | none => none
      | some (result, s1) =>
        match parseVal (.Var id) s1 with
        | none => none
        | some (dst, s2) => some (dst, s2.push (.Copy result dst))
    | _ => none
  | .Conditional condition exp1 exp2, s =>
    match parseVal condition s with
    | none => none
    | some (rc, s1) =>
      let (e2L, s2) := makeLabel s1 "exp2"
      let (endL, s3) := makeLabel s2 "end"
      let (resL, s4) := makeLabel s3 "result"
      let s5 := s4.push (.JumpIfZero rc e2L)
      match parseVal exp1 s5 with
      | none => none
      | some (r1, s6) =>
        let s7 := ((s6.push (.Copy r1 (.Var resL))).push (.Jump endL)).push (.Label e2L)
        match parseVal exp2 s7 with
        | none => none
        | some (r2, s8) =>
          some (.Var resL, ((s8.push (.Copy r2 (.Var resL))).push (.Label endL)))

/-- `TAC::process_declaration` -/
def processDeclaration (d : Declaration) (s : TACState) : Option TACState :=
  match d.initializer with
  | some x =>
    match parseVal (.Assignment (.Var d.name) x) s with
    | none => none
    | some (_, s') => some s'
  | none => some s

/-- Push the optional instruction returned by `parse_statement`
(as done by the callers in `process_block` and the statement arms). -/
def pushOpt (s : TACState) : Option Tac.Instruction → TACState
  | some i => s.push i
  | none => s

mutual

/-- `TAC::parse_statement`: `none` models a panic (the `unwrap` of a
missing loop label on `Break`/`Continue`/`While`/`DoWhile`/`For`). -/
def parseStatement : Statement → TACState → Option (Option Tac.Instruction × TACState)
  | .Return e, s =>
    match parseVal e s with
    | none => none
    | some (v, s1) => some (some (.Return v), s1)
  | .Expression e, s =>
    match parseVal e s with
    | none => none
    | some (_, s1) => some (none, s1)
  | .Null, s => some (none, s)
  | .If condition thenS elseS, s =>
    match parseVal condition s with
    | none => none
    | some (rc, s1) =>
      let (endL, s2) := makeLabel s1 "end"
      match elseS with
      | some elseStmt =>
        let (elseL, s3) := makeLabel s2 "else"
        let s4 := s3.push (.JumpIfZero rc elseL)
        match parseStatement thenS s4 with
        | none => none
        | some (oi, s5) =>
          let s7 := ((pushOpt s5 oi).push (.Jump endL)).push (.Label elseL)
          match parseStatement elseStmt s7 with
          | none => none
          | some (oi2, s8) =>
            some (none, (pushOpt s8 oi2).push (.Label endL))
      | none =>
        let s3 := s2.push (.JumpIfZero rc endL)
        match parseStatement thenS s3 with
        | none => none
        | some (oi, s4) => some (none, (pushOpt s4 oi).push (.Label endL))
  | .Compound items, s =>
    match processBlockItems items s with
    | none => none
    | some s' => some (none, s')
  | .Break lbl, s =>
    match lbl with
    | none => none
    | some l => some (none, s.push (.Jump ("break_" ++ l)))
  | .Continue lbl, s =>
    match lbl with
    | none => none
    | some l => some (none, s.push (.Jump ("continue_" ++ l)))
  | .While condition body identifier, s =>
    match identifier with
    | none => none
    | some i =>
      let contL := "continue_" ++ i
      let brkL := "break_" ++ i
      let s1 := s.push (.Label contL)
      match parseVal condition s1 with
      | none => none
      | some (v, s2) =>
        let s3 := s2.push (.JumpIfZero v brkL)
        match parseStatement body s3 with
        | none => none
        | some (oi, s4) =>
          some (none, ((pushOpt s4 oi).push (.Jump contL)).push (.Label brkL))
  | .DoWhile body condition identifier, s =>
    match identifier with
    | none => none
    | some i =>
      let startL := "start_" ++ i
      let s1 := s.push (.Label startL)
      match parseStatement body s1 with
      | none => none
      | some (oi, s2) =>
        let s3 := (pushOpt s2 oi).push (.Label ("continue_" ++ i))
        match parseVal condition s3 with
        | none => none
        | some (v, s4) =>
          some (none, (s4.push (.JumpIfNotZero v startL)).push (.Label ("break_" ++ i)))
  | .For initializer condition post body identifier, s =>
    let step1 : Option TACState :=
      match initializer with
      | .InitDecl d => processDeclaration d s
      | .InitExp (some e) =>
        match parseVal e s with
        | none => none
        | some (_, s') => some s'
      | .InitExp none => some s
    match step1 with
    | none => none
    | some s1 =>
      match identifier with
      | none => none
      | some i =>
        let startL := "start_" ++ i
        let brkL := "break_" ++ i
        let contL := "continue_" ++ i
        let s2 := s1.push (.Label startL)
        let step2 : Option TACState :=
          match condition with
          | some ce =>
            match parseVal ce s2 with
            | none => none
            | some (v, s3) => some (s3.push (.JumpIfZero v brkL))
          | none => some s2
        match step2 with
        | none => none
        | some s4 =>
          match parseStatement body s4 with
          | none => none
          | some (oi, s5) =>
            let s6 := (pushOpt s5 oi).push (.Label contL)
            let step3 : Option TACState :=
              match post with
              | some pe =>
                match parseVal pe s6 with
                | none => none
                | some (_, s7) => some s7
              | none => some s6
            match step3 with
            | none => none
            | some s8 =>
              some (none, (s8.push (.Jump startL)).push (.Label brkL))

/-- `TAC::process_block` -/
def processBlockItem : BlockItem → TACState → Option TACState
  | .S stmt, s =>
    match parseStatement stmt s with
    | none => none
    | some (oi, s') => some (pushOpt s' oi)
  | .D d, s => processDeclaration d s

/-- The iteration in `TAC::parse_function` over the body's block items. -/
def processBlockItems : List BlockItem → TACState → Option TACState
  | [], s => some s
  | b :: rest, s =>
    match processBlockItem b s with
    | none => none
    | some s' => processBlockItems rest s'

end

/-- `TAC::parse_function` on a fresh `TAC` instance (counters 0, empty buffer). -/
def parseFunction (f : AstFunction) : Option Tac.Function :=
  match processBlockItems f.body initTAC with
  | none => none
  | some s => some ⟨f.name, s.instructions⟩

/-! ### Assembly data model (`src/assembly.rs`) -/

namespace Asm

inductive Reg where
  | AX
  | DX
  | R10
  | R11
deriving DecidableEq, Repr

inductive CondCode where
  | E
  | NE
  | G
  | GE
  | L
  | LE
deriving DecidableEq, Repr

inductive AUnaryOperator where
  | Neg
  | Not
deriving DecidableEq, Repr

inductive ABinaryOperator where
  | Add
  | Sub
  | Mult
  | Divide
  | Remainder
deriving DecidableEq, Repr

inductive Operand where
  | Imm (i : Int)
  | Register (r : Reg)
  | Pseudo (id : String)
  | Stack (offset : Int)
deriving DecidableEq, Repr

inductive Instruction where
  | Mov (src dst : Operand)
  | Unary (op : AUnaryOperator) (o : Operand)
  | Binary (op : ABinaryOperator) (o1 o2 : Operand)
  | Idiv (o : Operand)
  | Cdq
  | AllocateStack (i : Int)
  | Ret
  | Cmp (o1 o2 : Operand)
  | Jmp (label : String)
  | JumpCC (cond : CondCode) (label : String)
  | SetCC (cond : CondCode) (o : Operand)
  | Label (label : String)
deriving DecidableEq, Repr

structure Function where
  name : String
  instructions : List Instruction
deriving DecidableEq, Repr

end Asm

/-- The pseudo-register map: `HashMap<Operand, i64>` modelled as an
association list in insertion order (only `Pseudo` keys are ever
inserted, each at most once). -/
def PseudoMap := List (Asm.Operand × Int)

/-- `HashMap::get` -/
def mapLookup : List (Asm.Operand × Int) → Asm.Operand → Option Int
  | [], _ => none
  | (k, v) :: rest, q => if k = q then some v else mapLookup rest q

/-- The mutable state of an `Assembly` instance: the pseudo-register map
and the running frame offset (both start empty/zero in `Assembly::from`). -/
structure AsmState where
  pseudo_registers : List (Asm.Operand × Int)
  offset : Int
deriving DecidableEq, Repr

def initAsm : AsmState := ⟨[], 0⟩

/-- `Assembly::parse_operand`: constants map to `Imm`; a variable maps to
`Pseudo(name)`, and on first sight `offset += 4` is recorded before
insertion into the pseudo-register map. -/
def parseOperand (v : Tac.Val) (st : AsmState) : Asm.Operand × AsmState :=
  match v with
  | .Constant i => (.Imm i, st)
  | .Var id =>
    match mapLookup st.pseudo_registers (.Pseudo id) with
    | some _ => (.Pseudo id, st)
    | none =>
      let off := st.offset + 4
      (.Pseudo id, ⟨st.pseudo_registers ++ [(.Pseudo id, off)], off⟩)

/-- `Assembly::parse_unary_operator` (the `Not` case is `todo!()`,
but it is unreachable: the caller special-cases logical not). -/
def parseUnaryOperator : UnaryOperator → Option Asm.AUnaryOperator
  | .Negate => some .Neg
  | .Complement => some .Not
  | .Not => none

/-- `Assembly::parse_binary_operator` (`todo!()` on non-arithmetic operators). -/
def parseBinaryOperator : BinaryOperator → Option Asm.ABinaryOperator
  | .Add => some .Add
  | .Subtract => some .Sub
  | .Multiply => some .Mult
  | .Divide => some .Divide
  | .Remainder => some .Remainder
  | _ => none

/-- `Assembly::parse_relational_operator` (panics on a non-relational operator). -/
def parseRelationalOperator : BinaryOperator → Option Asm.CondCode
  | .Equal => some .E
  | .NotEqual => some .NE
  | .LessThan => some .L
  | .LessOrEqual => some .LE
  | .GreaterThan => some .G
  | .GreaterOrEqual => some .GE
  | _ => none

/-- `Assembly::parse_instruction`; operand parses are threaded in Rust
evaluation order.  `none` models the `todo!()`/`panic!` arms. -/
def parseInstruction (i : Tac.Instruction) (st : AsmState) :
    Option (List Asm.Instruction × AsmState) :=
  match i with
  | .Return val =>
    let (op, st1) := parseOperand val st
    some ([.Mov op (.Register .AX), .Ret], st1)
  | .Unary operator src dst =>
    if operator = .Not then
      let (s1, st1) := parseOperand src st
      let (d1, st2) := parseOperand dst st1
      let (d2, st3) := parseOperand dst st2
      some ([.Cmp (.Imm 0) s1, .Mov (.Imm 0) d1, .SetCC .E d2], st3)
    else
      let (s1, st1) := parseOperand src st
      let (d1, st2) := parseOperand dst st1
      match parseUnaryOperator operator with
      | none => none
      | some op' =>
        let (d2, st3) := parseOperand dst st2
        some ([.Mov s1 d1, .Unary op' d2], st3)
  | .Binary binary_operator src_1 src_2 dst =>
    match binary_operator with
    | .Divide =>
      let (a, st1) := parseOperand src_1 st
      let (b, st2) := parseOperand src_2 st1
      let (d, st3) := parseOperand dst st2
      some ([.Mov a (.Register .AX), .Cdq, .Idiv b, .Mov (.Register .AX) d], st3)
    | .Remainder =>
      let (a, st1) := parseOperand src_1 st
      let (b, st2) := parseOperand src_2 st1
      let (d, st3) := parseOperand dst st2
      some ([.Mov a (.Register .AX), .Cdq, .Idiv b, .Mov (.Register .DX) d], st3)
    | .Equal | .NotEqual | .LessThan | .LessOrEqual | .GreaterThan | .GreaterOrEqual =>
      let (b, st1) := parseOperand src_2 st
      let (a, st2) := parseOperand src_1 st1
      let (d1, st3) := parseOperand dst st2
      match parseRelationalOperator binary_operator with
      | none => none
      | some cc =>
        let (d2, st4) := parseOperand dst st3
        some ([.Cmp b a, .Mov (.Imm 0) d1, .SetCC cc d2], st4)
    | _ =>
      let (a, st1) := parseOperand src_1 st
      let (d1, st2) := parseOperand dst st1
      match parseBinaryOperator binary_operator with
      | none => none
      | some op' =>
        let (b, st3) := parseOperand src_2 st2
        let (d2, st4) := parseOperand dst st3
        some ([.Mov a d1, .Binary op' b d2], st4)
  | .Jump target => some ([.Jmp target], st)
  | .JumpIfZero condition target =>
    let (c, st1) := parseOperand condition st
    some ([.Cmp (.Imm 0) c, .JumpCC .E target], st1)
  | .JumpIfNotZero condition target =>
    let (c, st1) := parseOperand condition st
    some ([.Cmp (.Imm 0) c, .JumpCC .NE target], st1)
  | .Copy src dst =>
    let (a, st1) := parseOperand src st
    let (b, st2) := parseOperand dst st1
    some ([.Mov a b], st2)
  | .Label id => some ([.Label id], st)

/-- The loop in `Assembly::parse_function`, appending each instruction's
translation. -/
def selectInstrs : List Tac.Instruction → AsmState → Option (List Asm.Instruction × AsmState)
  | [], st => some ([], st)
  | i :: rest, st =>
    match parseInstruction i st with
    | none => none
    | some (is, st') =>
      match selectInstrs rest st' with
      | none => none
      | some (is', st'') => some (is ++ is', st'')

/-- `Assembly::parse_function` starting from a fresh `Assembly` instance. -/
def parseAsmFunction (f : Tac.Function) : Option (Asm.Function × AsmState) :=
  match selectInstrs f.body initAsm with
  | none => none
  | some (instrs, st) => some (⟨f.identifier, instrs⟩, st)

/-! ### Assembly passes (`src/assembly_passes.rs`) -/

/-- `ReplacePseudoRegisters::get_stack_value` -/
def getStackValue (pseudo_registers : List (Asm.Operand × Int)) (operand : Asm.Operand) :
    Asm.Operand :=
  match mapLookup pseudo_registers operand with
  | some op => .Stack op
  | none => operand

/-- The per-instruction action of `ReplacePseudoRegisters`. -/
def replacePseudoInstr (m : List (Asm.Operand × Int)) : Asm.Instruction → Asm.Instruction
  | .Mov src dst => .Mov (getStackValue m src) (getStackValue m dst)
  | .Unary op o => .Unary op (getStackValue m o)
  | .Binary op o1 o2 => .Binary op (getStackValue m o1) (getStackValue m o2)
  | .Idiv o => .Idiv (getStackValue m o)
  | .Cmp o1 o2 => .Cmp (getStackValue m o1) (getStackValue m o2)
  | .SetCC cond o => .SetCC cond (getStackValue m o)
  | i => i

/-- `ReplacePseudoRegisters` over a whole instruction sequence. -/
def replacePseudoRegisters (m : List (Asm.Operand × Int)) (l : List Asm.Instruction) :
    List Asm.Instruction :=
  l.map (replacePseudoInstr m)

def isStack : Asm.Operand → Bool
  | .Stack _ => true
  | _ => false

def isImm : Asm.Operand → Bool
  | .Imm _ => true
  | _ => false

/-- `RewriteMov`: split `Mov` with two `Stack` operands through `R10`. -/
def rewriteMov : List Asm.Instruction → List Asm.Instruction
  | [] => []
  | i :: rest =>
    (match i with
     | .Mov src dst =>
       if isStack src && isStack dst then
         [.Mov src (.Register .R10), .Mov (.Register .R10) dst]
       else [.Mov src dst]
     | _ => [i]) ++ rewriteMov rest

/-- `RewriteBinaryOp`: `Idiv` through `R10`; `Add`/`Sub` source through
`R10`; `Mult` destination through `R11`.  `none` models the
`unimplemented!()` arm for a `Binary` with a non-arithmetic operator. -/
def rewriteBinaryOp : List Asm.Instruction → Option (List Asm.Instruction)
  | [] => some []
  | i :: rest =>
    let head : Option (List Asm.Instruction) :=
      match i with
      | .Idiv operand => some [.Mov operand (.Register .R10), .Idiv (.Register .R10)]
      | .Binary op src dst =>
        match op with
        | .Add => some [.Mov src (.Register .R10), .Binary .Add (.Register .R10) dst]
        | .Sub => some [.Mov src (.Register .R10), .Binary .Sub (.Register .R10) dst]
        | .Mult => some [.Mov dst (.Register .R11), .Binary .Mult src (.Register .R11),
            .Mov (.Register .R11) dst]
        | _ => none
      | _ => some [i]
    match head with
    | none => none
    | some hs =>
      match rewriteBinaryOp rest with
      | none => none
      | some rs => some (hs ++ rs)

/-- `RewriteCmp`: no two `Stack` operands; no `Imm` second operand. -/
def rewriteCmp : List Asm.Instruction → List Asm.Instruction
  | [] => []
  | i :: rest =>
    (match i with
     | .Cmp a b =>
       if isStack a && isStack b then
         [.Mov a (.Register .R10), .Cmp (.Register .R10) b]
       else if isImm b then
         [.Mov b (.Register .R11), .Cmp a (.Register .R11)]
       else [.Cmp a b]
     | _ => [i]) ++ rewriteCmp rest

/-- `AllocateStack`: push `AllocateStack(offset)` to the front. -/
def allocateStack (offset : Int) (l : List Asm.Instruction) : List Asm.Instruction :=
  .AllocateStack offset :: l

/-! ### Emitter (`impl format` in `src/assembly.rs`) -/

def formatReg : Asm.Reg → String
  | .AX => "%eax"
  | .R10 => "%r10d"
  | .DX => "%edx"
  | .R11 => "%r11d"

def formatRegInsideSetcc : Asm.Reg → String
  | .AX => "%al"
  | .DX => "%dl"
  | .R10 => "%r10b"
  | .R11 => "%r11b"

def formatInt (i : Int) : String := i.repr

/-- `Operand::format`: `none` models the panic on a `Pseudo` operand
("Pseudo registers are never formated"). -/
def formatOperand : Asm.Operand → Option String
  | .Imm i => some ("$" ++ formatInt i)
  | .Register r => some (formatReg r)
  | .Pseudo _ => none
  | .Stack s => some ("-" ++ formatInt s ++ "(%rbp)")

/-- `Operand::format_inside_setcc` -/
def formatOperandInsideSetcc : Asm.Operand → Option String
  | .Imm i => some ("$" ++ formatInt i)
  | .Register r => some (formatRegInsideSetcc r)
  | .Pseudo _ => none
  | .Stack s => some ("-" ++ formatInt s ++ "(%rbp)")

def formatCond : Asm.CondCode → String
  | .E => "e"
  | .NE => "ne"
  | .L => "l"
  | .LE => "le"
  | .G => "g"
  | .GE => "ge"

def formatAUnary : Asm.AUnaryOperator → String
  | .Neg => "negl"
  | .Not => "notl"

def formatABinary : Asm.ABinaryOperator → String
  | .Add => "addl"
  | .Sub => "subl"
  | .Mult => "imull"
  | .Divide => "The operation Divide should not be formated"
  | .Remainder => "The operation Remainder should not be formated"

/-- `Instruction::format` -/
def formatInstruction : Asm.Instruction → Option String
  | .Mov src dst =>
    match formatOperand src, formatOperand dst with
    | some a, some b => some ("movl\t" ++ a ++ ", " ++ b)
    | _, _ => none
  | .Unary operator operand =>
    match formatOperand operand with
    | some a => some (formatAUnary operator ++ "\t" ++ a)
    | none => none
  | .AllocateStack i => some ("subq\t$" ++ formatInt i ++ ", %rsp")
  | .Ret => some "movq\t%rbp, %rsp\n\tpopq\t%rbp\n\tret"
  | .Binary binary_operator operand operand1 =>
    match formatOperand operand, formatOperand operand1 with
    | some a, some b => some (formatABinary binary_operator ++ "\t" ++ a ++ ", " ++ b)
    | _, _ => none
  | .Idiv operand =>
    match formatOperand operand with
    | some a => some ("idivl\t" ++ a)
    | none => none
  | .Cdq => some "cdq"
  | .Cmp op1 op2 =>
    match formatOperand op1, formatOperand op2 with
    | some a, some b => some ("cmpl\t" ++ a ++ ", " ++ b)
    | _, _ => none
  | .Jmp label => some ("jmp\t.L_" ++ label)
  | .JumpCC cond label => some ("j" ++ formatCond cond ++ "\t.L_" ++ label)
  | .SetCC cond operand =>
    match formatOperandInsideSetcc operand with
    | some a => some ("set" ++ formatCond cond ++ "\t" ++ a)
    | none => none
  | .Label label => some (".L_" ++ label ++ ":")

/-- The per-instruction rendering step in `Function::format` (labels are
not indented, everything else is). -/
def formatInstrLine (i : Asm.Instruction) : Option String :=
  match formatInstruction i with
  | none => none
  | some s =>
    match i with
    | .Label _ => some (s ++ "\n")
    | _ => some ("\t" ++ s ++ "\n")

def formatLines : List Asm.Instruction → Option String
  | [] => some ""
  | i :: rest =>
    match formatInstrLine i, formatLines rest with
    | some a, some b => some (a ++ b)
    | _, _ => none

/-- `Function::format`: global directive, label, fixed prologue, then the
rendered instructions. -/
def formatFunction (f : Asm.Function) : Option String :=
  match formatLines f.instructions with
  | none => none
  | some body =>
    some ("\t.globl " ++ f.name ++ "\n" ++ f.name ++
      ":\n\tpushq\t%rbp\n\tmovq\t%rsp, %rbp\n" ++ body)

/-- `Program::format` with the host-OS check made an explicit parameter. -/
def formatProgram (isLinux : Bool) (f : Asm.Function) : Option String :=
  match formatFunction f with
  | none => none
  | some s =>
    if isLinux then some (s ++ ".section .note.GNU-stack,\"\",@progbits")
    else some s

/-! ### The full pipeline in driver order (`src/compiler_driver.rs`):
instruction selection, `ReplacePseudoRegisters`, `RewriteMov`,
`RewriteBinaryOp`, `RewriteCmp`, `AllocateStack`, emission. -/

def legalize (st : AsmState) (l : List Asm.Instruction) : Option (List Asm.Instruction) :=
  match rewriteBinaryOp (rewriteMov (replacePseudoRegisters st.pseudo_registers l)) with
  | none => none
  | some l2 => some (allocateStack st.offset (rewriteCmp l2))

def fullPipeline (isLinux : Bool) (f : AstFunction) : Option String :=
  match parseFunction f with
  | none => none
  | some tacF =>
    match parseAsmFunction tacF with
    | none => none
    | some (asmF, st) =>
      match legalize st asmF.instructions with
      | none => none
      | some instrs => formatProgram isLinux ⟨asmF.name, instrs⟩

/-! ### Auxiliary definitions used by the claim statements and proofs -/

/-- Decimal rendering of a `Nat`, structurally recursive reference model of
core's fuel-based `Nat.toDigitsCore` (proved equal below). -/
def digitsRec (n : Nat) : List Char :=
  if n < 10 then [Nat.digitChar n]
  else digitsRec (n / 10) ++ [Nat.digitChar (n % 10)]
decreasing_by exact Nat.div_lt_self (by omega) (by norm_num)

/-- Labels defined by `Label` instructions, in sequence order. -/
def definedLabels (l : List Tac.Instruction) : List String :=
  l.filterMap fun i =>
    match i with
    | .Label n => some n
    | _ => none

/-- Targets of `Jump`/`JumpIfZero`/`JumpIfNotZero` instructions. -/
def jumpTargets (l : List Tac.Instruction) : List String :=
  l.filterMap fun i =>
    match i with
    | .Jump t => some t
    | .JumpIfZero _ t => some t
    | .JumpIfNotZero _ t => some t
    | _ => none

/-- The six counter-derived label shapes produced by `TAC::make_label`:
`and_false.<n>`, `or_false.<n>`, `end.<n>` (from the And/Or arms) and
`end<n>`, `else<n>`, `exp2<n>` (from If/Conditional). -/
inductive LabelKind where
  | andF
  | orF
  | endDot
  | endP
  | elseP
  | exp2P
deriving DecidableEq, Repr

def ctrHead : LabelKind → String
  | .andF => "and_false."
  | .orF => "or_false."
  | .endDot => "end."
  | .endP => "end"
  | .elseP => "else"
  | .exp2P => "exp2"

def ctrName (k : LabelKind) (n : Nat) : String := ctrHead k ++ Nat.repr n

def breakLabel (i : String) : String := "break_" ++ i
def continueLabel (i : String) : String := "continue_" ++ i
def startLabel (i : String) : String := "start_" ++ i

def optIdList : Option String → List String
  | some i => [i]
  | none => []

mutual

/-- Loop identifiers attached to the loops of a statement, own-loop first. -/
def stmtLoopIds : Statement → List String
  | .Return _ => []
  | .Expression _ => []
  | .Null => []
  | .Break _ => []
  | .Continue _ => []
  | .If _ t e =>
    stmtLoopIds t ++ (match e with | some e' => stmtLoopIds e' | none => [])
  | .Compound items => itemsLoopIds items
  | .While _ b id => optIdList id ++ stmtLoopIds b
  | .DoWhile b _ id => optIdList id ++ stmtLoopIds b
  | .For _ _ _ b id => optIdList id ++ stmtLoopIds b

def itemsLoopIds : List BlockItem → List String
  | [] => []
  | .S s :: r => stmtLoopIds s ++ itemsLoopIds r
  | .D _ :: r => itemsLoopIds r

end

mutual

/-- Well-formedness established by the upstream loop-labeling collaborator:
every loop carries a label, and every `Break`/`Continue` carries the label
of an enclosing loop (`env` is the stack of enclosing loop identifiers). -/
def WFStmt (env : List String) : Statement → Prop
  | .Return _ => True
  | .Expression _ => True
  | .Null => True
  | .Break lbl => ∃ l, lbl = some l ∧ l ∈ env
  | .Continue lbl => ∃ l, lbl = some l ∧ l ∈ env
  | .If _ t e =>
    WFStmt env t ∧ (match e with | some e' => WFStmt env e' | none => True)
  | .Compound items => WFItems env items
  | .While _ b id => ∃ i, id = some i ∧ WFStmt (i :: env) b
  | .DoWhile b _ id => ∃ i, id = some i ∧ WFStmt (i :: env) b
  | .For _ _ _ b id => ∃ i, id = some i ∧ WFStmt (i :: env) b

def WFItems (env : List String) : List BlockItem → Prop
  | [] => True
  | .S s :: r => WFStmt env s ∧ WFItems env r
  | .D _ :: r => WFItems env r

end

/-- A counter-derived label whose counter value lies in `(lo, hi]`. -/
def CtrLabel (lo hi : Nat) (name : String) : Prop :=
  ∃ k n, name = ctrName k n ∧ lo < n ∧ n ≤ hi

/-- A loop-derived label of one of the loops in `ids`. -/
def LoopLabel (ids : List String) (name : String) : Prop :=
  ∃ i ∈ ids, name = breakLabel i ∨ name = continueLabel i ∨ name = startLabel i

/-- The jump targets a fragment may reference outside itself: the break and
continue labels of enclosing loops. -/
def EnvTarget (env : List String) (name : String) : Prop :=
  ∃ i ∈ env, name = breakLabel i ∨ name = continueLabel i

/-- A fragment whose defined labels are all counter labels in `(lo, hi]`,
pairwise distinct, and whose jump targets are all defined within it. -/
def CtrFrag (lo hi : Nat) (tail : List Tac.Instruction) : Prop :=
  (∀ name ∈ definedLabels tail, CtrLabel lo hi name) ∧
  (definedLabels tail).Nodup ∧
  (∀ t ∈ jumpTargets tail, t ∈ definedLabels tail)

/-- Invariant of `parse_val`: the state is only appended to, the label
counter only grows, and the appended fragment is a well-formed counter
fragment. -/
def ExprInv (s s' : TACState) : Prop :=
  s.label_count ≤ s'.label_count ∧
  ∃ tail, s'.instructions = s.instructions ++ tail ∧
    CtrFrag s.label_count s'.label_count tail

/-- A statement fragment: defined labels are counter labels in `(lo, hi]`
or loop labels of the statement's own loops `ids`, pairwise distinct; jump
targets are defined within the fragment or reference an enclosing loop. -/
def StmtTail (lo hi : Nat) (ids env : List String) (tail : List Tac.Instruction) : Prop :=
  (∀ name ∈ definedLabels tail, CtrLabel lo hi name ∨ LoopLabel ids name) ∧
  (definedLabels tail).Nodup ∧
  (∀ t ∈ jumpTargets tail, t ∈ definedLabels tail ∨ EnvTarget env t)

/-- The instruction list a caller of `parse_statement` pushes for the
returned optional instruction. -/
def optInstrList : Option Tac.Instruction → List Tac.Instruction
  | some i => [i]
  | none => []

/-- Every name in `l` is a counter label of `(lo, hi]` or a loop label
of `ids`. -/
def Classified (lo hi : Nat) (ids : List String) (l : List String) : Prop :=
  ∀ x ∈ l, CtrLabel lo hi x ∨ LoopLabel ids x

/-- The label-invariant conclusion for a lowering step from `s` to `s'`:
the state is appended to and the appended fragment is well-formed. -/
def FragOut (ids env : List String) (s s' : TACState) : Prop :=
  s.label_count ≤ s'.label_count ∧
  ∃ tail, s'.instructions = s.instructions ++ tail ∧
    StmtTail s.label_count s'.label_count ids env tail

/-- Loop identifiers of one block item. -/
def itemLoopIds : BlockItem → List String
  | .S stmt => stmtLoopIds stmt
  | .D _ => []

/-- Well-formedness of one block item. -/
def WFItem (env : List String) : BlockItem → Prop
  | .S stmt => WFStmt env stmt
  | .D _ => True

/-- The specification of `parse_statement` proved by the functional
induction: under well-formedness, a successful run returns `none` or a
`Return` instruction, and appends a well-formed statement fragment. -/
def StatementSpec (stmt : Statement) (s : TACState) : Prop :=
  ∀ (env : List String) (oi : Option Tac.Instruction) (s' : TACState),
    WFStmt env stmt → (stmtLoopIds stmt).Nodup →
    parseStatement stmt s = some (oi, s') →
    (oi = none ∨ ∃ v, oi = some (.Return v)) ∧
    FragOut (stmtLoopIds stmt) env s s'

/-- The specification of the block-item iteration. -/
def ItemsSpec (items : List BlockItem) (s : TACState) : Prop :=
  ∀ (env : List String) (s' : TACState),
    WFItems env items → (itemsLoopIds items).Nodup →
    processBlockItems items s = some s' →
    FragOut (itemsLoopIds items) env s s'

/-- The specification of `process_block` on one item. -/
def ItemSpec (b : BlockItem) (s : TACState) : Prop :=
  ∀ (env : List String) (s' : TACState),
    WFItem env b → (itemLoopIds b).Nodup →
    processBlockItem b s = some s' →
    FragOut (itemLoopIds b) env s s'

/-! Assembly-side auxiliary definitions -/

/-- The operand slots of an assembly instruction (exactly the slots
`ReplacePseudoRegisters` rewrites; the remaining instruction forms carry
no operands). -/
def operandsOf : Asm.Instruction → List Asm.Operand
  | .Mov src dst => [src, dst]
  | .Unary _ o => [o]
  | .Binary _ o1 o2 => [o1, o2]
  | .Idiv o => [o]
  | .Cmp o1 o2 => [o1, o2]
  | .SetCC _ o => [o]
  | _ => []

def isPseudo : Asm.Operand → Bool
  | .Pseudo _ => true
  | _ => false

/-- No `Pseudo` operand occurs anywhere in the sequence. -/
def pseudoFree (l : List Asm.Instruction) : Bool :=
  l.all fun i => (operandsOf i).all fun op => !(isPseudo op)

def movLegal : Asm.Instruction → Bool
  | .Mov src dst => !(isStack src && isStack dst)
  | _ => true

def cmpLegal : Asm.Instruction → Bool
  | .Cmp a b => !(isStack a && isStack b) && !(isImm b)
  | _ => true

def multLegal : Asm.Instruction → Bool
  | .Binary .Mult _ dst => !(isStack dst)
  | _ => true

def idivLegal : Asm.Instruction → Bool
  | .Idiv o => !(isImm o)
  | _ => true

/-- The conjunction of the four §4.4 legalization invariants. -/
def legalInstr (i : Asm.Instruction) : Bool :=
  movLegal i && cmpLegal i && multLegal i && idivLegal i

/-- The `Val` slots of an IR instruction (each arm of
`Assembly::parse_instruction` calls `parse_operand` on every one). -/
def valsOf : Tac.Instruction → List Tac.Val
  | .Return v => [v]
  | .Unary _ src dst => [src, dst]
  | .Binary _ s1 s2 dst => [s1, s2, dst]
  | .Copy src dst => [src, dst]
  | .Jump _ => []
  | .JumpIfZero c _ => [c]
  | .JumpIfNotZero c _ => [c]
  | .Label _ => []

/-- Variable names referenced by an IR instruction. -/
def varNamesOf (i : Tac.Instruction) : List String :=
  (valsOf i).filterMap fun v =>
    match v with
    | .Var id => some id
    | .Constant _ => none

def mapKeys (m : List (Asm.Operand × Int)) : List Asm.Operand :=
  m.map Prod.fst

/-- The pseudo-register-map invariant of an `Assembly` instance: the
running offset is four bytes per registered variable, the `n`-th
registered variable (in first-use order) holds offset `4 * (n + 1)`, and
no key is registered twice. -/
def WFAsm (st : AsmState) : Prop :=
  st.offset = 4 * (st.pseudo_registers.length : Int) ∧
  (∀ n (hn : n < st.pseudo_registers.length),
    (st.pseudo_registers.get ⟨n, hn⟩).2 = 4 * ((n : Int) + 1)) ∧
  (mapKeys st.pseudo_registers).Nodup

/-- A `Pseudo` operand is registered in the map (vacuous for the other
operand forms). -/
def RegOk (st : AsmState) (op : Asm.Operand) : Prop :=
  isPseudo op = true → ∃ w, mapLookup st.pseudo_registers op = some w

/-- The scenario-2 IR, used as a concrete instruction-selection run. -/
def sampleIR : Tac.Function :=
  ⟨"main",
    [.Binary .Subtract (.Constant 4) (.Constant 2) (.Var "tmp.1"),
     .Binary .Add (.Var "tmp.1") (.Constant 2) (.Var "tmp.2"),
     .Binary .Subtract (.Var "tmp.2") (.Constant 3) (.Var "tmp.3"),
     .Return (.Var "tmp.3")]⟩

/-- The instruction-selector output on `sampleIR`. -/
def sampleSel : Asm.Function :=
  ⟨"main",
    [.Mov (.Imm 4) (.Pseudo "tmp.1"),
     .Binary .Sub (.Imm 2) (.Pseudo "tmp.1"),
     .Mov (.Pseudo "tmp.1") (.Pseudo "tmp.2"),
     .Binary .Add (.Imm 2) (.Pseudo "tmp.2"),
     .Mov (.Pseudo "tmp.2") (.Pseudo "tmp.3"),
     .Binary .Sub (.Imm 3) (.Pseudo "tmp.3"),
     .Mov (.Pseudo "tmp.3") (.Register .AX),
     .Ret]⟩

/-- The final `Assembly` state on `sampleIR`. -/
def sampleSt : AsmState :=
  ⟨[(.Pseudo "tmp.1", 4), (.Pseudo "tmp.2", 8), (.Pseudo "tmp.3", 12)], 12⟩

/-! ### Scenario claims -/

/-- C6: lowering `4 - 2 + 2 - 3` (left-associated, as returned by the
parser) produces exactly `Binary(Sub, 4, 2, tmp.1)`, `Binary(Add, tmp.1,
2, tmp.2)`, `Binary(Sub, tmp.2, 3, tmp.3)`, `Return(tmp.3)`, with
temporaries numbered from 1 in creation order. -/
theorem scenario2_sub_add_sub :
    parseFunction ⟨"main", [.S (.Return (.Binary .Subtract
      (.Binary .Add (.Binary .Subtract (.Constant 4) (.Constant 2)) (.Constant 2))
      (.Constant 3)))]⟩ =
    some ⟨"main",
      [.Binary .Subtract (.Constant 4) (.Constant 2) (.Var "tmp.1"),
       .Binary .Add (.Var "tmp.1") (.Constant 2) (.Var "tmp.2"),
       .Binary .Subtract (.Var "tmp.2") (.Constant 3) (.Var "tmp.3"),
       .Return (.Var "tmp.3")]⟩ := by
  decide

/-- C7: a function body returning the constant 2 lowers to the IR
`[Return(Constant 2)]`; the instruction selector produces exactly
`Mov(Imm 2, AX); Ret` with an empty pseudo map, and the emitted text is
the fixed prologue, `movl $2, %eax`, and the epilogue bound to `Ret` —
nothing else. -/
theorem scenario1_return_two :
    parseFunction ⟨"main", [.S (.Return (.Constant 2))]⟩ =
      some ⟨"main", [.Return (.Constant 2)]⟩ ∧
    parseAsmFunction ⟨"main", [.Return (.Constant 2)]⟩ =
      some (⟨"main", [.Mov (.Imm 2) (.Register .AX), .Ret]⟩, ⟨[], 0⟩) ∧
    formatFunction ⟨"main", [.Mov (.Imm 2) (.Register .AX), .Ret]⟩ =
      some ("\t.globl main\nmain:\n\tpushq\t%rbp\n\tmovq\t%rsp, %rbp\n" ++
        "\tmovl\t$2, %eax\n" ++ "\tmovq\t%rbp, %rsp\n\tpopq\t%rbp\n\tret\n") := by
  refine ⟨by decide, by decide, ?_⟩
  decide

/-- C10: lowering `Break`/`Continue` with an absent loop label aborts
(models the panicking `unwrap`), and with a label present it emits
exactly one `Jump` to `break_<id>` / `continue_<id>`. -/
theorem break_continue_label_unwrap :
    (∀ st : TACState, parseStatement (.Break none) st = none) ∧
    (∀ st : TACState, parseStatement (.Continue none) st = none) ∧
    (∀ (st : TACState) (l : String),
      parseStatement (.Break (some l)) st =
        some (none, st.push (.Jump ("break_" ++ l)))) ∧
    (∀ (st : TACState) (l : String),
      parseStatement (.Continue (some l)) st =
        some (none, st.push (.Jump ("continue_" ++ l)))) := by
  exact ⟨fun _ => rfl, fun _ => rfl, fun _ _ => rfl, fun _ _ => rfl⟩

/-- C1 (divergence witness): lowering `0 && (-1)` emits the instruction
computing the right operand (`Unary(Negate, 1, tmp.1)`) FIRST, before
`JumpIfZero(0, and_false.1)` — so a zero left operand does not skip the
right operand's instructions at execution time, contradicting the claimed
emission order (left, JumpIfZero(left), right, JumpIfZero(right), ...). -/
theorem and_lowers_right_operand_before_left_jump :
    parseVal (.Binary .And (.Constant 0) (.Unary .Negate (.Constant 1))) initTAC =
    some (.Var "result.1",
      ⟨1, 1,
       [.Unary .Negate (.Constant 1) (.Var "tmp.1"),
        .JumpIfZero (.Constant 0) "and_false.1",
        .JumpIfZero (.Var "tmp.1") "and_false.1",
        .Copy (.Constant 1) (.Var "result.1"),
        .Jump "end.1",
        .Label "and_false.1",
        .Copy (.Constant 0) (.Var "result.1"),
        .Label "end.1"]⟩) := by
  decide

/-- C8: the whole lowering pipeline is a pure function of the syntax tree
and the platform flag: two runs, each from fresh counters and an empty
pseudo-register map, produce identical IR functions and identical
assembly text. -/
theorem pipeline_two_run_determinism :
    ∀ (f : AstFunction) (isLinux : Bool),
      parseFunction f = parseFunction f ∧
      fullPipeline isLinux f = fullPipeline isLinux f := by
  exact fun _ _ => ⟨rfl, rfl⟩

/-! ### Decimal rendering theory: `Nat.repr` is injective and digit-only -/

theorem digitsRec_of_lt {n : Nat} (h : n < 10) : digitsRec n = [Nat.digitChar n] := by
  unfold digitsRec
  simp [h]

theorem digitsRec_of_ge {n : Nat} (h : ¬ n < 10) :
    digitsRec n = digitsRec (n / 10) ++ [Nat.digitChar (n % 10)] := by
  conv_lhs => unfold digitsRec
  simp [h]

theorem digitsRec_ne_nil (n : Nat) : digitsRec n ≠ [] := by
  by_cases h : n < 10
  · rw [digitsRec_of_lt h]; simp
  · rw [digitsRec_of_ge h]; simp

theorem digitChar_isDigit {m : Nat} (h : m < 10) : (Nat.digitChar m).isDigit = true := by
  interval_cases m <;> decide

theorem digitChar_inj {a b : Nat} (ha : a < 10) (hb : b < 10)
    (h : Nat.digitChar a = Nat.digitChar b) : a = b := by
  have key : ∀ x y : Fin 10, Nat.digitChar x = Nat.digitChar y → x = y := by decide
  have := key ⟨a, ha⟩ ⟨b, hb⟩ h
  exact congrArg Fin.val this

theorem digitsRec_all_digits (n : Nat) : ∀ c ∈ digitsRec n, c.isDigit = true := by
  induction n using Nat.strong_induction_on with
  | _ n ih =>
    by_cases h : n < 10
    · rw [digitsRec_of_lt h]
      intro c hc
      simp at hc
      subst hc
      exact digitChar_isDigit h
    · rw [digitsRec_of_ge h]
      intro c hc
      rcases List.mem_append.mp hc with h1 | h2
      · exact ih (n / 10) (Nat.div_lt_self (by omega) (by norm_num)) c h1
      · simp at h2
        subst h2
        exact digitChar_isDigit (Nat.mod_lt _ (by norm_num))

theorem digitsRec_inj : ∀ n m : Nat, digitsRec n = digitsRec m → n = m := by
  intro n
  induction n using Nat.strong_induction_on with
  | _ n ih =>
    intro m h
    by_cases hn : n < 10 <;> by_cases hm : m < 10
    · rw [digitsRec_of_lt hn, digitsRec_of_lt hm] at h
      exact digitChar_inj hn hm (List.cons.inj h).1
    · rw [digitsRec_of_lt hn, digitsRec_of_ge hm] at h
      have hlen := congrArg List.length h
      have hpos := List.length_pos.mpr (digitsRec_ne_nil (m / 10))
      simp only [List.length_append, List.length_cons, List.length_nil] at hlen
      omega
    · rw [digitsRec_of_ge hn, digitsRec_of_lt hm] at h
      have hlen := congrArg List.length h
      have hpos := List.length_pos.mpr (digitsRec_ne_nil (n / 10))
      simp only [List.length_append, List.length_cons, List.length_nil] at hlen
      omega
    · rw [digitsRec_of_ge hn, digitsRec_of_ge hm] at h
      obtain ⟨h1, h2⟩ := List.append_inj' h (by simp)
      have hq := ih (n / 10) (Nat.div_lt_self (by omega) (by norm_num)) (m / 10) h1
      have hr := digitChar_inj (Nat.mod_lt _ (by norm_num)) (Nat.mod_lt _ (by norm_num))
        (List.cons.inj h2).1
      have hdn := Nat.div_add_mod n 10
      have hdm := Nat.div_add_mod m 10
      omega

theorem toDigitsCore_eq_digitsRec :
    ∀ fuel : Nat, 0 < fuel → ∀ (n : Nat) (acc : List Char), n < 10 ^ fuel →
      Nat.toDigitsCore 10 fuel n acc = digitsRec n ++ acc := by
  intro fuel
  induction fuel with
  | zero => omega
  | succ f ihf =>
    intro _ n acc hn
    simp only [Nat.toDigitsCore]
    by_cases h0 : n / 10 = 0
    · have hlt : n < 10 := (Nat.div_eq_zero_iff (by norm_num)).mp h0
      rw [if_pos h0, digitsRec_of_lt hlt, Nat.mod_eq_of_lt hlt]
      simp
    · rw [if_neg h0]
      have hge : ¬ n < 10 := by
        intro hc
        exact h0 ((Nat.div_eq_zero_iff (by norm_num)).mpr hc)
      have hf : 0 < f := by
        rcases Nat.eq_zero_or_pos f with hz | hp
        · subst hz
          simp at hn
          omega
        · exact hp
      have hdiv : n / 10 < 10 ^ f := by
        rw [Nat.div_lt_iff_lt_mul (by norm_num : (0:Nat) < 10)]
        calc n < 10 ^ (f + 1) := hn
        _ = 10 ^ f * 10 := by ring
      rw [ihf hf (n / 10) (Nat.digitChar (n % 10) :: acc) hdiv, digitsRec_of_ge hge]
      simp

theorem repr_data (n : Nat) : (Nat.repr n).data = digitsRec n := by
  have h1 : n < 10 ^ n ∨ n = 0 := by
    rcases Nat.eq_zero_or_pos n with hz | hp
    · right; exact hz
    · left; exact Nat.lt_pow_self (by norm_num) n
  have hn1 : n < 10 ^ (n + 1) := by
    rcases h1 with h | h
    · exact lt_of_lt_of_le h (Nat.pow_le_pow_right (by norm_num) (Nat.le_succ n))
    · subst h; norm_num
  show (Nat.toDigits 10 n).asString.data = digitsRec n
  unfold Nat.toDigits
  rw [toDigitsCore_eq_digitsRec (n + 1) (Nat.succ_pos n) n [] hn1]
  simp [List.asString]

theorem repr_inj {n m : Nat} (h : Nat.repr n = Nat.repr m) : n = m :=
  digitsRec_inj n m (by rw [← repr_data, ← repr_data, h])

theorem repr_all_digits (n : Nat) : ∀ c ∈ (Nat.repr n).data, c.isDigit = true := by
  rw [repr_data]
  exact digitsRec_all_digits n

theorem repr_data_ne_nil (n : Nat) : (Nat.repr n).data ≠ [] := by
  rw [repr_data]
  exact digitsRec_ne_nil n

/-! ### Label-name disambiguation -/

theorem strAppend_left_cancel {p a b : String} (h : p ++ a = p ++ b) : a = b := by
  have hd := congrArg String.data h
  rw [String.data_append, String.data_append] at hd
  exact String.ext (List.append_cancel_left hd)

theorem data_andF : ("and_false." : String).data =
    ['a', 'n', 'd', '_', 'f', 'a', 'l', 's', 'e', '.'] := rfl
theorem data_orF : ("or_false." : String).data =
    ['o', 'r', '_', 'f', 'a', 'l', 's', 'e', '.'] := rfl
theorem data_endDot : ("end." : String).data = ['e', 'n', 'd', '.'] := rfl
theorem data_endP : ("end" : String).data = ['e', 'n', 'd'] := rfl
theorem data_elseP : ("else" : String).data = ['e', 'l', 's', 'e'] := rfl
theorem data_exp2P : ("exp2" : String).data = ['e', 'x', 'p', '2'] := rfl
theorem data_breakP : ("break_" : String).data = ['b', 'r', 'e', 'a', 'k', '_'] := rfl
theorem data_continueP : ("continue_" : String).data =
    ['c', 'o', 'n', 't', 'i', 'n', 'u', 'e', '_'] := rfl
theorem data_startP : ("start_" : String).data = ['s', 't', 'a', 'r', 't', '_'] := rfl

theorem repr_data_head_digit (n : Nat) {c : Char} {l : List Char}
    (h : (Nat.repr n).data = c :: l) : c.isDigit = true := by
  apply repr_all_digits n
  rw [h]
  exact List.mem_cons_self c l

theorem no_dot_cons {a b : Nat} (h : (Nat.repr a).data = '.' :: (Nat.repr b).data) :
    False := by
  have := repr_data_head_digit a h
  simp at this

theorem ctrName_inj {k k' : LabelKind} {n n' : Nat} (h : ctrName k n = ctrName k' n') :
    k = k' ∧ n = n' := by
  have hd := congrArg String.data h
  rw [ctrName, ctrName, String.data_append, String.data_append] at hd
  cases k <;> cases k' <;>
    simp only [ctrHead, data_andF, data_orF, data_endDot, data_endP, data_elseP,
      data_exp2P] at hd <;>
    first
    | exact ⟨rfl, repr_inj (String.ext (List.append_cancel_left hd))⟩
    | (exfalso; exact no_dot_cons (by simpa using hd))
    | (exfalso; exact no_dot_cons (by simpa using hd.symm))
    | (exfalso; simp at hd)

theorem breakLabel_inj {i j : String} (h : breakLabel i = breakLabel j) : i = j :=
  strAppend_left_cancel h

theorem continueLabel_inj {i j : String} (h : continueLabel i = continueLabel j) : i = j :=
  strAppend_left_cancel h

theorem startLabel_inj {i j : String} (h : startLabel i = startLabel j) : i = j :=
  strAppend_left_cancel h

theorem breakLabel_ne_continueLabel (i j : String) : breakLabel i ≠ continueLabel j := by
  intro h
  have hd := congrArg String.data h
  rw [breakLabel, continueLabel, String.data_append, String.data_append,
    data_breakP, data_continueP] at hd
  simp at hd

theorem breakLabel_ne_startLabel (i j : String) : breakLabel i ≠ startLabel j := by
  intro h
  have hd := congrArg String.data h
  rw [breakLabel, startLabel, String.data_append, String.data_append,
    data_breakP, data_startP] at hd
  simp at hd

theorem continueLabel_ne_startLabel (i j : String) : continueLabel i ≠ startLabel j := by
  intro h
  have hd := congrArg String.data h
  rw [continueLabel, startLabel, String.data_append, String.data_append,
    data_continueP, data_startP] at hd
  simp at hd

theorem ctrName_ne_breakLabel (k : LabelKind) (n : Nat) (i : String) :
    ctrName k n ≠ breakLabel i := by
  intro h
  have hd := congrArg String.data h
  rw [ctrName, breakLabel, String.data_append, String.data_append, data_breakP] at hd
  cases k <;>
    simp only [ctrHead, data_andF, data_orF, data_endDot, data_endP, data_elseP,
      data_exp2P] at hd <;>
    simp at hd

theorem ctrName_ne_continueLabel (k : LabelKind) (n : Nat) (i : String) :
    ctrName k n ≠ continueLabel i := by
  intro h
  have hd := congrArg String.data h
  rw [ctrName, continueLabel, String.data_append, String.data_append, data_continueP] at hd
  cases k <;>
    simp only [ctrHead, data_andF, data_orF, data_endDot, data_endP, data_elseP,
      data_exp2P] at hd <;>
    simp at hd

theorem ctrName_ne_startLabel (k : LabelKind) (n : Nat) (i : String) :
    ctrName k n ≠ startLabel i := by
  intro h
  have hd := congrArg String.data h
  rw [ctrName, startLabel, String.data_append, String.data_append, data_startP] at hd
  cases k <;>
    simp only [ctrHead, data_andF, data_orF, data_endDot, data_endP, data_elseP,
      data_exp2P] at hd <;>
    simp at hd

/-- A counter label is never a loop label. -/
theorem ctr_not_loop {lo hi : Nat} {ids : List String} {name : String}
    (h1 : CtrLabel lo hi name) (h2 : LoopLabel ids name) : False := by
  obtain ⟨k, n, hn, _, _⟩ := h1
  obtain ⟨i, _, hcase⟩ := h2
  subst hn
  rcases hcase with h | h | h
  · exact ctrName_ne_breakLabel k n i h
  · exact ctrName_ne_continueLabel k n i h
  · exact ctrName_ne_startLabel k n i h

/-- Counter labels with disjoint counter ranges are distinct. -/
theorem ctr_range_disjoint {lo mid hi : Nat} {name : String}
    (h1 : CtrLabel lo mid name) (h2 : CtrLabel mid hi name) : False := by
  obtain ⟨k, n, hn, hlo, hmid⟩ := h1
  obtain ⟨k', n', hn', hmid', _⟩ := h2
  subst hn
  obtain ⟨_, rfl⟩ := ctrName_inj hn'
  omega

theorem ctrLabel_mono {lo lo' hi hi' : Nat} {name : String} (h : CtrLabel lo hi name)
    (h1 : lo' ≤ lo) (h2 : hi ≤ hi') : CtrLabel lo' hi' name := by
  obtain ⟨k, n, hn, ha, hb⟩ := h
  exact ⟨k, n, hn, by omega, by omega⟩

/-- A loop label of one id set equals a loop label of another only if the
id is shared. -/
theorem loop_loop_shared {ids1 ids2 : List String} {name : String}
    (h1 : LoopLabel ids1 name) (h2 : LoopLabel ids2 name) :
    ∃ i, i ∈ ids1 ∧ i ∈ ids2 := by
  obtain ⟨i, hi, hc1⟩ := h1
  obtain ⟨j, hj, hc2⟩ := h2
  refine ⟨i, hi, ?_⟩
  rcases hc1 with h | h | h <;> rcases hc2 with h' | h' | h' <;>
    first
    | (rw [h] at h'
       first
       | (rw [breakLabel_inj h'.symm] at hj; exact hj)
       | (rw [continueLabel_inj h'.symm] at hj; exact hj)
       | (rw [startLabel_inj h'.symm] at hj; exact hj)
       | (exact absurd h'.symm (breakLabel_ne_continueLabel _ _))
       | (exact absurd h'.symm (breakLabel_ne_startLabel _ _))
       | (exact absurd h' (breakLabel_ne_continueLabel _ _))
       | (exact absurd h' (breakLabel_ne_startLabel _ _))
       | (exact absurd h'.symm (continueLabel_ne_startLabel _ _))
       | (exact absurd h' (continueLabel_ne_startLabel _ _)))

theorem loopLabel_mono {ids1 ids2 : List String} {name : String}
    (h : LoopLabel ids1 name) (hsub : ids1 ⊆ ids2) : LoopLabel ids2 name := by
  obtain ⟨i, hi, hc⟩ := h
  exact ⟨i, hsub hi, hc⟩

/-! ### Fragment composition lemmas -/

theorem definedLabels_append (a b : List Tac.Instruction) :
    definedLabels (a ++ b) = definedLabels a ++ definedLabels b :=
  List.filterMap_append a b _

theorem jumpTargets_append (a b : List Tac.Instruction) :
    jumpTargets (a ++ b) = jumpTargets a ++ jumpTargets b :=
  List.filterMap_append a b _

theorem EnvTarget_nil {t : String} (h : EnvTarget [] t) : False := by
  obtain ⟨i, hi, _⟩ := h
  simp at hi

theorem pushOpt_eq (s : TACState) (oi : Option Tac.Instruction) :
    pushOpt s oi = s.pushMany (optInstrList oi) := by
  cases oi
  · simp [pushOpt, optInstrList, TACState.pushMany]
  · rfl

theorem pushMany_instructions (s : TACState) (l : List Tac.Instruction) :
    (s.pushMany l).instructions = s.instructions ++ l := rfl

theorem pushMany_label_count (s : TACState) (l : List Tac.Instruction) :
    (s.pushMany l).label_count = s.label_count := rfl

theorem push_eq_pushMany (s : TACState) (i : Tac.Instruction) :
    s.push i = s.pushMany [i] := rfl

theorem makeLabel_and (s : TACState) :
    makeLabel s "and" =
      (ctrName .andF (s.label_count + 1), { s with label_count := s.label_count + 1 }) := by
  unfold makeLabel
  rw [if_pos rfl]
  rfl

theorem makeLabel_or (s : TACState) :
    makeLabel s "or" =
      (ctrName .orF (s.label_count + 1), { s with label_count := s.label_count + 1 }) := by
  unfold makeLabel
  rw [if_neg (by decide), if_pos rfl]
  rfl

theorem makeLabel_end (s : TACState) :
    makeLabel s "end" =
      (ctrName .endP (s.label_count + 1), { s with label_count := s.label_count + 1 }) := by
  unfold makeLabel
  rw [if_neg (by decide), if_neg (by decide)]
  rfl

theorem makeLabel_else (s : TACState) :
    makeLabel s "else" =
      (ctrName .elseP (s.label_count + 1), { s with label_count := s.label_count + 1 }) := by
  unfold makeLabel
  rw [if_neg (by decide), if_neg (by decide)]
  rfl

theorem makeLabel_exp2 (s : TACState) :
    makeLabel s "exp2" =
      (ctrName .exp2P (s.label_count + 1), { s with label_count := s.label_count + 1 }) := by
  unfold makeLabel
  rw [if_neg (by decide), if_neg (by decide)]
  rfl

theorem makeLabel_result (s : TACState) :
    makeLabel s "result" =
      ("result" ++ Nat.repr (s.label_count + 1),
       { s with label_count := s.label_count + 1 }) := by
  unfold makeLabel
  rw [if_neg (by decide), if_neg (by decide)]

theorem CtrFrag.nil (lo hi : Nat) : CtrFrag lo hi [] := by
  refine ⟨?_, ?_, ?_⟩ <;> simp [definedLabels, jumpTargets]

theorem CtrFrag.widenCtr {lo hi lo' hi' : Nat} {tail : List Tac.Instruction}
    (h : CtrFrag lo hi tail) (h1 : lo' ≤ lo) (h2 : hi ≤ hi') : CtrFrag lo' hi' tail := by
  obtain ⟨hc, hnd, ht⟩ := h
  exact ⟨fun name hm => ctrLabel_mono (hc name hm) h1 h2, hnd, ht⟩

theorem CtrFrag.appendCtr {lo m hi : Nat} {A B : List Tac.Instruction}
    (hA : CtrFrag lo m A) (hB : CtrFrag m hi B) (h1 : lo ≤ m) (h2 : m ≤ hi) :
    CtrFrag lo hi (A ++ B) := by
  obtain ⟨hAc, hAnd, hAt⟩ := hA
  obtain ⟨hBc, hBnd, hBt⟩ := hB
  refine ⟨?_, ?_, ?_⟩
  · intro name hm
    rw [definedLabels_append] at hm
    rcases List.mem_append.mp hm with h | h
    · exact ctrLabel_mono (hAc name h) le_rfl h2
    · exact ctrLabel_mono (hBc name h) h1 le_rfl
  · rw [definedLabels_append, List.nodup_append]
    refine ⟨hAnd, hBnd, ?_⟩
    intro name hmA hmB
    exact ctr_range_disjoint (hAc name hmA) (hBc name hmB)
  · intro t hm
    rw [jumpTargets_append] at hm
    rw [definedLabels_append]
    rcases List.mem_append.mp hm with h | h
    · exact List.mem_append.mpr (Or.inl (hAt t h))
    · exact List.mem_append.mpr (Or.inr (hBt t h))

theorem StmtTail.of_ctr {lo hi : Nat} {ids env : List String} {tail : List Tac.Instruction}
    (h : CtrFrag lo hi tail) : StmtTail lo hi ids env tail := by
  obtain ⟨hc, hnd, ht⟩ := h
  exact ⟨fun name hm => Or.inl (hc name hm), hnd,
    fun t hm => Or.inl (ht t hm)⟩

theorem StmtTail.widenTail {lo hi lo' hi' : Nat} {ids ids' env : List String}
    {tail : List Tac.Instruction} (h : StmtTail lo hi ids env tail)
    (h1 : lo' ≤ lo) (h2 : hi ≤ hi') (h3 : ids ⊆ ids') : StmtTail lo' hi' ids' env tail := by
  obtain ⟨hc, hnd, ht⟩ := h
  refine ⟨?_, hnd, ht⟩
  intro name hm
  rcases hc name hm with hcl | hll
  · exact Or.inl (ctrLabel_mono hcl h1 h2)
  · exact Or.inr (loopLabel_mono hll h3)

theorem StmtTail.appendTail {lo m hi : Nat} {ids1 ids2 env : List String}
    {A B : List Tac.Instruction}
    (hA : StmtTail lo m ids1 env A) (hB : StmtTail m hi ids2 env B)
    (h1 : lo ≤ m) (h2 : m ≤ hi) (hdis : ∀ i, i ∈ ids1 → i ∈ ids2 → False) :
    StmtTail lo hi (ids1 ++ ids2) env (A ++ B) := by
  obtain ⟨hAc, hAnd, hAt⟩ := hA
  obtain ⟨hBc, hBnd, hBt⟩ := hB
  refine ⟨?_, ?_, ?_⟩
  · intro name hm
    rw [definedLabels_append] at hm
    rcases List.mem_append.mp hm with h | h
    · rcases hAc name h with hcl | hll
      · exact Or.inl (ctrLabel_mono hcl le_rfl h2)
      · exact Or.inr (loopLabel_mono hll (List.subset_append_left _ _))
    · rcases hBc name h with hcl | hll
      · exact Or.inl (ctrLabel_mono hcl h1 le_rfl)
      · exact Or.inr (loopLabel_mono hll (List.subset_append_right _ _))
  · rw [definedLabels_append, List.nodup_append]
    refine ⟨hAnd, hBnd, ?_⟩
    intro name hmA hmB
    rcases hAc name hmA with hcl | hll <;> rcases hBc name hmB with hcl' | hll'
    · exact ctr_range_disjoint hcl hcl'
    · exact ctr_not_loop hcl hll'
    · exact ctr_not_loop hcl' hll
    · obtain ⟨i, hi1, hi2⟩ := loop_loop_shared hll hll'
      exact hdis i hi1 hi2
  · intro t hm
    rw [jumpTargets_append] at hm
    rw [definedLabels_append]
    rcases List.mem_append.mp hm with h | h
    · rcases hAt t h with hd | he
      · exact Or.inl (List.mem_append.mpr (Or.inl hd))
      · exact Or.inr he
    · rcases hBt t h with hd | he
      · exact Or.inl (List.mem_append.mpr (Or.inr hd))
      · exact Or.inr he

/-- Labels of a statement fragment never collide with a loop label whose
id is outside the fragment's id set. -/
theorem stmtTail_label_ne_loop {lo hi : Nat} {ids env : List String}
    {tail : List Tac.Instruction} (h : StmtTail lo hi ids env tail)
    {i : String} (hni : ¬ i ∈ ids) {name : String} (hm : name ∈ definedLabels tail)
    (hcase : name = breakLabel i ∨ name = continueLabel i ∨ name = startLabel i) :
    False := by
  obtain ⟨hc, _, _⟩ := h
  rcases hc name hm with hcl | hll
  · exact ctr_not_loop hcl ⟨i, List.mem_singleton_self i, hcase⟩
  · obtain ⟨j, hj1, hj2⟩ := loop_loop_shared hll ⟨i, List.mem_singleton_self i, hcase⟩
    rw [List.mem_singleton.mp hj2] at hj1
    exact hni hj1

/-! ### The `parse_val` label invariant -/

theorem ExprInv.reflExpr (s : TACState) : ExprInv s s :=
  ⟨le_rfl, [], by simp, CtrFrag.nil _ _⟩

theorem ExprInv.transExpr {s1 s2 s3 : TACState} (h12 : ExprInv s1 s2) (h23 : ExprInv s2 s3) :
    ExprInv s1 s3 := by
  obtain ⟨hle1, t1, he1, hf1⟩ := h12
  obtain ⟨hle2, t2, he2, hf2⟩ := h23
  exact ⟨le_trans hle1 hle2, t1 ++ t2, by rw [he2, he1, List.append_assoc],
    CtrFrag.appendCtr hf1 hf2 hle1 hle2⟩

theorem CtrFrag.inert {lo hi : Nat} {l : List Tac.Instruction}
    (h1 : definedLabels l = []) (h2 : jumpTargets l = []) (hle : lo ≤ hi) :
    CtrFrag lo hi l := by
  refine ⟨?_, ?_, ?_⟩ <;> simp [h1, h2]

/-- Pushing an instruction that defines no label and jumps nowhere. -/
theorem ExprInv.push_inert {s s' : TACState} (h : ExprInv s s') (i : Tac.Instruction)
    (h1 : definedLabels [i] = []) (h2 : jumpTargets [i] = []) :
    ExprInv s (s'.push i) := by
  refine ExprInv.transExpr h ⟨le_rfl, [i], rfl, CtrFrag.inert h1 h2 le_rfl⟩

/-- The temp-counter bump of `make_temporary_name` does not affect the
label invariant. -/
theorem ExprInv.bump_temp {s s' : TACState} (h : ExprInv s s') (t : Nat) :
    ExprInv s { s' with temp_count := t } := by
  obtain ⟨hle, tail, he, hf⟩ := h
  exact ⟨hle, tail, he, hf⟩

theorem CtrFrag.two_labels {lo hi : Nat} (k1 k2 : LabelKind) (n : Nat) (hk : k1 ≠ k2)
    (hlo : lo < n) (hhi : n ≤ hi) {tail : List Tac.Instruction}
    (hdef : definedLabels tail = [ctrName k1 n, ctrName k2 n])
    (htar : ∀ t ∈ jumpTargets tail, t = ctrName k1 n ∨ t = ctrName k2 n) :
    CtrFrag lo hi tail := by
  refine ⟨?_, ?_, ?_⟩
  · intro name hm
    rw [hdef] at hm
    rcases List.mem_cons.mp hm with rfl | hm'
    · exact ⟨k1, n, rfl, hlo, hhi⟩
    · rcases List.mem_singleton.mp hm' with rfl
      exact ⟨k2, n, rfl, hlo, hhi⟩
  · rw [hdef]
    refine List.nodup_cons.mpr ⟨?_, List.nodup_singleton _⟩
    intro hmem
    rcases List.mem_singleton.mp hmem with h
    exact hk (ctrName_inj h).1
  · intro t hm
    rw [hdef]
    rcases htar t hm with rfl | rfl <;> simp

theorem endDot_eq (n : Nat) : "end." ++ Nat.repr n = ctrName .endDot n := rfl

/-! Classified label lists -/

theorem ctrName_notin_loop {ids : List String} {k : LabelKind} {n : Nat}
    (hll : LoopLabel ids (ctrName k n)) : False := by
  obtain ⟨i, -, hcase⟩ := hll
  rcases hcase with h | h | h
  · exact ctrName_ne_breakLabel k n i h
  · exact ctrName_ne_continueLabel k n i h
  · exact ctrName_ne_startLabel k n i h

theorem Classified.not_mem_ctr {lo hi : Nat} {ids : List String} {l : List String}
    (h : Classified lo hi ids l) {k : LabelKind} {n : Nat} (hn : n ≤ lo ∨ hi < n) :
    ctrName k n ∉ l := by
  intro hm
  rcases h _ hm with ⟨k', n', he, h1, h2⟩ | hll
  · obtain ⟨-, rfl⟩ := ctrName_inj he
    omega
  · exact ctrName_notin_loop hll

theorem Classified.not_mem_loop {lo hi : Nat} {ids : List String} {l : List String}
    (h : Classified lo hi ids l) {i : String} (hni : i ∉ ids) :
    breakLabel i ∉ l ∧ continueLabel i ∉ l ∧ startLabel i ∉ l := by
  refine ⟨?_, ?_, ?_⟩ <;> intro hm <;>
    rcases h _ hm with hcl | hll
  · exact ctr_not_loop hcl ⟨i, List.mem_singleton_self i, Or.inl rfl⟩
  · obtain ⟨j, hj1, hj2⟩ := loop_loop_shared hll ⟨i, List.mem_singleton_self i, Or.inl rfl⟩
    rw [List.mem_singleton.mp hj2] at hj1
    exact hni hj1
  · exact ctr_not_loop hcl ⟨i, List.mem_singleton_self i, Or.inr (Or.inl rfl)⟩
  · obtain ⟨j, hj1, hj2⟩ := loop_loop_shared hll ⟨i, List.mem_singleton_self i, Or.inr (Or.inl rfl)⟩
    rw [List.mem_singleton.mp hj2] at hj1
    exact hni hj1
  · exact ctr_not_loop hcl ⟨i, List.mem_singleton_self i, Or.inr (Or.inr rfl)⟩
  · obtain ⟨j, hj1, hj2⟩ := loop_loop_shared hll ⟨i, List.mem_singleton_self i, Or.inr (Or.inr rfl)⟩
    rw [List.mem_singleton.mp hj2] at hj1
    exact hni hj1

theorem Classified.disjoint {lo1 hi1 lo2 hi2 : Nat} {ids1 ids2 : List String}
    {l1 l2 : List String} (h1 : Classified lo1 hi1 ids1 l1)
    (h2 : Classified lo2 hi2 ids2 l2) (hr : hi1 ≤ lo2)
    (hdis : ∀ i, i ∈ ids1 → i ∈ ids2 → False) : l1.Disjoint l2 := by
  intro a ha1 ha2
  rcases h1 _ ha1 with hcl1 | hll1 <;> rcases h2 _ ha2 with hcl2 | hll2
  · obtain ⟨k, n, rfl, ha, hb⟩ := hcl1
    obtain ⟨k', n', he, hc, hd⟩ := hcl2
    obtain ⟨-, rfl⟩ := ctrName_inj he
    omega
  · exact ctr_not_loop hcl1 hll2
  · exact ctr_not_loop hcl2 hll1
  · obtain ⟨i, hi1, hi2⟩ := loop_loop_shared hll1 hll2
    exact hdis i hi1 hi2

theorem StmtTail.toCtr {lo hi : Nat} {tail : List Tac.Instruction}
    (h : StmtTail lo hi [] [] tail) : CtrFrag lo hi tail := by
  obtain ⟨hc, hnd, ht⟩ := h
  refine ⟨?_, hnd, ?_⟩
  · intro name hm
    rcases hc name hm with hcl | hll
    · exact hcl
    · obtain ⟨i, hi, -⟩ := hll
      simp at hi
  · intro t hm
    rcases ht t hm with hdm | he
    · exact hdm
    · exact absurd he EnvTarget_nil

/-- The common branch skeleton shared by `if/else` statements and
conditional expressions: a first-jump label and an end label allocated
before the two branch bodies, the first-jump label defined between the
bodies and the end label defined last. -/
theorem branch_tail_spec {m s p q n1 n2 : Nat} {k1 k2 : LabelKind}
    {ids1 ids2 env : List String} {T D1 D2 : List Tac.Instruction}
    (hd : definedLabels T =
      definedLabels D1 ++ (ctrName k1 n1 :: (definedLabels D2 ++ [ctrName k2 n2])))
    (ht : ∀ t ∈ jumpTargets T, t = ctrName k1 n1 ∨ t = ctrName k2 n2 ∨
      t ∈ jumpTargets D1 ∨ t ∈ jumpTargets D2)
    (hB1 : StmtTail s p ids1 env D1) (hB2 : StmtTail p q ids2 env D2)
    (hn1 : m < n1) (hn1s : n1 ≤ s) (hn2 : m < n2) (hn2s : n2 ≤ s) (hne : n1 ≠ n2)
    (hsp : s ≤ p) (hpq : p ≤ q)
    (hdisj : ∀ i, i ∈ ids1 → i ∈ ids2 → False) :
    StmtTail m q (ids1 ++ ids2) env T := by
  obtain ⟨hc1, hnd1, ht1⟩ := hB1
  obtain ⟨hc2, hnd2, ht2⟩ := hB2
  have hcls1 : Classified s p ids1 (definedLabels D1) := hc1
  have hcls2 : Classified p q ids2 (definedLabels D2) := hc2
  refine ⟨?_, ?_, ?_⟩
  · intro name hm
    rw [hd] at hm
    simp only [List.mem_append, List.mem_cons, List.not_mem_nil, or_false] at hm
    rcases hm with h | h | h | h
    · rcases hc1 name h with hcl | hll
      · exact Or.inl (ctrLabel_mono hcl (by omega) (by omega))
      · exact Or.inr (loopLabel_mono hll (List.subset_append_left _ _))
    · exact Or.inl ⟨k1, n1, h, by omega, by omega⟩
    · rcases hc2 name h with hcl | hll
      · exact Or.inl (ctrLabel_mono hcl (by omega) (by omega))
      · exact Or.inr (loopLabel_mono hll (List.subset_append_right _ _))
    · exact Or.inl ⟨k2, n2, h, by omega, by omega⟩
  · rw [hd]
    rw [List.nodup_append]
    refine ⟨hnd1, ?_, ?_⟩
    · rw [List.nodup_cons]
      refine ⟨?_, ?_⟩
      · simp only [List.mem_append, List.mem_cons, List.not_mem_nil, or_false]
        rintro (h | h)
        · exact hcls2.not_mem_ctr (Or.inl (by omega)) h
        · exact hne (ctrName_inj h).2
      · rw [List.nodup_append]
        refine ⟨hnd2, List.nodup_singleton _, ?_⟩
        intro a ha hb
        rw [List.mem_singleton] at hb
        subst hb
        exact hcls2.not_mem_ctr (Or.inl (by omega)) ha
    · intro a ha hb
      simp only [List.mem_cons, List.mem_append, List.not_mem_nil, or_false] at hb
      rcases hb with rfl | hb | rfl
      · exact hcls1.not_mem_ctr (Or.inl (by omega)) ha
      · exact Classified.disjoint hcls1 hcls2 le_rfl hdisj ha hb
      · exact hcls1.not_mem_ctr (Or.inl (by omega)) ha
  · intro t hm
    rcases ht t hm with rfl | rfl | h | h
    · refine Or.inl ?_
      rw [hd]
      simp
    · refine Or.inl ?_
      rw [hd]
      simp
    · rcases ht1 t h with hdm | he
      · refine Or.inl ?_
        rw [hd]
        simp only [List.mem_append, List.mem_cons, List.not_mem_nil, or_false]
        exact Or.inl hdm
      · exact Or.inr he
    · rcases ht2 t h with hdm | he
      · refine Or.inl ?_
        rw [hd]
        simp only [List.mem_append, List.mem_cons, List.not_mem_nil, or_false]
        exact Or.inr (Or.inr (Or.inl hdm))
      · exact Or.inr he

/-- The `if` without `else` skeleton: one end label allocated before the
branch body and defined after it. -/
theorem ifend_tail_spec {m s p n : Nat} {k : LabelKind} {ids env : List String}
    {T D : List Tac.Instruction}
    (hd : definedLabels T = definedLabels D ++ [ctrName k n])
    (ht : ∀ t ∈ jumpTargets T, t = ctrName k n ∨ t ∈ jumpTargets D)
    (hB : StmtTail s p ids env D)
    (hn : m < n) (hns : n ≤ s) (hsp : s ≤ p) :
    StmtTail m p ids env T := by
  obtain ⟨hc, hnd, htB⟩ := hB
  have hcls : Classified s p ids (definedLabels D) := hc
  refine ⟨?_, ?_, ?_⟩
  · intro name hm
    rw [hd] at hm
    simp only [List.mem_append, List.mem_cons, List.not_mem_nil, or_false] at hm
    rcases hm with h | h
    · rcases hc name h with hcl | hll
      · exact Or.inl (ctrLabel_mono hcl (by omega) le_rfl)
      · exact Or.inr hll
    · exact Or.inl ⟨k, n, h, by omega, by omega⟩
  · rw [hd, List.nodup_append]
    refine ⟨hnd, List.nodup_singleton _, ?_⟩
    intro a ha hb
    rw [List.mem_singleton] at hb
    subst hb
    exact hcls.not_mem_ctr (Or.inl (by omega)) ha
  · intro t hm
    rcases ht t hm with rfl | h
    · refine Or.inl ?_
      rw [hd]
      simp
    · rcases htB t h with hdm | he
      · refine Or.inl ?_
        rw [hd]
        simp only [List.mem_append]
        exact Or.inl hdm
      · exact Or.inr he

/-- The `while` skeleton: `Label(continue_i)`, condition, body,
`Label(break_i)`. -/
theorem while_tail_spec {lo m p : Nat} {i : String} {ids env : List String}
    {T C B : List Tac.Instruction}
    (hd : definedLabels T =
      continueLabel i :: (definedLabels C ++ (definedLabels B ++ [breakLabel i])))
    (ht : ∀ t ∈ jumpTargets T, t = continueLabel i ∨ t = breakLabel i ∨
      t ∈ jumpTargets C ∨ t ∈ jumpTargets B)
    (hC : CtrFrag lo m C) (hB : StmtTail m p ids (i :: env) B)
    (hlom : lo ≤ m) (hmp : m ≤ p) (hni : i ∉ ids) :
    StmtTail lo p (i :: ids) env T := by
  obtain ⟨hcC, hndC, htC⟩ := hC
  obtain ⟨hcB, hndB, htB⟩ := hB
  have hclsC : Classified lo m [] (definedLabels C) := fun x hx => Or.inl (hcC x hx)
  have hclsB : Classified m p ids (definedLabels B) := hcB
  have hCn := hclsC.not_mem_loop (i := i) (by simp)
  have hBn := hclsB.not_mem_loop hni
  refine ⟨?_, ?_, ?_⟩
  · intro name hm
    rw [hd] at hm
    simp only [List.mem_cons, List.mem_append, List.not_mem_nil, or_false] at hm
    rcases hm with rfl | h | h | rfl
    · exact Or.inr ⟨i, by simp, Or.inr (Or.inl rfl)⟩
    · exact Or.inl (ctrLabel_mono (hcC name h) le_rfl (by omega))
    · rcases hcB name h with hcl | hll
      · exact Or.inl (ctrLabel_mono hcl (by omega) le_rfl)
      · exact Or.inr (loopLabel_mono hll (List.subset_cons_self _ _))
    · exact Or.inr ⟨i, by simp, Or.inl rfl⟩
  · rw [hd, List.nodup_cons]
    constructor
    · simp only [List.mem_append, List.mem_cons, List.not_mem_nil, or_false]
      rintro (h | h | h)
      · exact hCn.2.1 h
      · exact hBn.2.1 h
      · exact breakLabel_ne_continueLabel i i h.symm
    · rw [List.nodup_append]
      refine ⟨hndC, ?_, ?_⟩
      · rw [List.nodup_append]
        refine ⟨hndB, List.nodup_singleton _, ?_⟩
        intro a ha hb
        rw [List.mem_singleton] at hb
        subst hb
        exact hBn.1 ha
      · intro a ha hb
        simp only [List.mem_append, List.mem_cons, List.not_mem_nil, or_false] at hb
        rcases hb with hb | rfl
        · exact Classified.disjoint hclsC hclsB le_rfl (by simp) ha hb
        · exact hCn.1 ha
  · intro t hm
    rcases ht t hm with rfl | rfl | h | h
    · refine Or.inl ?_
      rw [hd]
      simp
    · refine Or.inl ?_
      rw [hd]
      simp
    · refine Or.inl ?_
      rw [hd]
      simp only [List.mem_cons, List.mem_append]
      exact Or.inr (Or.inl (htC t h))
    · rcases htB t h with hdm | he
      · refine Or.inl ?_
        rw [hd]
        simp only [List.mem_cons, List.mem_append]
        exact Or.inr (Or.inr (Or.inl hdm))
      · obtain ⟨j, hj, hcase⟩ := he
        rcases List.mem_cons.mp hj with rfl | hj'
        · refine Or.inl ?_
          rw [hd]
          rcases hcase with rfl | rfl <;> simp
        · exact Or.inr ⟨j, hj', hcase⟩

/-- The `do-while` skeleton: `Label(start_i)`, body, `Label(continue_i)`,
condition, `Label(break_i)`. -/
theorem dowhile_tail_spec {lo m p : Nat} {i : String} {ids env : List String}
    {T B C : List Tac.Instruction}
    (hd : definedLabels T = startLabel i ::
      (definedLabels B ++ (continueLabel i :: (definedLabels C ++ [breakLabel i]))))
    (ht : ∀ t ∈ jumpTargets T, t = startLabel i ∨
      t ∈ jumpTargets B ∨ t ∈ jumpTargets C)
    (hB : StmtTail lo m ids (i :: env) B) (hC : CtrFrag m p C)
    (hlom : lo ≤ m) (hmp : m ≤ p) (hni : i ∉ ids) :
    StmtTail lo p (i :: ids) env T := by
  obtain ⟨hcB, hndB, htB⟩ := hB
  obtain ⟨hcC, hndC, htC⟩ := hC
  have hclsB : Classified lo m ids (definedLabels B) := hcB
  have hclsC : Classified m p [] (definedLabels C) := fun x hx => Or.inl (hcC x hx)
  have hBn := hclsB.not_mem_loop hni
  have hCn := hclsC.not_mem_loop (i := i) (by simp)
  refine ⟨?_, ?_, ?_⟩
  · intro name hm
    rw [hd] at hm
    simp only [List.mem_cons, List.mem_append, List.not_mem_nil, or_false] at hm
    rcases hm with rfl | h | rfl | h | rfl
    · exact Or.inr ⟨i, by simp, Or.inr (Or.inr rfl)⟩
    · rcases hcB name h with hcl | hll
      · exact Or.inl (ctrLabel_mono hcl le_rfl (by omega))
      · exact Or.inr (loopLabel_mono hll (List.subset_cons_self _ _))
    · exact Or.inr ⟨i, by simp, Or.inr (Or.inl rfl)⟩
    · exact Or.inl (ctrLabel_mono (hcC name h) (by omega) le_rfl)
    · exact Or.inr ⟨i, by simp, Or.inl rfl⟩
  · rw [hd, List.nodup_cons]
    constructor
    · simp only [List.mem_append, List.mem_cons, List.not_mem_nil, or_false]
      rintro (h | h | h | h)
      · exact hBn.2.2 h
      · exact continueLabel_ne_startLabel i i h.symm
      · exact hCn.2.2 h
      · exact breakLabel_ne_startLabel i i h.symm
    · rw [List.nodup_append]
      refine ⟨hndB, ?_, ?_⟩
      · rw [List.nodup_cons]
        constructor
        · simp only [List.mem_append, List.mem_cons, List.not_mem_nil, or_false]
          rintro (h | h)
          · exact hCn.2.1 h
          · exact breakLabel_ne_continueLabel i i h.symm
        · rw [List.nodup_append]
          refine ⟨hndC, List.nodup_singleton _, ?_⟩
          intro a ha hb
          rw [List.mem_singleton] at hb
          subst hb
          exact hCn.1 ha
      · intro a ha hb
        simp only [List.mem_cons, List.mem_append, List.not_mem_nil, or_false] at hb
        rcases hb with rfl | hb | rfl
        · exact hBn.2.1 ha
        · exact Classified.disjoint hclsB hclsC le_rfl (by simp) ha hb
        · exact hBn.1 ha
  · intro t hm
    rcases ht t hm with rfl | h | h
    · refine Or.inl ?_
      rw [hd]
      simp
    · rcases htB t h with hdm | he
      · refine Or.inl ?_
        rw [hd]
        simp only [List.mem_cons, List.mem_append]
        exact Or.inr (Or.inl hdm)
      · obtain ⟨j, hj, hcase⟩ := he
        rcases List.mem_cons.mp hj with rfl | hj'
        · refine Or.inl ?_
          rw [hd]
          rcases hcase with rfl | rfl <;> simp
        · exact Or.inr ⟨j, hj', hcase⟩
    · refine Or.inl ?_
      rw [hd]
      simp only [List.mem_cons, List.mem_append]
      exact Or.inr (Or.inr (Or.inr (Or.inl (htC t h))))

/-- The `for` skeleton: initializer, `Label(start_i)`, optional condition,
body, `Label(continue_i)`, optional post-expression, `Label(break_i)`. -/
theorem for_tail_spec {lo a b c d : Nat} {i : String} {ids env : List String}
    {T I C B P : List Tac.Instruction}
    (hd : definedLabels T = definedLabels I ++ (startLabel i ::
      (definedLabels C ++ (definedLabels B ++ (continueLabel i ::
        (definedLabels P ++ [breakLabel i]))))))
    (ht : ∀ t ∈ jumpTargets T, t = startLabel i ∨ t = breakLabel i ∨
      t ∈ jumpTargets I ∨ t ∈ jumpTargets C ∨ t ∈ jumpTargets B ∨ t ∈ jumpTargets P)
    (hI : CtrFrag lo a I) (hC : CtrFrag a b C) (hB : StmtTail b c ids (i :: env) B)
    (hP : CtrFrag c d P)
    (h1 : lo ≤ a) (h2 : a ≤ b) (h3 : b ≤ c) (h4 : c ≤ d) (hni : i ∉ ids) :
    StmtTail lo d (i :: ids) env T := by
  obtain ⟨hcI, hndI, htI⟩ := hI
  obtain ⟨hcC, hndC, htC⟩ := hC
  obtain ⟨hcB, hndB, htB⟩ := hB
  obtain ⟨hcP, hndP, htP⟩ := hP
  have hclsI : Classified lo a [] (definedLabels I) := fun x hx => Or.inl (hcI x hx)
  have hclsC : Classified a b [] (definedLabels C) := fun x hx => Or.inl (hcC x hx)
  have hclsB : Classified b c ids (definedLabels B) := hcB
  have hclsP : Classified c d [] (definedLabels P) := fun x hx => Or.inl (hcP x hx)
  have hIn := hclsI.not_mem_loop (i := i) (by simp)
  have hCn := hclsC.not_mem_loop (i := i) (by simp)
  have hBn := hclsB.not_mem_loop hni
  have hPn := hclsP.not_mem_loop (i := i) (by simp)
  refine ⟨?_, ?_, ?_⟩
  · intro name hm
    rw [hd] at hm
    simp only [List.mem_cons, List.mem_append, List.not_mem_nil, or_false] at hm
    rcases hm with h | rfl | h | h | rfl | h | rfl
    · exact Or.inl (ctrLabel_mono (hcI name h) le_rfl (by omega))
    · exact Or.inr ⟨i, by simp, Or.inr (Or.inr rfl)⟩
    · exact Or.inl (ctrLabel_mono (hcC name h) (by omega) (by omega))
    · rcases hcB name h with hcl | hll
      · exact Or.inl (ctrLabel_mono hcl (by omega) (by omega))
      · exact Or.inr (loopLabel_mono hll (List.subset_cons_self _ _))
    · exact Or.inr ⟨i, by simp, Or.inr (Or.inl rfl)⟩
    · exact Or.inl (ctrLabel_mono (hcP name h) (by omega) le_rfl)
    · exact Or.inr ⟨i, by simp, Or.inl rfl⟩
  · rw [hd, List.nodup_append]
    refine ⟨hndI, ?_, ?_⟩
    · rw [List.nodup_cons]
      constructor
      · simp only [List.mem_append, List.mem_cons, List.not_mem_nil, or_false]
        rintro (h | h | h | h | h)
        · exact hCn.2.2 h
        · exact hBn.2.2 h
        · exact continueLabel_ne_startLabel i i h.symm
        · exact hPn.2.2 h
        · exact breakLabel_ne_startLabel i i h.symm
      · rw [List.nodup_append]
        refine ⟨hndC, ?_, ?_⟩
        · rw [List.nodup_append]
          refine ⟨hndB, ?_, ?_⟩
          · rw [List.nodup_cons]
            constructor
            · simp only [List.mem_append, List.mem_cons, List.not_mem_nil, or_false]
              rintro (h | h)
              · exact hPn.2.1 h
              · exact breakLabel_ne_continueLabel i i h.symm
            · rw [List.nodup_append]
              refine ⟨hndP, List.nodup_singleton _, ?_⟩
              intro x hx hy
              rw [List.mem_singleton] at hy
              subst hy
              exact hPn.1 hx
          · intro x hx hy
            simp only [List.mem_cons, List.mem_append, List.not_mem_nil, or_false] at hy
            rcases hy with rfl | hy | rfl
            · exact hBn.2.1 hx
            · exact Classified.disjoint hclsB hclsP le_rfl (by simp) hx hy
            · exact hBn.1 hx
        · intro x hx hy
          simp only [List.mem_append, List.mem_cons, List.not_mem_nil, or_false] at hy
          rcases hy with hy | rfl | hy | rfl
          · exact Classified.disjoint hclsC hclsB le_rfl (by simp) hx hy
          · exact hCn.2.1 hx
          · exact Classified.disjoint hclsC hclsP (by omega) (by simp) hx hy
          · exact hCn.1 hx
    · intro x hx hy
      simp only [List.mem_cons, List.mem_append, List.not_mem_nil, or_false] at hy
      rcases hy with rfl | hy | hy | rfl | hy | rfl
      · exact hIn.2.2 hx
      · exact Classified.disjoint hclsI hclsC le_rfl (by simp) hx hy
      · exact Classified.disjoint hclsI hclsB (by omega) (by simp) hx hy
      · exact hIn.2.1 hx
      · exact Classified.disjoint hclsI hclsP (by omega) (by simp) hx hy
      · exact hIn.1 hx
  · intro t hm
    rcases ht t hm with rfl | rfl | h | h | h | h
    · refine Or.inl ?_
      rw [hd]
      simp
    · refine Or.inl ?_
      rw [hd]
      simp
    · refine Or.inl ?_
      rw [hd]
      simp only [List.mem_append, List.mem_cons]
      exact Or.inl (htI t h)
    · refine Or.inl ?_
      rw [hd]
      simp only [List.mem_append, List.mem_cons]
      exact Or.inr (Or.inr (Or.inl (htC t h)))
    · rcases htB t h with hdm | he
      · refine Or.inl ?_
        rw [hd]
        simp only [List.mem_append, List.mem_cons]
        exact Or.inr (Or.inr (Or.inr (Or.inl hdm)))
      · obtain ⟨j, hj, hcase⟩ := he
        rcases List.mem_cons.mp hj with rfl | hj'
        · refine Or.inl ?_
          rw [hd]
          rcases hcase with rfl | rfl <;> simp
        · exact Or.inr ⟨j, hj', hcase⟩
    · refine Or.inl ?_
      rw [hd]
      simp only [List.mem_append, List.mem_cons]
      exact Or.inr (Or.inr (Or.inr (Or.inr (Or.inr (Or.inl (htP t h))))))

/-- The conditional-expression skeleton, derived from the branch skeleton. -/
theorem cond_frag_spec {m s p q n1 n2 : Nat} {k1 k2 : LabelKind}
    {T D1 D2 : List Tac.Instruction}
    (hd : definedLabels T =
      definedLabels D1 ++ (ctrName k1 n1 :: (definedLabels D2 ++ [ctrName k2 n2])))
    (ht : ∀ t ∈ jumpTargets T, t = ctrName k1 n1 ∨ t = ctrName k2 n2 ∨
      t ∈ jumpTargets D1 ∨ t ∈ jumpTargets D2)
    (hB1 : CtrFrag s p D1) (hB2 : CtrFrag p q D2)
    (hn1 : m < n1) (hn1s : n1 ≤ s) (hn2 : m < n2) (hn2s : n2 ≤ s) (hne : n1 ≠ n2)
    (hsp : s ≤ p) (hpq : p ≤ q) :
    CtrFrag m q T :=
  (@branch_tail_spec m s p q n1 n2 k1 k2 [] [] [] T D1 D2 hd ht
    (StmtTail.of_ctr hB1) (StmtTail.of_ctr hB2) hn1 hn1s hn2 hn2s hne hsp hpq
    (by simp)).toCtr

theorem parseVal_spec (e : Expression) : ∀ (s : TACState) (v : Tac.Val) (s' : TACState),
    parseVal e s = some (v, s') → ExprInv s s' := by
  induction e with
  | Constant i =>
    intro s v s' h
    simp only [parseVal, Option.some.injEq, Prod.mk.injEq] at h
    obtain ⟨-, rfl⟩ := h
    exact ExprInv.reflExpr s
  | Var id =>
    intro s v s' h
    simp only [parseVal, Option.some.injEq, Prod.mk.injEq] at h
    obtain ⟨-, rfl⟩ := h
    exact ExprInv.reflExpr s
  | Unary op inner ih =>
    intro s v s' h
    rw [parseVal] at h
    rcases hrec : parseVal inner s with _ | ⟨src, s1⟩ <;> rw [hrec] at h <;> simp only [] at h
    · cases h
    · simp only [makeTemporaryName, Option.some.injEq, Prod.mk.injEq] at h
      obtain ⟨-, rfl⟩ := h
      exact ((ih s src s1 hrec).bump_temp _).push_inert _ (by rfl) (by rfl)
  | Binary op e1 e2 ih1 ih2 =>
    intro s v s' h
    cases op
    case And =>
      rw [parseVal] at h
      rcases h1 : parseVal e1 s with _ | ⟨v1, s1⟩ <;> rw [h1] at h <;> simp only [] at h
      · cases h
      rcases h2 : parseVal e2 s1 with _ | ⟨v2, s2⟩ <;> rw [h2] at h <;> simp only [] at h
      · cases h
      rw [makeLabel_and] at h
      simp only [Option.some.injEq, Prod.mk.injEq] at h
      obtain ⟨-, rfl⟩ := h
      have hA := (ih1 s v1 s1 h1).transExpr (ih2 s1 v2 s2 h2)
      obtain ⟨hle, tail, he, hf⟩ := hA
      refine ⟨le_trans hle (Nat.le_succ _), tail ++
        [Tac.Instruction.JumpIfZero v1 (ctrName .andF (s2.label_count + 1)),
         Tac.Instruction.JumpIfZero v2 (ctrName .andF (s2.label_count + 1)),
         Tac.Instruction.Copy (.Constant 1) (.Var ("result." ++ Nat.repr (s2.label_count + 1))),
         Tac.Instruction.Jump ("end." ++ Nat.repr (s2.label_count + 1)),
         Tac.Instruction.Label (ctrName .andF (s2.label_count + 1)),
         Tac.Instruction.Copy (.Constant 0) (.Var ("result." ++ Nat.repr (s2.label_count + 1))),
         Tac.Instruction.Label ("end." ++ Nat.repr (s2.label_count + 1))], ?_, ?_⟩
      · simp only [pushMany_instructions]
        rw [he, List.append_assoc]
      · refine CtrFrag.appendCtr hf ?_ hle (Nat.le_succ _)
        refine CtrFrag.two_labels .andF .endDot (s2.label_count + 1) (by decide)
          (Nat.lt_succ_self _) le_rfl ?_ ?_
        · simp [definedLabels, endDot_eq]
        · intro t hm
          simp only [jumpTargets, List.filterMap_cons, List.filterMap_nil, List.mem_cons,
            List.not_mem_nil, or_false, endDot_eq] at hm
          tauto
    case Or =>
      rw [parseVal] at h
      rcases h1 : parseVal e1 s with _ | ⟨v1, s1⟩ <;> rw [h1] at h <;> simp only [] at h
      · cases h
      rcases h2 : parseVal e2 s1 with _ | ⟨v2, s2⟩ <;> rw [h2] at h <;> simp only [] at h
      · cases h
      rw [makeLabel_or] at h
      simp only [Option.some.injEq, Prod.mk.injEq] at h
      obtain ⟨-, rfl⟩ := h
      have hA := (ih1 s v1 s1 h1).transExpr (ih2 s1 v2 s2 h2)
      obtain ⟨hle, tail, he, hf⟩ := hA
      refine ⟨le_trans hle (Nat.le_succ _), tail ++
        [Tac.Instruction.JumpIfNotZero v1 (ctrName .orF (s2.label_count + 1)),
         Tac.Instruction.JumpIfNotZero v2 (ctrName .orF (s2.label_count + 1)),
         Tac.Instruction.Copy (.Constant 0) (.Var ("result." ++ Nat.repr (s2.label_count + 1))),
         Tac.Instruction.Jump ("end." ++ Nat.repr (s2.label_count + 1)),
         Tac.Instruction.Label (ctrName .orF (s2.label_count + 1)),
         Tac.Instruction.Copy (.Constant 1) (.Var ("result." ++ Nat.repr (s2.label_count + 1))),
         Tac.Instruction.Label ("end." ++ Nat.repr (s2.label_count + 1))], ?_, ?_⟩
      · simp only [pushMany_instructions]
        rw [he, List.append_assoc]
      · refine CtrFrag.appendCtr hf ?_ hle (Nat.le_succ _)
        refine CtrFrag.two_labels .orF .endDot (s2.label_count + 1) (by decide)
          (Nat.lt_succ_self _) le_rfl ?_ ?_
        · simp [definedLabels, endDot_eq]
        · intro t hm
          simp only [jumpTargets, List.filterMap_cons, List.filterMap_nil, List.mem_cons,
            List.not_mem_nil, or_false, endDot_eq] at hm
          tauto
    all_goals (
      simp only [parseVal] at h
      rcases h1 : parseVal e1 s with _ | ⟨v1, s1⟩ <;> rw [h1] at h <;> simp only [] at h
      · cases h
      rcases h2 : parseVal e2 s1 with _ | ⟨v2, s2⟩ <;> rw [h2] at h <;> simp only [] at h
      · cases h
      simp only [makeTemporaryName, Option.some.injEq, Prod.mk.injEq] at h
      obtain ⟨-, rfl⟩ := h
      exact ((((ih1 s v1 s1 h1).transExpr (ih2 s1 v2 s2 h2))).bump_temp _).push_inert _
        (by rfl) (by rfl))
  | Assignment a rhs iha ihr =>
    intro s v s' h
    cases a <;> simp only [parseVal] at h <;> try (exact absurd h (by simp))
    case Var id =>
      rcases h1 : parseVal rhs s with _ | ⟨result, s1⟩ <;> rw [h1] at h <;> simp only [] at h
      · cases h
      · simp only [Option.some.injEq, Prod.mk.injEq] at h
        obtain ⟨-, rfl⟩ := h
        exact (ihr s result s1 h1).push_inert _ (by rfl) (by rfl)
  | Conditional condition exp1 exp2 ihc ih1 ih2 =>
    intro s v s' h
    rw [parseVal] at h
    rcases hc : parseVal condition s with _ | ⟨rc, s1⟩ <;> rw [hc] at h <;> simp only [] at h
    · cases h
    replace h :
        (match parseVal exp1
            (({s1 with label_count := s1.label_count + 1 + 1 + 1}).push
              (.JumpIfZero rc (ctrName .exp2P (s1.label_count + 1)))) with
         | none => none
         | some (r1, s6) =>
           match parseVal exp2
               (((s6.push (.Copy r1
                    (.Var ("result" ++ Nat.repr (s1.label_count + 1 + 1 + 1))))).push
                  (.Jump (ctrName .endP (s1.label_count + 1 + 1)))).push
                 (.Label (ctrName .exp2P (s1.label_count + 1)))) with
           | none => none
           | some (r2, s8) =>
             some (Tac.Val.Var ("result" ++ Nat.repr (s1.label_count + 1 + 1 + 1)),
               (s8.push (.Copy r2
                  (.Var ("result" ++ Nat.repr (s1.label_count + 1 + 1 + 1))))).push
                 (.Label (ctrName .endP (s1.label_count + 1 + 1))))) = some (v, s') := h
    rcases h1 : parseVal exp1
        (({s1 with label_count := s1.label_count + 1 + 1 + 1}).push
          (.JumpIfZero rc (ctrName .exp2P (s1.label_count + 1)))) with _ | ⟨r1, s6⟩ <;>
      rw [h1] at h <;> simp only [] at h
    · cases h
    rcases h2 : parseVal exp2
        (((s6.push (.Copy r1
             (.Var ("result" ++ Nat.repr (s1.label_count + 1 + 1 + 1))))).push
           (.Jump (ctrName .endP (s1.label_count + 1 + 1)))).push
          (.Label (ctrName .exp2P (s1.label_count + 1)))) with _ | ⟨r2, s8⟩ <;>
      rw [h2] at h <;> simp only [] at h
    · cases h
    simp only [Option.some.injEq, Prod.mk.injEq] at h
    obtain ⟨-, rfl⟩ := h
    obtain ⟨hleC, tC, heC, hfC⟩ := ihc s rc s1 hc
    obtain ⟨hle1, t1, he1, hf1⟩ := ih1 _ r1 s6 h1
    obtain ⟨hle2, t2, he2, hf2⟩ := ih2 _ r2 s8 h2
    have hle1' : s1.label_count + 1 + 1 + 1 ≤ s6.label_count := hle1
    have hle2' : s6.label_count ≤ s8.label_count := hle2
    have hf1' : CtrFrag (s1.label_count + 1 + 1 + 1) s6.label_count t1 := hf1
    have hf2' : CtrFrag s6.label_count s8.label_count t2 := hf2
    have he1' : s6.instructions = s1.instructions ++
        ([Tac.Instruction.JumpIfZero rc (ctrName .exp2P (s1.label_count + 1))] ++ t1) := by
      rw [he1]
      simp [TACState.push]
    have he2' : s8.instructions = s6.instructions ++
        ([Tac.Instruction.Copy r1 (.Var ("result" ++ Nat.repr (s1.label_count + 1 + 1 + 1))),
          Tac.Instruction.Jump (ctrName .endP (s1.label_count + 1 + 1)),
          Tac.Instruction.Label (ctrName .exp2P (s1.label_count + 1))] ++ t2) := by
      rw [he2]
      simp [TACState.push]
    refine ⟨by simp [TACState.push]; omega,
      tC ++ ([Tac.Instruction.JumpIfZero rc (ctrName .exp2P (s1.label_count + 1))] ++ t1 ++
        ([Tac.Instruction.Copy r1 (.Var ("result" ++ Nat.repr (s1.label_count + 1 + 1 + 1))),
          Tac.Instruction.Jump (ctrName .endP (s1.label_count + 1 + 1)),
          Tac.Instruction.Label (ctrName .exp2P (s1.label_count + 1))] ++ t2 ++
         [Tac.Instruction.Copy r2 (.Var ("result" ++ Nat.repr (s1.label_count + 1 + 1 + 1))),
          Tac.Instruction.Label (ctrName .endP (s1.label_count + 1 + 1))])), ?_, ?_⟩
    · simp only [TACState.push]
      rw [he2', he1', heC]
      simp
    · have hdd : definedLabels
          ([Tac.Instruction.JumpIfZero rc (ctrName .exp2P (s1.label_count + 1))] ++ t1 ++
            ([Tac.Instruction.Copy r1
                (.Var ("result" ++ Nat.repr (s1.label_count + 1 + 1 + 1))),
              Tac.Instruction.Jump (ctrName .endP (s1.label_count + 1 + 1)),
              Tac.Instruction.Label (ctrName .exp2P (s1.label_count + 1))] ++ t2 ++
             [Tac.Instruction.Copy r2
                (.Var ("result" ++ Nat.repr (s1.label_count + 1 + 1 + 1))),
              Tac.Instruction.Label (ctrName .endP (s1.label_count + 1 + 1))])) =
          definedLabels t1 ++ (ctrName .exp2P (s1.label_count + 1) ::
            (definedLabels t2 ++ [ctrName .endP (s1.label_count + 1 + 1)])) := by
        simp [definedLabels, definedLabels_append]
      have htt : ∀ t ∈ jumpTargets
          ([Tac.Instruction.JumpIfZero rc (ctrName .exp2P (s1.label_count + 1))] ++ t1 ++
            ([Tac.Instruction.Copy r1
                (.Var ("result" ++ Nat.repr (s1.label_count + 1 + 1 + 1))),
              Tac.Instruction.Jump (ctrName .endP (s1.label_count + 1 + 1)),
              Tac.Instruction.Label (ctrName .exp2P (s1.label_count + 1))] ++ t2 ++
             [Tac.Instruction.Copy r2
                (.Var ("result" ++ Nat.repr (s1.label_count + 1 + 1 + 1))),
              Tac.Instruction.Label (ctrName .endP (s1.label_count + 1 + 1))])),
          t = ctrName .exp2P (s1.label_count + 1) ∨
          t = ctrName .endP (s1.label_count + 1 + 1) ∨
          t ∈ jumpTargets t1 ∨ t ∈ jumpTargets t2 := by
        intro t hm
        simp only [jumpTargets_append, jumpTargets, List.filterMap_cons,
          List.filterMap_append, List.filterMap_nil, List.mem_append, List.mem_cons,
          List.not_mem_nil, or_false, List.nil_append] at hm
        tauto
      refine CtrFrag.appendCtr hfC ?_ hleC ?_
      · exact cond_frag_spec hdd htt hf1' hf2' (by omega) (by omega) (by omega)
          (by omega) (by omega) hle1' hle2'
      · show s1.label_count ≤ s8.label_count
        omega


/-! ### The `parse_statement` label invariant -/

theorem optInstrList_defined {oi : Option Tac.Instruction}
    (h : oi = none ∨ ∃ v, oi = some (.Return v)) :
    definedLabels (optInstrList oi) = [] := by
  rcases h with rfl | ⟨v, rfl⟩ <;> rfl

theorem optInstrList_targets {oi : Option Tac.Instruction}
    (h : oi = none ∨ ∃ v, oi = some (.Return v)) :
    jumpTargets (optInstrList oi) = [] := by
  rcases h with rfl | ⟨v, rfl⟩ <;> rfl

theorem StmtTail.append_inert {lo hi : Nat} {ids env : List String}
    {tail l : List Tac.Instruction} (h : StmtTail lo hi ids env tail)
    (h1 : definedLabels l = []) (h2 : jumpTargets l = []) :
    StmtTail lo hi ids env (tail ++ l) := by
  obtain ⟨hc, hnd, ht⟩ := h
  refine ⟨?_, ?_, ?_⟩
  · intro name hm
    rw [definedLabels_append, h1, List.append_nil] at hm
    exact hc name hm
  · rw [definedLabels_append, h1, List.append_nil]
    exact hnd
  · intro t hm
    rw [jumpTargets_append, h2, List.append_nil] at hm
    rw [definedLabels_append, h1, List.append_nil]
    exact ht t hm

theorem FragOut.reflFrag (ids env : List String) (s : TACState) : FragOut ids env s s :=
  ⟨le_rfl, [], by simp, StmtTail.of_ctr (CtrFrag.nil _ _)⟩

theorem FragOut.of_expr {s s' : TACState} (h : ExprInv s s') (ids env : List String) :
    FragOut ids env s s' := by
  obtain ⟨hle, tail, he, hf⟩ := h
  exact ⟨hle, tail, he, StmtTail.of_ctr hf⟩

/-- Per-constructor computation rules for the label bookkeeping. -/
theorem definedLabels_nil : definedLabels [] = [] := rfl

theorem definedLabels_cons_label (n : String) (l : List Tac.Instruction) :
    definedLabels (.Label n :: l) = n :: definedLabels l := rfl

theorem definedLabels_cons_jump (t : String) (l : List Tac.Instruction) :
    definedLabels (.Jump t :: l) = definedLabels l := rfl

theorem definedLabels_cons_jz (c : Tac.Val) (t : String) (l : List Tac.Instruction) :
    definedLabels (.JumpIfZero c t :: l) = definedLabels l := rfl

theorem definedLabels_cons_jnz (c : Tac.Val) (t : String) (l : List Tac.Instruction) :
    definedLabels (.JumpIfNotZero c t :: l) = definedLabels l := rfl

theorem jumpTargets_nil : jumpTargets [] = [] := rfl

theorem jumpTargets_cons_label (n : String) (l : List Tac.Instruction) :
    jumpTargets (.Label n :: l) = jumpTargets l := rfl

theorem jumpTargets_cons_jump (t : String) (l : List Tac.Instruction) :
    jumpTargets (.Jump t :: l) = t :: jumpTargets l := rfl

theorem jumpTargets_cons_jz (c : Tac.Val) (t : String) (l : List Tac.Instruction) :
    jumpTargets (.JumpIfZero c t :: l) = t :: jumpTargets l := rfl

theorem jumpTargets_cons_jnz (c : Tac.Val) (t : String) (l : List Tac.Instruction) :
    jumpTargets (.JumpIfNotZero c t :: l) = t :: jumpTargets l := rfl

/-- State bookkeeping for `push`/`pushOpt`. -/
theorem push_label_count (s : TACState) (i : Tac.Instruction) :
    (s.push i).label_count = s.label_count := rfl

theorem push_instructions (s : TACState) (i : Tac.Instruction) :
    (s.push i).instructions = s.instructions ++ [i] := rfl

theorem pushOpt_label_count (s : TACState) (oi : Option Tac.Instruction) :
    (pushOpt s oi).label_count = s.label_count := by
  cases oi <;> rfl

theorem pushOpt_instructions (s : TACState) (oi : Option Tac.Instruction) :
    (pushOpt s oi).instructions = s.instructions ++ optInstrList oi := by
  cases oi
  · simp [pushOpt, optInstrList]
  · rfl

/-- The `while` composition: continue label, condition fragment, jump to
break, body fragment with pushed return instruction, back-jump, break
label. -/
theorem while_case {env ids : List String} {i : String} {s s1 s8 sF : TACState}
    {rc : Tac.Val} {oi2 : Option Tac.Instruction}
    (hC : ExprInv (s.push (.Label (continueLabel i))) s1)
    (hoi : oi2 = none ∨ ∃ v, oi2 = some (.Return v))
    (hB : FragOut ids (i :: env) (s1.push (.JumpIfZero rc (breakLabel i))) s8)
    (hni : i ∉ ids)
    (hlcF : sF.label_count = s8.label_count)
    (hinF : sF.instructions = s8.instructions ++ (optInstrList oi2 ++
      [Tac.Instruction.Jump (continueLabel i), Tac.Instruction.Label (breakLabel i)])) :
    FragOut (i :: ids) env s sF := by
  obtain ⟨hleC, tC, heC, hfC⟩ := hC
  obtain ⟨hleB, tB, heB, hfB⟩ := hB
  have hleC' : s.label_count ≤ s1.label_count := hleC
  have hleB' : s1.label_count ≤ s8.label_count := hleB
  have hfC' : CtrFrag s.label_count s1.label_count tC := hfC
  have hfB' : StmtTail s1.label_count s8.label_count ids (i :: env) tB := hfB
  have heC' : s1.instructions = s.instructions ++
      ([Tac.Instruction.Label (continueLabel i)] ++ tC) := by
    rw [heC]
    simp [TACState.push]
  have heB' : s8.instructions = s1.instructions ++
      ([Tac.Instruction.JumpIfZero rc (breakLabel i)] ++ tB) := by
    rw [heB]
    simp [TACState.push]
  have hdB := optInstrList_defined hoi
  have htB := optInstrList_targets hoi
  refine ⟨by omega, [Tac.Instruction.Label (continueLabel i)] ++ tC ++
      ([Tac.Instruction.JumpIfZero rc (breakLabel i)] ++ (tB ++ optInstrList oi2) ++
        [Tac.Instruction.Jump (continueLabel i), Tac.Instruction.Label (breakLabel i)]),
    ?_, ?_⟩
  · rw [hinF, heB', heC']
    simp
  · rw [hlcF]
    have hBfrag : StmtTail s1.label_count s8.label_count ids (i :: env)
        (tB ++ optInstrList oi2) := hfB'.append_inert hdB htB
    refine while_tail_spec ?_ ?_ hfC' hBfrag hleC' hleB' hni
    · simp only [definedLabels_append, definedLabels_cons_label, definedLabels_cons_jump,
        definedLabels_cons_jz, definedLabels_nil, hdB, List.append_nil, List.nil_append,
        List.singleton_append, List.cons_append]
    · intro t hm
      simp only [jumpTargets_append, jumpTargets_cons_label, jumpTargets_cons_jump,
        jumpTargets_cons_jz, jumpTargets_nil, htB, List.append_nil, List.nil_append,
        List.singleton_append, List.cons_append, List.mem_append, List.mem_cons,
        List.not_mem_nil, or_false] at hm ⊢
      tauto

/-- The `if`/`else` composition. -/
theorem ifelse_case {env ids1 ids2 : List String} {s s1 s5 s8 sF : TACState}
    {rc : Tac.Val} {oi1 oi2 : Option Tac.Instruction}
    (hC : ExprInv s s1)
    (hoi1 : oi1 = none ∨ ∃ v, oi1 = some (.Return v))
    (hoi2 : oi2 = none ∨ ∃ v, oi2 = some (.Return v))
    (hT : FragOut ids1 env (({s1 with label_count := s1.label_count + 1 + 1}).push
        (.JumpIfZero rc (ctrName .elseP (s1.label_count + 1 + 1)))) s5)
    (hE : FragOut ids2 env (((pushOpt s5 oi1).push
        (.Jump (ctrName .endP (s1.label_count + 1)))).push
        (.Label (ctrName .elseP (s1.label_count + 1 + 1)))) s8)
    (hdisj : ∀ j, j ∈ ids1 → j ∈ ids2 → False)
    (hlcF : sF.label_count = s8.label_count)
    (hinF : sF.instructions = s8.instructions ++ (optInstrList oi2 ++
      [Tac.Instruction.Label (ctrName .endP (s1.label_count + 1))])) :
    FragOut (ids1 ++ ids2) env s sF := by
  obtain ⟨hleC, tC, heC, hfC⟩ := hC
  obtain ⟨hleT, tT, heT, hfT⟩ := hT
  obtain ⟨hleE, tE, heE, hfE⟩ := hE
  have hleC' : s.label_count ≤ s1.label_count := hleC
  have hleT' : s1.label_count + 1 + 1 ≤ s5.label_count := hleT
  have hfT' : StmtTail (s1.label_count + 1 + 1) s5.label_count ids1 env tT := hfT
  have heT' : s5.instructions = s1.instructions ++
      ([Tac.Instruction.JumpIfZero rc (ctrName .elseP (s1.label_count + 1 + 1))] ++ tT) := by
    rw [heT]
    simp [TACState.push]
  have hleE' : s5.label_count ≤ s8.label_count := by
    have := hleE
    simpa [pushOpt_label_count, push_label_count] using this
  have hfE' : StmtTail s5.label_count s8.label_count ids2 env tE := by
    have := hfE
    simpa [pushOpt_label_count, push_label_count] using this
  have heE' : s8.instructions = s5.instructions ++
      ((optInstrList oi1 ++ [Tac.Instruction.Jump (ctrName .endP (s1.label_count + 1)),
        Tac.Instruction.Label (ctrName .elseP (s1.label_count + 1 + 1))]) ++ tE) := by
    rw [heE]
    simp [push_instructions, pushOpt_instructions]
  have hd1 := optInstrList_defined hoi1
  have hd2 := optInstrList_defined hoi2
  have ht1 := optInstrList_targets hoi1
  have ht2 := optInstrList_targets hoi2
  refine ⟨by omega, tC ++
      ([Tac.Instruction.JumpIfZero rc (ctrName .elseP (s1.label_count + 1 + 1))] ++
        (tT ++ optInstrList oi1) ++
        ([Tac.Instruction.Jump (ctrName .endP (s1.label_count + 1)),
          Tac.Instruction.Label (ctrName .elseP (s1.label_count + 1 + 1))] ++
          (tE ++ optInstrList oi2) ++
          [Tac.Instruction.Label (ctrName .endP (s1.label_count + 1))])), ?_, ?_⟩
  · rw [hinF, heE', heT', heC]
    simp
  · rw [hlcF]
    have hTfrag : StmtTail (s1.label_count + 1 + 1) s5.label_count ids1 env
        (tT ++ optInstrList oi1) := hfT'.append_inert hd1 ht1
    have hEfrag : StmtTail s5.label_count s8.label_count ids2 env
        (tE ++ optInstrList oi2) := hfE'.append_inert hd2 ht2
    have hdd : definedLabels
        ([Tac.Instruction.JumpIfZero rc (ctrName .elseP (s1.label_count + 1 + 1))] ++
          (tT ++ optInstrList oi1) ++
          ([Tac.Instruction.Jump (ctrName .endP (s1.label_count + 1)),
            Tac.Instruction.Label (ctrName .elseP (s1.label_count + 1 + 1))] ++
            (tE ++ optInstrList oi2) ++
            [Tac.Instruction.Label (ctrName .endP (s1.label_count + 1))])) =
        definedLabels (tT ++ optInstrList oi1) ++
          (ctrName .elseP (s1.label_count + 1 + 1) ::
            (definedLabels (tE ++ optInstrList oi2) ++
              [ctrName .endP (s1.label_count + 1)])) := by
      simp only [definedLabels_append, definedLabels_cons_label, definedLabels_cons_jump,
        definedLabels_cons_jz, definedLabels_nil, hd1, hd2, List.append_nil,
        List.nil_append, List.singleton_append, List.cons_append]
    have htt : ∀ t ∈ jumpTargets
        ([Tac.Instruction.JumpIfZero rc (ctrName .elseP (s1.label_count + 1 + 1))] ++
          (tT ++ optInstrList oi1) ++
          ([Tac.Instruction.Jump (ctrName .endP (s1.label_count + 1)),
            Tac.Instruction.Label (ctrName .elseP (s1.label_count + 1 + 1))] ++
            (tE ++ optInstrList oi2) ++
            [Tac.Instruction.Label (ctrName .endP (s1.label_count + 1))])),
        t = ctrName .elseP (s1.label_count + 1 + 1) ∨
        t = ctrName .endP (s1.label_count + 1) ∨
        t ∈ jumpTargets (tT ++ optInstrList oi1) ∨
        t ∈ jumpTargets (tE ++ optInstrList oi2) := by
      intro t hm
      simp only [jumpTargets_append, jumpTargets_cons_label, jumpTargets_cons_jump,
        jumpTargets_cons_jz, jumpTargets_nil, ht1, ht2, List.append_nil, List.nil_append,
        List.singleton_append, List.cons_append, List.mem_append, List.mem_cons,
        List.not_mem_nil, or_false] at hm ⊢
      tauto
    have hbranch := branch_tail_spec (m := s1.label_count) hdd htt hTfrag hEfrag
      (by omega) (by omega) (by omega) (by omega) (by omega) hleT' hleE' hdisj
    have hcomp := StmtTail.appendTail
      (StmtTail.of_ctr hfC : StmtTail s.label_count s1.label_count [] env tC)
      hbranch hleC' (by omega) (by simp)
    simpa using hcomp

/-- The `if` without `else` composition. -/
theorem ifend_case {env ids : List String} {s s1 s4 sF : TACState}
    {rc : Tac.Val} {oi : Option Tac.Instruction}
    (hC : ExprInv s s1)
    (hoi : oi = none ∨ ∃ v, oi = some (.Return v))
    (hT : FragOut ids env (({s1 with label_count := s1.label_count + 1}).push
        (.JumpIfZero rc (ctrName .endP (s1.label_count + 1)))) s4)
    (hlcF : sF.label_count = s4.label_count)
    (hinF : sF.instructions = s4.instructions ++ (optInstrList oi ++
      [Tac.Instruction.Label (ctrName .endP (s1.label_count + 1))])) :
    FragOut ids env s sF := by
  obtain ⟨hleC, tC, heC, hfC⟩ := hC
  obtain ⟨hleT, tT, heT, hfT⟩ := hT
  have hleC' : s.label_count ≤ s1.label_count := hleC
  have hleT' : s1.label_count + 1 ≤ s4.label_count := hleT
  have hfT' : StmtTail (s1.label_count + 1) s4.label_count ids env tT := hfT
  have heT' : s4.instructions = s1.instructions ++
      ([Tac.Instruction.JumpIfZero rc (ctrName .endP (s1.label_count + 1))] ++ tT) := by
    rw [heT]
    simp [TACState.push]
  have hd1 := optInstrList_defined hoi
  have ht1 := optInstrList_targets hoi
  refine ⟨by omega, tC ++
      ([Tac.Instruction.JumpIfZero rc (ctrName .endP (s1.label_count + 1))] ++
        (tT ++ optInstrList oi) ++
        [Tac.Instruction.Label (ctrName .endP (s1.label_count + 1))]), ?_, ?_⟩
  · rw [hinF, heT', heC]
    simp
  · rw [hlcF]
    have hTfrag : StmtTail (s1.label_count + 1) s4.label_count ids env
        (tT ++ optInstrList oi) := hfT'.append_inert hd1 ht1
    have hdd : definedLabels
        ([Tac.Instruction.JumpIfZero rc (ctrName .endP (s1.label_count + 1))] ++
          (tT ++ optInstrList oi) ++
          [Tac.Instruction.Label (ctrName .endP (s1.label_count + 1))]) =
        definedLabels (tT ++ optInstrList oi) ++
          [ctrName .endP (s1.label_count + 1)] := by
      simp only [definedLabels_append, definedLabels_cons_label, definedLabels_cons_jump,
        definedLabels_cons_jz, definedLabels_nil, hd1, List.append_nil, List.nil_append,
        List.singleton_append, List.cons_append]
    have htt : ∀ t ∈ jumpTargets
        ([Tac.Instruction.JumpIfZero rc (ctrName .endP (s1.label_count + 1))] ++
          (tT ++ optInstrList oi) ++
          [Tac.Instruction.Label (ctrName .endP (s1.label_count + 1))]),
        t = ctrName .endP (s1.label_count + 1) ∨
        t ∈ jumpTargets (tT ++ optInstrList oi) := by
      intro t hm
      simp only [jumpTargets_append, jumpTargets_cons_label, jumpTargets_cons_jump,
        jumpTargets_cons_jz, jumpTargets_nil, ht1, List.append_nil, List.nil_append,
        List.singleton_append, List.cons_append, List.mem_append, List.mem_cons,
        List.not_mem_nil, or_false] at hm ⊢
      tauto
    have hifend := ifend_tail_spec (m := s1.label_count) hdd htt hTfrag
      (by omega) (by omega) hleT'
    have hcomp := StmtTail.appendTail
      (StmtTail.of_ctr hfC : StmtTail s.label_count s1.label_count [] env tC)
      hifend hleC' (by omega) (by simp)
    simpa using hcomp

/-- The `do-while` composition. -/
theorem dowhile_case {env ids : List String} {i : String} {s s8 s4 sF : TACState}
    {v : Tac.Val} {oi2 : Option Tac.Instruction}
    (hB : FragOut ids (i :: env) (s.push (.Label (startLabel i))) s8)
    (hoi : oi2 = none ∨ ∃ w, oi2 = some (.Return w))
    (hC : ExprInv ((pushOpt s8 oi2).push (.Label (continueLabel i))) s4)
    (hni : i ∉ ids)
    (hlcF : sF.label_count = s4.label_count)
    (hinF : sF.instructions = s4.instructions ++
      [Tac.Instruction.JumpIfNotZero v (startLabel i),
       Tac.Instruction.Label (breakLabel i)]) :
    FragOut (i :: ids) env s sF := by
  obtain ⟨hleB, tB, heB, hfB⟩ := hB
  obtain ⟨hleC, tC, heC, hfC⟩ := hC
  have hleB' : s.label_count ≤ s8.label_count := hleB
  have hfB' : StmtTail s.label_count s8.label_count ids (i :: env) tB := hfB
  have heB' : s8.instructions = s.instructions ++
      ([Tac.Instruction.Label (startLabel i)] ++ tB) := by
    rw [heB]
    simp [TACState.push]
  have hleC' : s8.label_count ≤ s4.label_count := by
    have := hleC
    simpa [pushOpt_label_count, push_label_count] using this
  have hfC' : CtrFrag s8.label_count s4.label_count tC := by
    have := hfC
    simpa [pushOpt_label_count, push_label_count] using this
  have heC' : s4.instructions = s8.instructions ++
      ((optInstrList oi2 ++ [Tac.Instruction.Label (continueLabel i)]) ++ tC) := by
    rw [heC]
    simp [push_instructions, pushOpt_instructions]
  have hd2 := optInstrList_defined hoi
  have ht2 := optInstrList_targets hoi
  refine ⟨by omega, [Tac.Instruction.Label (startLabel i)] ++
      ((tB ++ optInstrList oi2) ++
        ([Tac.Instruction.Label (continueLabel i)] ++ tC ++
          [Tac.Instruction.JumpIfNotZero v (startLabel i),
           Tac.Instruction.Label (breakLabel i)])), ?_, ?_⟩
  · rw [hinF, heC', heB']
    simp
  · rw [hlcF]
    have hBfrag : StmtTail s.label_count s8.label_count ids (i :: env)
        (tB ++ optInstrList oi2) := hfB'.append_inert hd2 ht2
    refine dowhile_tail_spec ?_ ?_ hBfrag hfC' hleB' hleC' hni
    · simp only [definedLabels_append, definedLabels_cons_label, definedLabels_cons_jump,
        definedLabels_cons_jz, definedLabels_cons_jnz, definedLabels_nil, hd2,
        List.append_nil, List.nil_append, List.singleton_append, List.cons_append]
    · intro t hm
      simp only [jumpTargets_append, jumpTargets_cons_label, jumpTargets_cons_jump,
        jumpTargets_cons_jz, jumpTargets_cons_jnz, jumpTargets_nil, ht2, List.append_nil,
        List.nil_append, List.singleton_append, List.cons_append, List.mem_append,
        List.mem_cons, List.not_mem_nil, or_false] at hm ⊢
      tauto

/-- The `for` composition, no condition. -/
theorem for_case_none {env ids : List String} {i : String} {s s1 s5 s7 sF : TACState}
    {oi : Option Tac.Instruction}
    (hI : ExprInv s s1)
    (hoi : oi = none ∨ ∃ w, oi = some (.Return w))
    (hB : FragOut ids (i :: env) (s1.push (.Label (startLabel i))) s5)
    (hP : ExprInv ((pushOpt s5 oi).push (.Label (continueLabel i))) s7)
    (hni : i ∉ ids)
    (hlcF : sF.label_count = s7.label_count)
    (hinF : sF.instructions = s7.instructions ++
      [Tac.Instruction.Jump (startLabel i), Tac.Instruction.Label (breakLabel i)]) :
    FragOut (i :: ids) env s sF := by
  obtain ⟨hleI, tI, heI, hfI⟩ := hI
  obtain ⟨hleB, tB, heB, hfB⟩ := hB
  obtain ⟨hleP, tP, heP, hfP⟩ := hP
  have hleB' : s1.label_count ≤ s5.label_count := hleB
  have hfB' : StmtTail s1.label_count s5.label_count ids (i :: env) tB := hfB
  have heB' : s5.instructions = s1.instructions ++
      ([Tac.Instruction.Label (startLabel i)] ++ tB) := by
    rw [heB]
    simp [TACState.push]
  have hleP' : s5.label_count ≤ s7.label_count := by
    have := hleP
    simpa [pushOpt_label_count, push_label_count] using this
  have hfP' : CtrFrag s5.label_count s7.label_count tP := by
    have := hfP
    simpa [pushOpt_label_count, push_label_count] using this
  have heP' : s7.instructions = s5.instructions ++
      ((optInstrList oi ++ [Tac.Instruction.Label (continueLabel i)]) ++ tP) := by
    rw [heP]
    simp [push_instructions, pushOpt_instructions]
  have hd2 := optInstrList_defined hoi
  have ht2 := optInstrList_targets hoi
  refine ⟨by omega, tI ++
      ([Tac.Instruction.Label (startLabel i)] ++
        ((tB ++ optInstrList oi) ++
          ([Tac.Instruction.Label (continueLabel i)] ++ tP ++
            [Tac.Instruction.Jump (startLabel i),
             Tac.Instruction.Label (breakLabel i)]))), ?_, ?_⟩
  · rw [hinF, heP', heB', heI]
    simp
  · rw [hlcF]
    have hBfrag : StmtTail s1.label_count s5.label_count ids (i :: env)
        (tB ++ optInstrList oi) := hfB'.append_inert hd2 ht2
    refine for_tail_spec ?_ ?_ hfI (CtrFrag.nil s1.label_count s1.label_count) hBfrag hfP'
      hleI le_rfl hleB' hleP' hni
    · simp only [definedLabels_append, definedLabels_cons_label, definedLabels_cons_jump,
        definedLabels_cons_jz, definedLabels_cons_jnz, definedLabels_nil, hd2,
        List.append_nil, List.nil_append, List.singleton_append, List.cons_append]
    · intro t hm
      simp only [jumpTargets_append, jumpTargets_cons_label, jumpTargets_cons_jump,
        jumpTargets_cons_jz, jumpTargets_cons_jnz, jumpTargets_nil, ht2, List.append_nil,
        List.nil_append, List.singleton_append, List.cons_append, List.mem_append,
        List.mem_cons, List.not_mem_nil, or_false] at hm ⊢
      tauto

/-- The `for` composition, with a condition. -/
theorem for_case_some {env ids : List String} {i : String} {s s1 s3 s5 s7 sF : TACState}
    {v : Tac.Val} {oi : Option Tac.Instruction}
    (hI : ExprInv s s1)
    (hoi : oi = none ∨ ∃ w, oi = some (.Return w))
    (hCnd : ExprInv (s1.push (.Label (startLabel i))) s3)
    (hB : FragOut ids (i :: env) (s3.push (.JumpIfZero v (breakLabel i))) s5)
    (hP : ExprInv ((pushOpt s5 oi).push (.Label (continueLabel i))) s7)
    (hni : i ∉ ids)
    (hlcF : sF.label_count = s7.label_count)
    (hinF : sF.instructions = s7.instructions ++
      [Tac.Instruction.Jump (startLabel i), Tac.Instruction.Label (breakLabel i)]) :
    FragOut (i :: ids) env s sF := by
  obtain ⟨hleI, tI, heI, hfI⟩ := hI
  obtain ⟨hleCn, tCn, heCn, hfCn⟩ := hCnd
  obtain ⟨hleB, tB, heB, hfB⟩ := hB
  obtain ⟨hleP, tP, heP, hfP⟩ := hP
  have hleCn' : s1.label_count ≤ s3.label_count := hleCn
  have hfCn' : CtrFrag s1.label_count s3.label_count tCn := hfCn
  have heCn' : s3.instructions = s1.instructions ++
      ([Tac.Instruction.Label (startLabel i)] ++ tCn) := by
    rw [heCn]
    simp [TACState.push]
  have hleB' : s3.label_count ≤ s5.label_count := hleB
  have hfB' : StmtTail s3.label_count s5.label_count ids (i :: env) tB := hfB
  have heB' : s5.instructions = s3.instructions ++
      ([Tac.Instruction.JumpIfZero v (breakLabel i)] ++ tB) := by
    rw [heB]
    simp [TACState.push]
  have hleP' : s5.label_count ≤ s7.label_count := by
    have := hleP
    simpa [pushOpt_label_count, push_label_count] using this
  have hfP' : CtrFrag s5.label_count s7.label_count tP := by
    have := hfP
    simpa [pushOpt_label_count, push_label_count] using this
  have heP' : s7.instructions = s5.instructions ++
      ((optInstrList oi ++ [Tac.Instruction.Label (continueLabel i)]) ++ tP) := by
    rw [heP]
    simp [push_instructions, pushOpt_instructions]
  have hd2 := optInstrList_defined hoi
  have ht2 := optInstrList_targets hoi
  refine ⟨by omega, tI ++
      ([Tac.Instruction.Label (startLabel i)] ++
        (tCn ++
          ([Tac.Instruction.JumpIfZero v (breakLabel i)] ++
            (tB ++ optInstrList oi) ++
            ([Tac.Instruction.Label (continueLabel i)] ++ tP ++
              [Tac.Instruction.Jump (startLabel i),
               Tac.Instruction.Label (breakLabel i)])))), ?_, ?_⟩
  · rw [hinF, heP', heB', heCn', heI]
    simp
  · rw [hlcF]
    have hBfrag : StmtTail s3.label_count s5.label_count ids (i :: env)
        (tB ++ optInstrList oi) := hfB'.append_inert hd2 ht2
    refine for_tail_spec ?_ ?_ hfI hfCn' hBfrag hfP' hleI hleCn' hleB' hleP' hni
    · simp only [definedLabels_append, definedLabels_cons_label, definedLabels_cons_jump,
        definedLabels_cons_jz, definedLabels_cons_jnz, definedLabels_nil, hd2,
        List.append_nil, List.nil_append, List.singleton_append, List.cons_append]
    · intro t hm
      simp only [jumpTargets_append, jumpTargets_cons_label, jumpTargets_cons_jump,
        jumpTargets_cons_jz, jumpTargets_cons_jnz, jumpTargets_nil, ht2, List.append_nil,
        List.nil_append, List.singleton_append, List.cons_append, List.mem_append,
        List.mem_cons, List.not_mem_nil, or_false] at hm ⊢
      tauto

/-- Composition of two successive statement fragments. -/
theorem FragOut.transFrag {ids1 ids2 env : List String} {s s1 s2 : TACState}
    (h1 : FragOut ids1 env s s1) (h2 : FragOut ids2 env s1 s2)
    (hdis : ∀ i ∈ ids1, i ∈ ids2 → False) :
    FragOut (ids1 ++ ids2) env s s2 := by
  obtain ⟨hle1, t1, he1, hf1⟩ := h1
  obtain ⟨hle2, t2, he2, hf2⟩ := h2
  refine ⟨le_trans hle1 hle2, t1 ++ t2, ?_, ?_⟩
  · rw [he2, he1, List.append_assoc]
  · exact StmtTail.appendTail hf1 hf2 hle1 hle2 hdis

/-- Pushing a returned `Return` instruction (or nothing) preserves the
fragment invariant. -/
theorem FragOut.append_opt {ids env : List String} {s s1 : TACState}
    {oi : Option Tac.Instruction} (h : FragOut ids env s s1)
    (ho : oi = none ∨ ∃ v, oi = some (.Return v)) :
    FragOut ids env s (pushOpt s1 oi) := by
  obtain ⟨hle, t, he, hf⟩ := h
  refine ⟨by rw [pushOpt_label_count]; exact hle, t ++ optInstrList oi, ?_, ?_⟩
  · rw [pushOpt_instructions, he, List.append_assoc]
  · have hlc : (pushOpt s1 oi).label_count = s1.label_count := pushOpt_label_count s1 oi
    rw [hlc]
    exact hf.append_inert (optInstrList_defined ho) (optInstrList_targets ho)

/-- A single jump to an enclosing loop label is a valid fragment. -/
theorem FragOut.jump_env {env : List String} (s : TACState) {t : String}
    (h : EnvTarget env t) :
    FragOut [] env s (s.push (.Jump t)) := by
  refine ⟨le_rfl, [.Jump t], push_instructions s _, ?_, ?_, ?_⟩
  · intro name hm
    simp [definedLabels] at hm
  · simp [definedLabels]
  · intro u hm
    simp only [jumpTargets_cons_jump, jumpTargets_nil, List.mem_cons,
      List.not_mem_nil, or_false] at hm
    subst hm
    exact Or.inr h

/-- `process_declaration` only appends a counter fragment. -/
theorem processDeclaration_spec {d : Declaration} {s s1 : TACState}
    (h : processDeclaration d s = some s1) : ExprInv s s1 := by
  unfold processDeclaration at h
  cases hi : d.initializer with
  | none =>
    rw [hi] at h
    cases h
    exact ExprInv.reflExpr s
  | some x =>
    rw [hi] at h
    simp only [] at h
    cases hpv : parseVal (.Assignment (.Var d.name) x) s with
    | none => rw [hpv] at h; cases h
    | some p =>
      obtain ⟨v, s2⟩ := p
      rw [hpv] at h
      cases h
      exact parseVal_spec _ _ _ _ hpv

theorem WFItems_cons {env : List String} {b : BlockItem} {rest : List BlockItem} :
    WFItems env (b :: rest) ↔ WFItem env b ∧ WFItems env rest := by
  cases b <;> simp [WFItems, WFItem]

theorem itemsLoopIds_cons (b : BlockItem) (rest : List BlockItem) :
    itemsLoopIds (b :: rest) = itemLoopIds b ++ itemsLoopIds rest := by
  cases b <;> rfl

theorem statement_lowering_spec : ∀ (stmt : Statement) (s : TACState), StatementSpec stmt s := by
  refine parseStatement.induct StatementSpec ItemsSpec ItemSpec ?_ ?_ ?_ ?_ ?_ ?_ ?_ ?_ ?_ ?_ ?_ ?_ ?_ ?_ ?_ ?_ ?_ ?_ ?_ ?_ ?_ ?_ ?_ ?_ ?_ ?_ ?_ ?_ ?_ ?_ ?_ ?_ ?_ ?_ ?_ ?_ ?_
  -- Return, condition fails
  · intro e s hpv env oi s2 hwf hnd heq
    simp [parseStatement, hpv] at heq
  -- Return, success
  · intro e s rc s1 hpv env oi s2 hwf hnd heq
    simp only [parseStatement] at heq
    rw [hpv] at heq
    simp only [Option.some.injEq, Prod.mk.injEq] at heq
    obtain ⟨rfl, rfl⟩ := heq
    exact ⟨Or.inr ⟨rc, rfl⟩, FragOut.of_expr (parseVal_spec _ _ _ _ hpv) _ _⟩
  -- Expression, condition fails
  · intro e s hpv env oi s2 hwf hnd heq
    simp [parseStatement, hpv] at heq
  -- Expression, success
  · intro e s rc s1 hpv env oi s2 hwf hnd heq
    simp only [parseStatement] at heq
    rw [hpv] at heq
    simp only [Option.some.injEq, Prod.mk.injEq] at heq
    obtain ⟨rfl, rfl⟩ := heq
    exact ⟨Or.inl (by simp), FragOut.of_expr (parseVal_spec _ _ _ _ hpv) _ _⟩
  -- Null
  · intro s env oi s2 hwf hnd heq
    simp only [parseStatement, Option.some.injEq, Prod.mk.injEq] at heq
    obtain ⟨rfl, rfl⟩ := heq
    exact ⟨Or.inl (by simp), FragOut.reflFrag _ _ _⟩
  -- If, condition fails
  · intro condition thenS elseS s hpv env oi s2 hwf hnd heq
    simp [parseStatement, hpv] at heq
  -- If/else, then-branch fails
  · intro condition thenS s rc s1 hpv endL s2 hend elseStmt elseL s3 helse
    try dsimp only
    intro hthen IH env oi sf hwf hnd heq
    simp only [parseStatement] at heq
    rw [hpv] at heq
    simp only [] at heq
    rw [hend] at heq
    simp only [] at heq
    rw [helse] at heq
    simp only [] at heq
    rw [hthen] at heq
    simp only [] at heq
    exact Option.noConfusion heq
  -- If/else, else-branch fails
  · intro condition thenS s rc s1 hpv endL s2 hend elseStmt elseL s3 helse
    try dsimp only
    intro oi2 s8 hthen
    try dsimp only
    intro helse2 IH1 IH2 env oi sf hwf hnd heq
    simp only [parseStatement] at heq
    rw [hpv] at heq
    simp only [] at heq
    rw [hend] at heq
    simp only [] at heq
    rw [helse] at heq
    simp only [] at heq
    rw [hthen] at heq
    simp only [] at heq
    rw [helse2] at heq
    simp only [] at heq
    exact Option.noConfusion heq
  -- If/else, success
  · intro condition thenS s rc s1 hpv endL s2 hend elseStmt elseL s3 helse
    try dsimp only
    intro oi2 s8 hthen
    try dsimp only
    intro oi3 s9 helse2 IH1 IH2 env oi sf hwf hnd heq
    rw [makeLabel_end, Prod.mk.injEq] at hend
    obtain ⟨rfl, rfl⟩ := hend
    rw [makeLabel_else, Prod.mk.injEq] at helse
    obtain ⟨rfl, rfl⟩ := helse
    simp only [parseStatement] at heq
    rw [hpv] at heq
    simp only [] at heq
    rw [makeLabel_end] at heq
    simp only [] at heq
    rw [makeLabel_else] at heq
    simp only [] at heq
    rw [hthen] at heq
    simp only [] at heq
    rw [helse2] at heq
    simp only [Option.some.injEq, Prod.mk.injEq] at heq
    obtain ⟨rfl, rfl⟩ := heq
    simp only [WFStmt] at hwf
    obtain ⟨hwfT, hwfE⟩ := hwf
    simp only [stmtLoopIds] at hnd ⊢
    rw [List.nodup_append] at hnd
    obtain ⟨hndT, hndE, hdisj⟩ := hnd
    have hC := parseVal_spec _ _ _ _ hpv
    have hT := IH1 env oi2 s8 hwfT hndT hthen
    have hE := IH2 env oi3 s9 hwfE hndE helse2
    refine ⟨Or.inl (by simp), ?_⟩
    exact ifelse_case hC hT.1 hE.1 hT.2 hE.2 (fun j hj1 hj2 => hdisj hj1 hj2)
      (by simp [push_label_count, pushOpt_label_count])
      (by simp [push_instructions, pushOpt_instructions])
  -- If without else, then-branch fails
  · intro condition thenS s rc s1 hpv endL s2 hend
    try dsimp only
    intro hthen IH env oi sf hwf hnd heq
    simp only [parseStatement] at heq
    rw [hpv] at heq
    simp only [] at heq
    rw [hend] at heq
    simp only [] at heq
    rw [hthen] at heq
    simp only [] at heq
    exact Option.noConfusion heq
  -- If without else, success
  · intro condition thenS s rc s1 hpv endL s2 hend
    try dsimp only
    intro oi2 s8 hthen IH env oi sf hwf hnd heq
    rw [makeLabel_end, Prod.mk.injEq] at hend
    obtain ⟨rfl, rfl⟩ := hend
    simp only [parseStatement] at heq
    rw [hpv] at heq
    simp only [] at heq
    rw [makeLabel_end] at heq
    simp only [] at heq
    rw [hthen] at heq
    simp only [Option.some.injEq, Prod.mk.injEq] at heq
    obtain ⟨rfl, rfl⟩ := heq
    simp only [WFStmt] at hwf
    obtain ⟨hwfT, -⟩ := hwf
    simp only [stmtLoopIds, List.append_nil] at hnd ⊢
    have hC := parseVal_spec _ _ _ _ hpv
    have hT := IH env oi2 s8 hwfT hnd hthen
    refine ⟨Or.inl (by simp), ?_⟩
    exact ifend_case hC hT.1 hT.2
      (by simp [push_label_count, pushOpt_label_count])
      (by simp [push_instructions, pushOpt_instructions])
  -- Compound, items fail
  · intro items s hpb IH env oi s2 hwf hnd heq
    simp [parseStatement, hpb] at heq
  -- Compound, success
  · intro items s s2 hpb IH env oi sf hwf hnd heq
    simp only [parseStatement] at heq
    rw [hpb] at heq
    simp only [Option.some.injEq, Prod.mk.injEq] at heq
    obtain ⟨rfl, rfl⟩ := heq
    simp only [WFStmt] at hwf
    simp only [stmtLoopIds] at hnd ⊢
    exact ⟨Or.inl (by simp), IH env s2 hwf hnd hpb⟩
  -- Break without label
  · intro s env oi s2 hwf hnd heq
    simp [parseStatement] at heq
  -- Break with label
  · intro s l env oi s2 hwf hnd heq
    simp only [parseStatement, Option.some.injEq, Prod.mk.injEq] at heq
    obtain ⟨rfl, rfl⟩ := heq
    simp only [WFStmt, Option.some.injEq] at hwf
    obtain ⟨i, rfl, hmem⟩ := hwf
    simp only [stmtLoopIds]
    exact ⟨Or.inl (by simp), FragOut.jump_env s ⟨l, hmem, Or.inl rfl⟩⟩
  -- Continue without label
  · intro s env oi s2 hwf hnd heq
    simp [parseStatement] at heq
  -- Continue with label
  · intro s l env oi s2 hwf hnd heq
    simp only [parseStatement, Option.some.injEq, Prod.mk.injEq] at heq
    obtain ⟨rfl, rfl⟩ := heq
    simp only [WFStmt, Option.some.injEq] at hwf
    obtain ⟨i, rfl, hmem⟩ := hwf
    simp only [stmtLoopIds]
    exact ⟨Or.inl (by simp), FragOut.jump_env s ⟨l, hmem, Or.inr rfl⟩⟩
  -- While without identifier
  · intro condition body s env oi s2 hwf hnd heq
    simp [parseStatement] at heq
  -- While, condition fails
  · intro condition body s l
    try dsimp only
    intro hpv env oi s2 hwf hnd heq
    simp only [parseStatement] at heq
    rw [hpv] at heq
    simp only [] at heq
    exact Option.noConfusion heq
  -- While, body fails
  · intro condition body s l
    try dsimp only
    intro rc s1 hpv
    try dsimp only
    intro hbody IH env oi s2 hwf hnd heq
    simp only [parseStatement] at heq
    rw [hpv] at heq
    simp only [] at heq
    rw [hbody] at heq
    simp only [] at heq
    exact Option.noConfusion heq
  -- While, success
  · intro condition body s l
    try dsimp only
    intro rc s1 hpv
    try dsimp only
    intro oi2 s8 hbody IH env oi sf hwf hnd heq
    simp only [parseStatement] at heq
    rw [hpv] at heq
    simp only [] at heq
    rw [hbody] at heq
    simp only [Option.some.injEq, Prod.mk.injEq] at heq
    obtain ⟨rfl, rfl⟩ := heq
    simp only [WFStmt, Option.some.injEq] at hwf
    obtain ⟨i, rfl, hwfB⟩ := hwf
    simp only [stmtLoopIds, optIdList, List.singleton_append] at hnd ⊢
    rw [List.nodup_cons] at hnd
    obtain ⟨hni, hndB⟩ := hnd
    have hC := parseVal_spec _ _ _ _ hpv
    have hB := IH (l :: env) oi2 s8 hwfB hndB hbody
    refine ⟨Or.inl (by simp), ?_⟩
    exact while_case hC hB.1 hB.2 hni
      (by simp [push_label_count, pushOpt_label_count])
      (by simp [push_instructions, pushOpt_instructions, continueLabel, breakLabel])
  -- DoWhile without identifier
  · intro body condition s env oi s2 hwf hnd heq
    simp [parseStatement] at heq
  -- DoWhile, body fails
  · intro body condition s l
    try dsimp only
    intro hbody IH env oi s2 hwf hnd heq
    simp only [parseStatement] at heq
    rw [hbody] at heq
    simp only [] at heq
    exact Option.noConfusion heq
  -- DoWhile, condition fails
  · intro body condition s l
    try dsimp only
    intro oi2 s8 hbody
    try dsimp only
    intro hpv IH env oi s2 hwf hnd heq
    simp only [parseStatement] at heq
    rw [hbody] at heq
    simp only [] at heq
    rw [hpv] at heq
    simp only [] at heq
    exact Option.noConfusion heq
  -- DoWhile, success
  · intro body condition s l
    try dsimp only
    intro oi2 s8 hbody
    try dsimp only
    intro rc s4 hpv IH env oi sf hwf hnd heq
    simp only [parseStatement] at heq
    rw [hbody] at heq
    simp only [] at heq
    rw [hpv] at heq
    simp only [Option.some.injEq, Prod.mk.injEq] at heq
    obtain ⟨rfl, rfl⟩ := heq
    simp only [WFStmt, Option.some.injEq] at hwf
    obtain ⟨i, rfl, hwfB⟩ := hwf
    simp only [stmtLoopIds, optIdList, List.singleton_append] at hnd ⊢
    rw [List.nodup_cons] at hnd
    obtain ⟨hni, hndB⟩ := hnd
    have hB := IH (l :: env) oi2 s8 hwfB hndB hbody
    have hC := parseVal_spec _ _ _ _ hpv
    refine ⟨Or.inl (by simp), ?_⟩
    exact dowhile_case (v := rc) hB.2 hB.1 hC hni
      (by simp [push_label_count, pushOpt_label_count])
      (by simp [push_instructions, pushOpt_instructions, startLabel, breakLabel])
  -- For, initializer fails
  · intro initializer condition post body identifier s
    try dsimp only
    intro hstep1 env oi s2 hwf hnd heq
    simp only [parseStatement] at heq
    rw [hstep1] at heq
    simp only [] at heq
    exact Option.noConfusion heq
  -- For without identifier
  · intro initializer condition post body s
    try dsimp only
    intro s1 hstep1 env oi s2 hwf hnd heq
    simp only [parseStatement] at heq
    rw [hstep1] at heq
    simp only [] at heq
    exact Option.noConfusion heq
  -- For, condition fails
  · intro initializer condition post body s
    try dsimp only
    intro s1 hstep1 l
    try dsimp only
    intro hstep2 env oi s2 hwf hnd heq
    simp only [parseStatement] at heq
    rw [hstep1] at heq
    simp only [] at heq
    rw [hstep2] at heq
    simp only [] at heq
    exact Option.noConfusion heq
  -- For, body fails
  · intro initializer condition post body s
    try dsimp only
    intro s1 hstep1 l
    try dsimp only
    intro s4 hstep2 hbody IH env oi s2 hwf hnd heq
    simp only [parseStatement] at heq
    rw [hstep1] at heq
    simp only [] at heq
    rw [hstep2] at heq
    simp only [] at heq
    rw [hbody] at heq
    simp only [] at heq
    exact Option.noConfusion heq
  -- For, post fails
  · intro initializer condition post body s
    try dsimp only
    intro s1 hstep1 l
    try dsimp only
    intro s4 hstep2 oi2 s8 hbody
    try dsimp only
    intro hstep3 IH env oi s2 hwf hnd heq
    simp only [parseStatement] at heq
    rw [hstep1] at heq
    simp only [] at heq
    rw [hstep2] at heq
    simp only [] at heq
    rw [hbody] at heq
    simp only [] at heq
    rw [hstep3] at heq
    simp only [] at heq
    exact Option.noConfusion heq
  -- For, success
  · intro initializer condition post body s
    try dsimp only
    intro s1 hstep1 l
    try dsimp only
    intro s4 hstep2 oi2 s8 hbody
    try dsimp only
    intro s9 hstep3 IH env oi sf hwf hnd heq
    simp only [parseStatement] at heq
    rw [hstep1] at heq
    simp only [] at heq
    rw [hstep2] at heq
    simp only [] at heq
    rw [hbody] at heq
    simp only [] at heq
    rw [hstep3] at heq
    simp only [Option.some.injEq, Prod.mk.injEq] at heq
    obtain ⟨rfl, rfl⟩ := heq
    simp only [WFStmt, Option.some.injEq] at hwf
    obtain ⟨i, rfl, hwfB⟩ := hwf
    simp only [stmtLoopIds, optIdList, List.singleton_append] at hnd ⊢
    rw [List.nodup_cons] at hnd
    obtain ⟨hni, hndB⟩ := hnd
    have hB := IH (l :: env) oi2 s8 hwfB hndB hbody
    have hI : ExprInv s s1 := by
      rcases initializer with d | (_ | e)
      · exact processDeclaration_spec hstep1
      · simp only [Option.some.injEq] at hstep1
        subst hstep1
        exact ExprInv.reflExpr s
      · simp only [] at hstep1
        rcases hpe : parseVal e s with _ | ⟨v, sx⟩
        · rw [hpe] at hstep1
          exact Option.noConfusion hstep1
        · rw [hpe] at hstep1
          simp only [Option.some.injEq] at hstep1
          subst hstep1
          exact parseVal_spec _ _ _ _ hpe
    have hP : ExprInv ((pushOpt s8 oi2).push (.Label ("continue_" ++ l))) s9 := by
      rcases post with _ | pe
      · simp only [Option.some.injEq] at hstep3
        subst hstep3
        exact ExprInv.reflExpr _
      · simp only [] at hstep3
        rcases hpe : parseVal pe ((pushOpt s8 oi2).push (.Label ("continue_" ++ l)))
          with _ | ⟨v, sx⟩
        · rw [hpe] at hstep3
          exact Option.noConfusion hstep3
        · rw [hpe] at hstep3
          simp only [Option.some.injEq] at hstep3
          subst hstep3
          exact parseVal_spec _ _ _ _ hpe
    refine ⟨Or.inl (by simp), ?_⟩
    rcases condition with _ | ce
    · simp only [] at hstep2
      simp only [Option.some.injEq] at hstep2
      subst hstep2
      exact for_case_none hI hB.1 hB.2 hP hni
        (by simp [push_label_count, pushOpt_label_count])
        (by simp [push_instructions, pushOpt_instructions, startLabel, breakLabel])
    · simp only [] at hstep2
      rcases hpc : parseVal ce (s1.push (.Label ("start_" ++ l))) with _ | ⟨v, s3⟩
      · rw [hpc] at hstep2
        exact Option.noConfusion hstep2
      · rw [hpc] at hstep2
        simp only [Option.some.injEq] at hstep2
        subst hstep2
        have hCnd := parseVal_spec _ _ _ _ hpc
        exact for_case_some hI hB.1 hCnd hB.2 hP hni
          (by simp [push_label_count, pushOpt_label_count])
          (by simp [push_instructions, pushOpt_instructions, startLabel, breakLabel])
  -- block item, statement fails
  · intro stmt s hps IH env s2 hwf hnd heq
    simp [processBlockItem, hps] at heq
  -- block item, statement succeeds
  · intro stmt s oi2 s8 hps IH env s2 hwf hnd heq
    simp only [processBlockItem] at heq
    rw [hps] at heq
    simp only [Option.some.injEq] at heq
    subst heq
    have hS := IH env oi2 s8 hwf hnd hps
    exact FragOut.append_opt hS.2 hS.1
  -- block item, declaration
  · intro d s env s2 hwf hnd heq
    simp only [processBlockItem] at heq
    exact FragOut.of_expr (processDeclaration_spec heq) _ _
  -- empty block
  · intro s env s2 hwf hnd heq
    simp only [processBlockItems, Option.some.injEq] at heq
    subst heq
    exact FragOut.reflFrag _ _ _
  -- block cons, head fails
  · intro b rest s hb IH env s2 hwf hnd heq
    simp [processBlockItems, hb] at heq
  -- block cons, head succeeds
  · intro b rest s s1 hb IH1 IH2 env s2 hwf hnd heq
    simp only [processBlockItems] at heq
    rw [hb] at heq
    simp only [] at heq
    rw [WFItems_cons] at hwf
    obtain ⟨hwfB, hwfR⟩ := hwf
    rw [itemsLoopIds_cons] at hnd ⊢
    rw [List.nodup_append] at hnd
    obtain ⟨hndB, hndR, hdisj⟩ := hnd
    have h1 := IH1 env s1 hwfB hndB hb
    have h2 := IH2 env s2 hwfR hndR heq
    exact FragOut.transFrag h1 h2 (fun j hj1 hj2 => hdisj hj1 hj2)

/-- The block-item iteration satisfies its fragment specification
(derived from the main induction through the `Compound` arm). -/
theorem processBlockItems_spec (items : List BlockItem) (s : TACState) :
    ItemsSpec items s := by
  intro env s2 hwf hnd heq
  have h := statement_lowering_spec (.Compound items) s env none s2
    (by simpa [WFStmt] using hwf) (by simpa [stmtLoopIds] using hnd)
    (by simp [parseStatement, heq])
  simpa [stmtLoopIds] using h.2

/-- C4: for every function body with loop labels attached by the upstream
loop-labeling pass (every loop labeled, every break/continue referring to
an enclosing loop) and pairwise distinct loop identifiers, the IR function
produced by `parse_function` defines every label name at most once
(each defined name appears exactly once among the `Label` instructions)
and every `Jump`/`JumpIfZero`/`JumpIfNotZero` target is a defined label. -/
theorem label_uniqueness_and_target_definedness (f : AstFunction) (tf : Tac.Function)
    (hwf : WFItems [] f.body) (hnd : (itemsLoopIds f.body).Nodup)
    (h : parseFunction f = some tf) :
    (definedLabels tf.body).Nodup ∧
    ∀ t ∈ jumpTargets tf.body, t ∈ definedLabels tf.body := by
  unfold parseFunction at h
  cases hpb : processBlockItems f.body initTAC with
  | none =>
    rw [hpb] at h
    exact Option.noConfusion h
  | some s =>
    rw [hpb] at h
    simp only [Option.some.injEq] at h
    subst h
    have hspec := processBlockItems_spec f.body initTAC [] s hwf hnd hpb
    obtain ⟨hle, tail, he, hcl, hnd2, ht⟩ := hspec
    have he2 : s.instructions = tail := by simpa [initTAC] using he
    dsimp only
    rw [he2]
    refine ⟨hnd2, ?_⟩
    intro t hm
    rcases ht t hm with hin | henv
    · exact hin
    · exact absurd henv EnvTarget_nil

/-- Witness for C4 at a concrete labeled loop body. -/
theorem label_uniqueness_and_target_definedness_witness :
    WFItems [] [BlockItem.S (.While (.Constant 1) (.Break (some "x")) (some "x"))] ∧
    (itemsLoopIds [BlockItem.S (.While (.Constant 1) (.Break (some "x")) (some "x"))]).Nodup ∧
    ((definedLabels [Tac.Instruction.Label "continue_x",
        Tac.Instruction.JumpIfZero (Tac.Val.Constant 1) "break_x",
        Tac.Instruction.Jump "break_x",
        Tac.Instruction.Jump "continue_x",
        Tac.Instruction.Label "break_x"]).Nodup ∧
      ∀ t ∈ jumpTargets [Tac.Instruction.Label "continue_x",
        Tac.Instruction.JumpIfZero (Tac.Val.Constant 1) "break_x",
        Tac.Instruction.Jump "break_x",
        Tac.Instruction.Jump "continue_x",
        Tac.Instruction.Label "break_x"],
        t ∈ definedLabels [Tac.Instruction.Label "continue_x",
          Tac.Instruction.JumpIfZero (Tac.Val.Constant 1) "break_x",
          Tac.Instruction.Jump "break_x",
          Tac.Instruction.Jump "continue_x",
          Tac.Instruction.Label "break_x"]) :=
  ⟨by simp [WFItems, WFStmt], by decide,
    label_uniqueness_and_target_definedness
      ⟨"main", [BlockItem.S (.While (.Constant 1) (.Break (some "x")) (some "x"))]⟩
      ⟨"main", [Tac.Instruction.Label "continue_x",
        Tac.Instruction.JumpIfZero (Tac.Val.Constant 1) "break_x",
        Tac.Instruction.Jump "break_x",
        Tac.Instruction.Jump "continue_x",
        Tac.Instruction.Label "break_x"]⟩
      (by simp [WFItems, WFStmt]) (by decide) (by rfl)⟩

/-! ### Pseudo-register map lemmas (claims C2, C5, C9) -/

theorem mapLookup_append_of_some {m t : List (Asm.Operand × Int)} {k : Asm.Operand}
    {v : Int} (h : mapLookup m k = some v) : mapLookup (m ++ t) k = some v := by
  induction m with
  | nil => simp [mapLookup] at h
  | cons p rest ih =>
    obtain ⟨k1, v1⟩ := p
    by_cases hk : k1 = k
    · subst hk
      simp only [mapLookup, if_pos rfl] at h ⊢
      exact h
    · simp only [mapLookup, if_neg hk] at h
      simp only [List.cons_append, mapLookup, if_neg hk]
      exact ih h

theorem mapLookup_eq_none_iff {m : List (Asm.Operand × Int)} {k : Asm.Operand} :
    mapLookup m k = none ↔ k ∉ mapKeys m := by
  induction m with
  | nil => simp [mapLookup, mapKeys]
  | cons p rest ih =>
    obtain ⟨k1, v1⟩ := p
    by_cases hk : k1 = k
    · subst hk
      simp [mapLookup, mapKeys]
    · simp only [mapLookup, if_neg hk, mapKeys, List.map_cons, List.mem_cons]
      rw [ih]
      simp only [mapKeys]
      constructor
      · intro hn hm
        rcases hm with hm | hm
        · exact hk hm.symm
        · exact hn hm
      · intro hn hm
        exact hn (Or.inr hm)

theorem mem_mapKeys_of_lookup {m : List (Asm.Operand × Int)} {k : Asm.Operand} {v : Int}
    (h : mapLookup m k = some v) : k ∈ mapKeys m := by
  by_contra hn
  rw [← mapLookup_eq_none_iff] at hn
  rw [hn] at h
  exact Option.noConfusion h

theorem mapLookup_append_self {m : List (Asm.Operand × Int)} {k : Asm.Operand} {v : Int}
    (h : mapLookup m k = none) : mapLookup (m ++ [(k, v)]) k = some v := by
  induction m with
  | nil => simp [mapLookup]
  | cons p rest ih =>
    obtain ⟨k1, v1⟩ := p
    by_cases hk : k1 = k
    · subst hk
      simp [mapLookup] at h
    · simp only [mapLookup, if_neg hk] at h
      simp only [List.cons_append, mapLookup, if_neg hk]
      exact ih h

theorem RegOk.monoReg {st st2 : AsmState} {op : Asm.Operand} (h : RegOk st op)
    (ht : ∃ t, st2.pseudo_registers = st.pseudo_registers ++ t) : RegOk st2 op := by
  intro hp
  obtain ⟨w, hw⟩ := h hp
  obtain ⟨t, hteq⟩ := ht
  exact ⟨w, by rw [hteq]; exact mapLookup_append_of_some hw⟩

/-- `parse_operand`: the map is only appended to, the result (if a
`Pseudo`) is registered afterwards, the offset/ordering invariant is
preserved, and the key set grows by exactly the variable parsed. -/
theorem parseOperand_spec {v : Tac.Val} {st : AsmState} {op : Asm.Operand}
    {st2 : AsmState} (h : parseOperand v st = (op, st2)) :
    (∃ t, st2.pseudo_registers = st.pseudo_registers ++ t) ∧
    RegOk st2 op ∧
    (WFAsm st → WFAsm st2) ∧
    (∀ id, Asm.Operand.Pseudo id ∈ mapKeys st2.pseudo_registers ↔
      (Asm.Operand.Pseudo id ∈ mapKeys st.pseudo_registers ∨ Tac.Val.Var id = v)) := by
  cases v with
  | Constant i =>
    simp only [parseOperand, Prod.mk.injEq] at h
    obtain ⟨rfl, rfl⟩ := h
    refine ⟨⟨[], by simp⟩, ?_, fun hw => hw, ?_⟩
    · intro hp
      simp [isPseudo] at hp
    · intro id
      simp
  | Var id0 =>
    simp only [parseOperand] at h
    cases hlk : mapLookup st.pseudo_registers (.Pseudo id0) with
    | some w =>
      rw [hlk] at h
      simp only [Prod.mk.injEq] at h
      obtain ⟨rfl, rfl⟩ := h
      refine ⟨⟨[], by simp⟩, fun _ => ⟨w, hlk⟩, fun hw => hw, ?_⟩
      intro id
      constructor
      · intro hm
        exact Or.inl hm
      · intro hm
        rcases hm with hm | hm
        · exact hm
        · simp only [Tac.Val.Var.injEq] at hm
          subst hm
          exact mem_mapKeys_of_lookup hlk
    | none =>
      rw [hlk] at h
      simp only [Prod.mk.injEq] at h
      obtain ⟨rfl, rfl⟩ := h
      refine ⟨⟨[(.Pseudo id0, st.offset + 4)], rfl⟩, ?_, ?_, ?_⟩
      · intro _
        exact ⟨st.offset + 4, mapLookup_append_self hlk⟩
      · rintro ⟨hoff, hget, hnd⟩
        refine ⟨?_, ?_, ?_⟩
        · simp only [List.length_append, List.length_cons, List.length_nil]
          push_cast
          rw [hoff]
          ring
        · intro n hn
          dsimp only at hn ⊢
          simp only [List.length_append, List.length_cons, List.length_nil] at hn
          simp only [List.get_eq_getElem]
          by_cases hlt : n < st.pseudo_registers.length
          · rw [List.getElem_append_left hlt]
            have hg := hget n hlt
            simpa [List.get_eq_getElem] using hg
          · have heqn : n = st.pseudo_registers.length := by omega
            subst heqn
            rw [List.getElem_append_right (le_refl _)]
            simp only [Nat.sub_self, List.getElem_cons_zero]
            rw [hoff]
            push_cast
            ring
        · dsimp only
          simp only [mapKeys, List.map_append, List.map_cons, List.map_nil]
          rw [List.nodup_append]
          refine ⟨hnd, List.nodup_singleton _, ?_⟩
          intro a ha hb
          simp only [List.mem_cons, List.not_mem_nil, or_false] at hb
          subst hb
          rw [mapLookup_eq_none_iff] at hlk
          exact (hlk ha).elim
      · intro id
        simp only [mapKeys, List.map_append, List.map_cons, List.map_nil,
          List.mem_append, List.mem_cons, List.not_mem_nil, or_false,
          Asm.Operand.Pseudo.injEq, Tac.Val.Var.injEq]

theorem extTrans {A : Type} {a b c : List A} (h1 : ∃ t, b = a ++ t)
    (h2 : ∃ t, c = b ++ t) : ∃ t, c = a ++ t := by
  obtain ⟨t1, rfl⟩ := h1
  obtain ⟨t2, rfl⟩ := h2
  exact ⟨t1 ++ t2, by rw [List.append_assoc]⟩

theorem RegOk.reg (st : AsmState) (r : Asm.Reg) : RegOk st (.Register r) := by
  intro hp
  simp [isPseudo] at hp

theorem RegOk.imm (st : AsmState) (i : Int) : RegOk st (.Imm i) := by
  intro hp
  simp [isPseudo] at hp

theorem mem_varNamesOf {i : Tac.Instruction} {id : String} :
    id ∈ varNamesOf i ↔ Tac.Val.Var id ∈ valsOf i := by
  unfold varNamesOf
  rw [List.mem_filterMap]
  constructor
  · rintro ⟨a, ha, hfa⟩
    cases a with
    | Constant c => simp at hfa
    | Var id1 =>
      simp only [Option.some.injEq] at hfa
      subst hfa
      exact ha
  · intro hm
    exact ⟨.Var id, hm, rfl⟩


theorem orRe22 {K A B : Prop} : ((K ∨ A) ∨ B) ∨ B ↔ K ∨ (A ∨ B) := by tauto

theorem orRe3 {K A B C : Prop} : ((K ∨ A) ∨ B) ∨ C ↔ K ∨ (A ∨ B ∨ C) := by tauto

theorem orRel {K A B C : Prop} : (((K ∨ B) ∨ A) ∨ C) ∨ C ↔ K ∨ (A ∨ B ∨ C) := by tauto

theorem orArith {K A B C : Prop} : (((K ∨ A) ∨ C) ∨ B) ∨ C ↔ K ∨ (A ∨ B ∨ C) := by tauto

theorem orCopy {K A B : Prop} : (K ∨ A) ∨ B ↔ K ∨ (A ∨ B) := by tauto

set_option maxHeartbeats 3200000 in
/-- `parse_instruction`: the map is append-only, every operand of every
emitted instruction is registered afterwards, the offset invariant is
preserved, and the key set grows by exactly the variables referenced. -/
theorem parseInstruction_spec {i : Tac.Instruction} {st : AsmState}
    {is : List Asm.Instruction} {stF : AsmState}
    (h : parseInstruction i st = some (is, stF)) :
    (∃ t, stF.pseudo_registers = st.pseudo_registers ++ t) ∧
    (∀ j ∈ is, ∀ op ∈ operandsOf j, RegOk stF op) ∧
    (WFAsm st → WFAsm stF) ∧
    (∀ id, Asm.Operand.Pseudo id ∈ mapKeys stF.pseudo_registers ↔
      (Asm.Operand.Pseudo id ∈ mapKeys st.pseudo_registers ∨ id ∈ varNamesOf i)) := by
  cases i with
  | Return v =>
    rcases hp1 : parseOperand v st with ⟨a, st1⟩
    simp only [parseInstruction] at h
    rw [hp1] at h
    simp only [Option.some.injEq, Prod.mk.injEq] at h
    obtain ⟨rfl, rfl⟩ := h
    obtain ⟨he1, hr1, hw1, hk1⟩ := parseOperand_spec hp1
    refine ⟨he1, ?_, fun hw => hw1 (hw), ?_⟩
    · intro j hj op hop
      simp only [List.mem_cons, List.not_mem_nil, or_false] at hj
      rcases hj with rfl | rfl
      · simp only [operandsOf, List.mem_cons, List.not_mem_nil, or_false] at hop
        rcases hop with rfl | rfl
        · exact hr1
        · exact RegOk.reg _ _
      · simp only [operandsOf, List.not_mem_nil] at hop
    · intro id
      rw [mem_varNamesOf]
      simp only [valsOf, List.mem_cons, List.not_mem_nil, or_false]
      exact hk1 id
  | Unary uop src dst =>
    cases uop with
    | Not =>
      rcases hp1 : parseOperand src st with ⟨a, st1⟩
      rcases hp2 : parseOperand dst st1 with ⟨d1, st2x⟩
      rcases hp3 : parseOperand dst st2x with ⟨d2, st3⟩
      simp only [parseInstruction] at h
      simp only [if_true] at h
      rw [hp1] at h
      simp only [] at h
      rw [hp2] at h
      simp only [] at h
      rw [hp3] at h
      simp only [Option.some.injEq, Prod.mk.injEq] at h
      obtain ⟨rfl, rfl⟩ := h
      obtain ⟨he1, hr1, hw1, hk1⟩ := parseOperand_spec hp1
      obtain ⟨he2, hr2, hw2, hk2⟩ := parseOperand_spec hp2
      obtain ⟨he3, hr3, hw3, hk3⟩ := parseOperand_spec hp3
      refine ⟨extTrans he1 (extTrans he2 he3), ?_, fun hw => hw3 (hw2 (hw1 (hw))), ?_⟩
      · intro j hj op hop
        simp only [List.mem_cons, List.not_mem_nil, or_false] at hj
        rcases hj with rfl | rfl | rfl
        · simp only [operandsOf, List.mem_cons, List.not_mem_nil, or_false] at hop
          rcases hop with rfl | rfl
          · exact RegOk.imm _ _
          · exact hr1.monoReg (extTrans he2 he3)
        · simp only [operandsOf, List.mem_cons, List.not_mem_nil, or_false] at hop
          rcases hop with rfl | rfl
          · exact RegOk.imm _ _
          · exact hr2.monoReg he3
        · simp only [operandsOf, List.mem_cons, List.not_mem_nil, or_false] at hop
          subst hop
          exact hr3
      · intro id
        rw [mem_varNamesOf]
        simp only [valsOf, List.mem_cons, List.not_mem_nil, or_false]
        have hc := hk3 id
        rw [hk2 id, hk1 id] at hc
        rw [hc]
        exact orRe22
    | Negate =>
      rcases hp1 : parseOperand src st with ⟨a, st1⟩
      rcases hp2 : parseOperand dst st1 with ⟨d1, st2x⟩
      rcases hp3 : parseOperand dst st2x with ⟨d2, st3⟩
      simp only [parseInstruction] at h
      rw [if_neg (by decide)] at h
      rw [hp1] at h
      simp only [] at h
      rw [hp2] at h
      simp only [] at h
      simp only [parseUnaryOperator] at h
      rw [hp3] at h
      simp only [Option.some.injEq, Prod.mk.injEq] at h
      obtain ⟨rfl, rfl⟩ := h
      obtain ⟨he1, hr1, hw1, hk1⟩ := parseOperand_spec hp1
      obtain ⟨he2, hr2, hw2, hk2⟩ := parseOperand_spec hp2
      obtain ⟨he3, hr3, hw3, hk3⟩ := parseOperand_spec hp3
      refine ⟨extTrans he1 (extTrans he2 he3), ?_, fun hw => hw3 (hw2 (hw1 (hw))), ?_⟩
      · intro j hj op hop
        simp only [List.mem_cons, List.not_mem_nil, or_false] at hj
        rcases hj with rfl | rfl
        · simp only [operandsOf, List.mem_cons, List.not_mem_nil, or_false] at hop
          rcases hop with rfl | rfl
          · exact hr1.monoReg (extTrans he2 he3)
          · exact hr2.monoReg he3
        · simp only [operandsOf, List.mem_cons, List.not_mem_nil, or_false] at hop
          subst hop
          exact hr3
      · intro id
        rw [mem_varNamesOf]
        simp only [valsOf, List.mem_cons, List.not_mem_nil, or_false]
        have hc := hk3 id
        rw [hk2 id, hk1 id] at hc
        rw [hc]
        exact orRe22
    | Complement =>
      rcases hp1 : parseOperand src st with ⟨a, st1⟩
      rcases hp2 : parseOperand dst st1 with ⟨d1, st2x⟩
      rcases hp3 : parseOperand dst st2x with ⟨d2, st3⟩
      simp only [parseInstruction] at h
      rw [if_neg (by decide)] at h
      rw [hp1] at h
      simp only [] at h
      rw [hp2] at h
      simp only [] at h
      simp only [parseUnaryOperator] at h
      rw [hp3] at h
      simp only [Option.some.injEq, Prod.mk.injEq] at h
      obtain ⟨rfl, rfl⟩ := h
      obtain ⟨he1, hr1, hw1, hk1⟩ := parseOperand_spec hp1
      obtain ⟨he2, hr2, hw2, hk2⟩ := parseOperand_spec hp2
      obtain ⟨he3, hr3, hw3, hk3⟩ := parseOperand_spec hp3
      refine ⟨extTrans he1 (extTrans he2 he3), ?_, fun hw => hw3 (hw2 (hw1 (hw))), ?_⟩
      · intro j hj op hop
        simp only [List.mem_cons, List.not_mem_nil, or_false] at hj
        rcases hj with rfl | rfl
        · simp only [operandsOf, List.mem_cons, List.not_mem_nil, or_false] at hop
          rcases hop with rfl | rfl
          · exact hr1.monoReg (extTrans he2 he3)
          · exact hr2.monoReg he3
        · simp only [operandsOf, List.mem_cons, List.not_mem_nil, or_false] at hop
          subst hop
          exact hr3
      · intro id
        rw [mem_varNamesOf]
        simp only [valsOf, List.mem_cons, List.not_mem_nil, or_false]
        have hc := hk3 id
        rw [hk2 id, hk1 id] at hc
        rw [hc]
        exact orRe22
  | Binary bop s1 s2 d =>
    cases bop with
    | Divide =>
      rcases hp1 : parseOperand s1 st with ⟨a, st1⟩
      rcases hp2 : parseOperand s2 st1 with ⟨b, st2x⟩
      rcases hp3 : parseOperand d st2x with ⟨dd, st3⟩
      simp only [parseInstruction] at h
      rw [hp1] at h
      simp only [] at h
      rw [hp2] at h
      simp only [] at h
      rw [hp3] at h
      simp only [Option.some.injEq, Prod.mk.injEq] at h
      obtain ⟨rfl, rfl⟩ := h
      obtain ⟨he1, hr1, hw1, hk1⟩ := parseOperand_spec hp1
      obtain ⟨he2, hr2, hw2, hk2⟩ := parseOperand_spec hp2
      obtain ⟨he3, hr3, hw3, hk3⟩ := parseOperand_spec hp3
      refine ⟨extTrans he1 (extTrans he2 he3), ?_, fun hw => hw3 (hw2 (hw1 (hw))), ?_⟩
      · intro j hj op hop
        simp only [List.mem_cons, List.not_mem_nil, or_false] at hj
        rcases hj with rfl | rfl | rfl | rfl
        · simp only [operandsOf, List.mem_cons, List.not_mem_nil, or_false] at hop
          rcases hop with rfl | rfl
          · exact hr1.monoReg (extTrans he2 he3)
          · exact RegOk.reg _ _
        · simp only [operandsOf, List.not_mem_nil] at hop
        · simp only [operandsOf, List.mem_cons, List.not_mem_nil, or_false] at hop
          subst hop
          exact hr2.monoReg he3
        · simp only [operandsOf, List.mem_cons, List.not_mem_nil, or_false] at hop
          rcases hop with rfl | rfl
          · exact RegOk.reg _ _
          · exact hr3
      · intro id
        rw [mem_varNamesOf]
        simp only [valsOf, List.mem_cons, List.not_mem_nil, or_false]
        have hc := hk3 id
        rw [hk2 id, hk1 id] at hc
        rw [hc]
        exact orRe3
    | Remainder =>
      rcases hp1 : parseOperand s1 st with ⟨a, st1⟩
      rcases hp2 : parseOperand s2 st1 with ⟨b, st2x⟩
      rcases hp3 : parseOperand d st2x with ⟨dd, st3⟩
      simp only [parseInstruction] at h
      rw [hp1] at h
      simp only [] at h
      rw [hp2] at h
      simp only [] at h
      rw [hp3] at h
      simp only [Option.some.injEq, Prod.mk.injEq] at h
      obtain ⟨rfl, rfl⟩ := h
      obtain ⟨he1, hr1, hw1, hk1⟩ := parseOperand_spec hp1
      obtain ⟨he2, hr2, hw2, hk2⟩ := parseOperand_spec hp2
      obtain ⟨he3, hr3, hw3, hk3⟩ := parseOperand_spec hp3
      refine ⟨extTrans he1 (extTrans he2 he3), ?_, fun hw => hw3 (hw2 (hw1 (hw))), ?_⟩
      · intro j hj op hop
        simp only [List.mem_cons, List.not_mem_nil, or_false] at hj
        rcases hj with rfl | rfl | rfl | rfl
        · simp only [operandsOf, List.mem_cons, List.not_mem_nil, or_false] at hop
          rcases hop with rfl | rfl
          · exact hr1.monoReg (extTrans he2 he3)
          · exact RegOk.reg _ _
        · simp only [operandsOf, List.not_mem_nil] at hop
        · simp only [operandsOf, List.mem_cons, List.not_mem_nil, or_false] at hop
          subst hop
          exact hr2.monoReg he3
        · simp only [operandsOf, List.mem_cons, List.not_mem_nil, or_false] at hop
          rcases hop with rfl | rfl
          · exact RegOk.reg _ _
          · exact hr3
      · intro id
        rw [mem_varNamesOf]
        simp only [valsOf, List.mem_cons, List.not_mem_nil, or_false]
        have hc := hk3 id
        rw [hk2 id, hk1 id] at hc
        rw [hc]
        exact orRe3
    | Equal =>
      rcases hp1 : parseOperand s2 st with ⟨b, st1⟩
      rcases hp2 : parseOperand s1 st1 with ⟨a, st2x⟩
      rcases hp3 : parseOperand d st2x with ⟨d1, st3⟩
      rcases hp4 : parseOperand d st3 with ⟨d2, st4⟩
      simp only [parseInstruction] at h
      rw [hp1] at h
      simp only [] at h
      rw [hp2] at h
      simp only [] at h
      rw [hp3] at h
      simp only [] at h
      simp only [parseRelationalOperator] at h
      rw [hp4] at h
      simp only [Option.some.injEq, Prod.mk.injEq] at h
      obtain ⟨rfl, rfl⟩ := h
      obtain ⟨he1, hr1, hw1, hk1⟩ := parseOperand_spec hp1
      obtain ⟨he2, hr2, hw2, hk2⟩ := parseOperand_spec hp2
      obtain ⟨he3, hr3, hw3, hk3⟩ := parseOperand_spec hp3
      obtain ⟨he4, hr4, hw4, hk4⟩ := parseOperand_spec hp4
      refine ⟨extTrans he1 (extTrans he2 (extTrans he3 he4)), ?_, fun hw => hw4 (hw3 (hw2 (hw1 (hw)))), ?_⟩
      · intro j hj op hop
        simp only [List.mem_cons, List.not_mem_nil, or_false] at hj
        rcases hj with rfl | rfl | rfl
        · simp only [operandsOf, List.mem_cons, List.not_mem_nil, or_false] at hop
          rcases hop with rfl | rfl
          · exact hr1.monoReg (extTrans he2 (extTrans he3 he4))
          · exact hr2.monoReg (extTrans he3 he4)
        · simp only [operandsOf, List.mem_cons, List.not_mem_nil, or_false] at hop
          rcases hop with rfl | rfl
          · exact RegOk.imm _ _
          · exact hr3.monoReg he4
        · simp only [operandsOf, List.mem_cons, List.not_mem_nil, or_false] at hop
          subst hop
          exact hr4
      · intro id
        rw [mem_varNamesOf]
        simp only [valsOf, List.mem_cons, List.not_mem_nil, or_false]
        have hc := hk4 id
        rw [hk3 id, hk2 id, hk1 id] at hc
        rw [hc]
        exact orRel
    | NotEqual =>
      rcases hp1 : parseOperand s2 st with ⟨b, st1⟩
      rcases hp2 : parseOperand s1 st1 with ⟨a, st2x⟩
      rcases hp3 : parseOperand d st2x with ⟨d1, st3⟩
      rcases hp4 : parseOperand d st3 with ⟨d2, st4⟩
      simp only [parseInstruction] at h
      rw [hp1] at h
      simp only [] at h
      rw [hp2] at h
      simp only [] at h
      rw [hp3] at h
      simp only [] at h
      simp only [parseRelationalOperator] at h
      rw [hp4] at h
      simp only [Option.some.injEq, Prod.mk.injEq] at h
      obtain ⟨rfl, rfl⟩ := h
      obtain ⟨he1, hr1, hw1, hk1⟩ := parseOperand_spec hp1
      obtain ⟨he2, hr2, hw2, hk2⟩ := parseOperand_spec hp2
      obtain ⟨he3, hr3, hw3, hk3⟩ := parseOperand_spec hp3
      obtain ⟨he4, hr4, hw4, hk4⟩ := parseOperand_spec hp4
      refine ⟨extTrans he1 (extTrans he2 (extTrans he3 he4)), ?_, fun hw => hw4 (hw3 (hw2 (hw1 (hw)))), ?_⟩
      · intro j hj op hop
        simp only [List.mem_cons, List.not_mem_nil, or_false] at hj
        rcases hj with rfl | rfl | rfl
        · simp only [operandsOf, List.mem_cons, List.not_mem_nil, or_false] at hop
          rcases hop with rfl | rfl
          · exact hr1.monoReg (extTrans he2 (extTrans he3 he4))
          · exact hr2.monoReg (extTrans he3 he4)
        · simp only [operandsOf, List.mem_cons, List.not_mem_nil, or_false] at hop
          rcases hop with rfl | rfl
          · exact RegOk.imm _ _
          · exact hr3.monoReg he4
        · simp only [operandsOf, List.mem_cons, List.not_mem_nil, or_false] at hop
          subst hop
          exact hr4
      · intro id
        rw [mem_varNamesOf]
        simp only [valsOf, List.mem_cons, List.not_mem_nil, or_false]
        have hc := hk4 id
        rw [hk3 id, hk2 id, hk1 id] at hc
        rw [hc]
        exact orRel
    | LessThan =>
      rcases hp1 : parseOperand s2 st with ⟨b, st1⟩
      rcases hp2 : parseOperand s1 st1 with ⟨a, st2x⟩
      rcases hp3 : parseOperand d st2x with ⟨d1, st3⟩
      rcases hp4 : parseOperand d st3 with ⟨d2, st4⟩
      simp only [parseInstruction] at h
      rw [hp1] at h
      simp only [] at h
      rw [hp2] at h
      simp only [] at h
      rw [hp3] at h
      simp only [] at h
      simp only [parseRelationalOperator] at h
      rw [hp4] at h
      simp only [Option.some.injEq, Prod.mk.injEq] at h
      obtain ⟨rfl, rfl⟩ := h
      obtain ⟨he1, hr1, hw1, hk1⟩ := parseOperand_spec hp1
      obtain ⟨he2, hr2, hw2, hk2⟩ := parseOperand_spec hp2
      obtain ⟨he3, hr3, hw3, hk3⟩ := parseOperand_spec hp3
      obtain ⟨he4, hr4, hw4, hk4⟩ := parseOperand_spec hp4
      refine ⟨extTrans he1 (extTrans he2 (extTrans he3 he4)), ?_, fun hw => hw4 (hw3 (hw2 (hw1 (hw)))), ?_⟩
      · intro j hj op hop
        simp only [List.mem_cons, List.not_mem_nil, or_false] at hj
        rcases hj with rfl | rfl | rfl
        · simp only [operandsOf, List.mem_cons, List.not_mem_nil, or_false] at hop
          rcases hop with rfl | rfl
          · exact hr1.monoReg (extTrans he2 (extTrans he3 he4))
          · exact hr2.monoReg (extTrans he3 he4)
        · simp only [operandsOf, List.mem_cons, List.not_mem_nil, or_false] at hop
          rcases hop with rfl | rfl
          · exact RegOk.imm _ _
          · exact hr3.monoReg he4
        · simp only [operandsOf, List.mem_cons, List.not_mem_nil, or_false] at hop
          subst hop
          exact hr4
      · intro id
        rw [mem_varNamesOf]
        simp only [valsOf, List.mem_cons, List.not_mem_nil, or_false]
        have hc := hk4 id
        rw [hk3 id, hk2 id, hk1 id] at hc
        rw [hc]
        exact orRel
    | LessOrEqual =>
      rcases hp1 : parseOperand s2 st with ⟨b, st1⟩
      rcases hp2 : parseOperand s1 st1 with ⟨a, st2x⟩
      rcases hp3 : parseOperand d st2x with ⟨d1, st3⟩
      rcases hp4 : parseOperand d st3 with ⟨d2, st4⟩
      simp only [parseInstruction] at h
      rw [hp1] at h
      simp only [] at h
      rw [hp2] at h
      simp only [] at h
      rw [hp3] at h
      simp only [] at h
      simp only [parseRelationalOperator] at h
      rw [hp4] at h
      simp only [Option.some.injEq, Prod.mk.injEq] at h
      obtain ⟨rfl, rfl⟩ := h
      obtain ⟨he1, hr1, hw1, hk1⟩ := parseOperand_spec hp1
      obtain ⟨he2, hr2, hw2, hk2⟩ := parseOperand_spec hp2
      obtain ⟨he3, hr3, hw3, hk3⟩ := parseOperand_spec hp3
      obtain ⟨he4, hr4, hw4, hk4⟩ := parseOperand_spec hp4
      refine ⟨extTrans he1 (extTrans he2 (extTrans he3 he4)), ?_, fun hw => hw4 (hw3 (hw2 (hw1 (hw)))), ?_⟩
      · intro j hj op hop
        simp only [List.mem_cons, List.not_mem_nil, or_false] at hj
        rcases hj with rfl | rfl | rfl
        · simp only [operandsOf, List.mem_cons, List.not_mem_nil, or_false] at hop
          rcases hop with rfl | rfl
          · exact hr1.monoReg (extTrans he2 (extTrans he3 he4))
          · exact hr2.monoReg (extTrans he3 he4)
        · simp only [operandsOf, List.mem_cons, List.not_mem_nil, or_false] at hop
          rcases hop with rfl | rfl
          · exact RegOk.imm _ _
          · exact hr3.monoReg he4
        · simp only [operandsOf, List.mem_cons, List.not_mem_nil, or_false] at hop
          subst hop
          exact hr4
      · intro id
        rw [mem_varNamesOf]
        simp only [valsOf, List.mem_cons, List.not_mem_nil, or_false]
        have hc := hk4 id
        rw [hk3 id, hk2 id, hk1 id] at hc
        rw [hc]
        exact orRel
    | GreaterThan =>
      rcases hp1 : parseOperand s2 st with ⟨b, st1⟩
      rcases hp2 : parseOperand s1 st1 with ⟨a, st2x⟩
      rcases hp3 : parseOperand d st2x with ⟨d1, st3⟩
      rcases hp4 : parseOperand d st3 with ⟨d2, st4⟩
      simp only [parseInstruction] at h
      rw [hp1] at h
      simp only [] at h
      rw [hp2] at h
      simp only [] at h
      rw [hp3] at h
      simp only [] at h
      simp only [parseRelationalOperator] at h
      rw [hp4] at h
      simp only [Option.some.injEq, Prod.mk.injEq] at h
      obtain ⟨rfl, rfl⟩ := h
      obtain ⟨he1, hr1, hw1, hk1⟩ := parseOperand_spec hp1
      obtain ⟨he2, hr2, hw2, hk2⟩ := parseOperand_spec hp2
      obtain ⟨he3, hr3, hw3, hk3⟩ := parseOperand_spec hp3
      obtain ⟨he4, hr4, hw4, hk4⟩ := parseOperand_spec hp4
      refine ⟨extTrans he1 (extTrans he2 (extTrans he3 he4)), ?_, fun hw => hw4 (hw3 (hw2 (hw1 (hw)))), ?_⟩
      · intro j hj op hop
        simp only [List.mem_cons, List.not_mem_nil, or_false] at hj
        rcases hj with rfl | rfl | rfl
        · simp only [operandsOf, List.mem_cons, List.not_mem_nil, or_false] at hop
          rcases hop with rfl | rfl
          · exact hr1.monoReg (extTrans he2 (extTrans he3 he4))
          · exact hr2.monoReg (extTrans he3 he4)
        · simp only [operandsOf, List.mem_cons, List.not_mem_nil, or_false] at hop
          rcases hop with rfl | rfl
          · exact RegOk.imm _ _
          · exact hr3.monoReg he4
        · simp only [operandsOf, List.mem_cons, List.not_mem_nil, or_false] at hop
          subst hop
          exact hr4
      · intro id
        rw [mem_varNamesOf]
        simp only [valsOf, List.mem_cons, List.not_mem_nil, or_false]
        have hc := hk4 id
        rw [hk3 id, hk2 id, hk1 id] at hc
        rw [hc]
        exact orRel
    | GreaterOrEqual =>
      rcases hp1 : parseOperand s2 st with ⟨b, st1⟩
      rcases hp2 : parseOperand s1 st1 with ⟨a, st2x⟩
      rcases hp3 : parseOperand d st2x with ⟨d1, st3⟩
      rcases hp4 : parseOperand d st3 with ⟨d2, st4⟩
      simp only [parseInstruction] at h
      rw [hp1] at h
      simp only [] at h
      rw [hp2] at h
      simp only [] at h
      rw [hp3] at h
      simp only [] at h
      simp only [parseRelationalOperator] at h
      rw [hp4] at h
      simp only [Option.some.injEq, Prod.mk.injEq] at h
      obtain ⟨rfl, rfl⟩ := h
      obtain ⟨he1, hr1, hw1, hk1⟩ := parseOperand_spec hp1
      obtain ⟨he2, hr2, hw2, hk2⟩ := parseOperand_spec hp2
      obtain ⟨he3, hr3, hw3, hk3⟩ := parseOperand_spec hp3
      obtain ⟨he4, hr4, hw4, hk4⟩ := parseOperand_spec hp4
      refine ⟨extTrans he1 (extTrans he2 (extTrans he3 he4)), ?_, fun hw => hw4 (hw3 (hw2 (hw1 (hw)))), ?_⟩
      · intro j hj op hop
        simp only [List.mem_cons, List.not_mem_nil, or_false] at hj
        rcases hj with rfl | rfl | rfl
        · simp only [operandsOf, List.mem_cons, List.not_mem_nil, or_false] at hop
          rcases hop with rfl | rfl
          · exact hr1.monoReg (extTrans he2 (extTrans he3 he4))
          · exact hr2.monoReg (extTrans he3 he4)
        · simp only [operandsOf, List.mem_cons, List.not_mem_nil, or_false] at hop
          rcases hop with rfl | rfl
          · exact RegOk.imm _ _
          · exact hr3.monoReg he4
        · simp only [operandsOf, List.mem_cons, List.not_mem_nil, or_false] at hop
          subst hop
          exact hr4
      · intro id
        rw [mem_varNamesOf]
        simp only [valsOf, List.mem_cons, List.not_mem_nil, or_false]
        have hc := hk4 id
        rw [hk3 id, hk2 id, hk1 id] at hc
        rw [hc]
        exact orRel
    | Add =>
      rcases hp1 : parseOperand s1 st with ⟨a, st1⟩
      rcases hp2 : parseOperand d st1 with ⟨d1, st2x⟩
      rcases hp3 : parseOperand s2 st2x with ⟨b, st3⟩
      rcases hp4 : parseOperand d st3 with ⟨d2, st4⟩
      simp only [parseInstruction] at h
      rw [hp1] at h
      simp only [] at h
      rw [hp2] at h
      simp only [] at h
      simp only [parseBinaryOperator] at h
      rw [hp3] at h
      simp only [] at h
      rw [hp4] at h
      simp only [Option.some.injEq, Prod.mk.injEq] at h
      obtain ⟨rfl, rfl⟩ := h
      obtain ⟨he1, hr1, hw1, hk1⟩ := parseOperand_spec hp1
      obtain ⟨he2, hr2, hw2, hk2⟩ := parseOperand_spec hp2
      obtain ⟨he3, hr3, hw3, hk3⟩ := parseOperand_spec hp3
      obtain ⟨he4, hr4, hw4, hk4⟩ := parseOperand_spec hp4
      refine ⟨extTrans he1 (extTrans he2 (extTrans he3 he4)), ?_, fun hw => hw4 (hw3 (hw2 (hw1 (hw)))), ?_⟩
      · intro j hj op hop
        simp only [List.mem_cons, List.not_mem_nil, or_false] at hj
        rcases hj with rfl | rfl
        · simp only [operandsOf, List.mem_cons, List.not_mem_nil, or_false] at hop
          rcases hop with rfl | rfl
          · exact hr1.monoReg (extTrans he2 (extTrans he3 he4))
          · exact hr2.monoReg (extTrans he3 he4)
        · simp only [operandsOf, List.mem_cons, List.not_mem_nil, or_false] at hop
          rcases hop with rfl | rfl
          · exact hr3.monoReg he4
          · exact hr4
      · intro id
        rw [mem_varNamesOf]
        simp only [valsOf, List.mem_cons, List.not_mem_nil, or_false]
        have hc := hk4 id
        rw [hk3 id, hk2 id, hk1 id] at hc
        rw [hc]
        exact orArith
    | Subtract =>
      rcases hp1 : parseOperand s1 st with ⟨a, st1⟩
      rcases hp2 : parseOperand d st1 with ⟨d1, st2x⟩
      rcases hp3 : parseOperand s2 st2x with ⟨b, st3⟩
      rcases hp4 : parseOperand d st3 with ⟨d2, st4⟩
      simp only [parseInstruction] at h
      rw [hp1] at h
      simp only [] at h
      rw [hp2] at h
      simp only [] at h
      simp only [parseBinaryOperator] at h
      rw [hp3] at h
      simp only [] at h
      rw [hp4] at h
      simp only [Option.some.injEq, Prod.mk.injEq] at h
      obtain ⟨rfl, rfl⟩ := h
      obtain ⟨he1, hr1, hw1, hk1⟩ := parseOperand_spec hp1
      obtain ⟨he2, hr2, hw2, hk2⟩ := parseOperand_spec hp2
      obtain ⟨he3, hr3, hw3, hk3⟩ := parseOperand_spec hp3
      obtain ⟨he4, hr4, hw4, hk4⟩ := parseOperand_spec hp4
      refine ⟨extTrans he1 (extTrans he2 (extTrans he3 he4)), ?_, fun hw => hw4 (hw3 (hw2 (hw1 (hw)))), ?_⟩
      · intro j hj op hop
        simp only [List.mem_cons, List.not_mem_nil, or_false] at hj
        rcases hj with rfl | rfl
        · simp only [operandsOf, List.mem_cons, List.not_mem_nil, or_false] at hop
          rcases hop with rfl | rfl
          · exact hr1.monoReg (extTrans he2 (extTrans he3 he4))
          · exact hr2.monoReg (extTrans he3 he4)
        · simp only [operandsOf, List.mem_cons, List.not_mem_nil, or_false] at hop
          rcases hop with rfl | rfl
          · exact hr3.monoReg he4
          · exact hr4
      · intro id
        rw [mem_varNamesOf]
        simp only [valsOf, List.mem_cons, List.not_mem_nil, or_false]
        have hc := hk4 id
        rw [hk3 id, hk2 id, hk1 id] at hc
        rw [hc]
        exact orArith
    | Multiply =>
      rcases hp1 : parseOperand s1 st with ⟨a, st1⟩
      rcases hp2 : parseOperand d st1 with ⟨d1, st2x⟩
      rcases hp3 : parseOperand s2 st2x with ⟨b, st3⟩
      rcases hp4 : parseOperand d st3 with ⟨d2, st4⟩
      simp only [parseInstruction] at h
      rw [hp1] at h
      simp only [] at h
      rw [hp2] at h
      simp only [] at h
      simp only [parseBinaryOperator] at h
      rw [hp3] at h
      simp only [] at h
      rw [hp4] at h
      simp only [Option.some.injEq, Prod.mk.injEq] at h
      obtain ⟨rfl, rfl⟩ := h
      obtain ⟨he1, hr1, hw1, hk1⟩ := parseOperand_spec hp1
      obtain ⟨he2, hr2, hw2, hk2⟩ := parseOperand_spec hp2
      obtain ⟨he3, hr3, hw3, hk3⟩ := parseOperand_spec hp3
      obtain ⟨he4, hr4, hw4, hk4⟩ := parseOperand_spec hp4
      refine ⟨extTrans he1 (extTrans he2 (extTrans he3 he4)), ?_, fun hw => hw4 (hw3 (hw2 (hw1 (hw)))), ?_⟩
      · intro j hj op hop
        simp only [List.mem_cons, List.not_mem_nil, or_false] at hj
        rcases hj with rfl | rfl
        · simp only [operandsOf, List.mem_cons, List.not_mem_nil, or_false] at hop
          rcases hop with rfl | rfl
          · exact hr1.monoReg (extTrans he2 (extTrans he3 he4))
          · exact hr2.monoReg (extTrans he3 he4)
        · simp only [operandsOf, List.mem_cons, List.not_mem_nil, or_false] at hop
          rcases hop with rfl | rfl
          · exact hr3.monoReg he4
          · exact hr4
      · intro id
        rw [mem_varNamesOf]
        simp only [valsOf, List.mem_cons, List.not_mem_nil, or_false]
        have hc := hk4 id
        rw [hk3 id, hk2 id, hk1 id] at hc
        rw [hc]
        exact orArith
    | And =>
      rcases hp1 : parseOperand s1 st with ⟨a, st1⟩
      rcases hp2 : parseOperand d st1 with ⟨d1, st2x⟩
      simp only [parseInstruction] at h
      rw [hp1] at h
      simp only [] at h
      rw [hp2] at h
      simp only [] at h
      simp only [parseBinaryOperator] at h
      exact Option.noConfusion h
    | Or =>
      rcases hp1 : parseOperand s1 st with ⟨a, st1⟩
      rcases hp2 : parseOperand d st1 with ⟨d1, st2x⟩
      simp only [parseInstruction] at h
      rw [hp1] at h
      simp only [] at h
      rw [hp2] at h
      simp only [] at h
      simp only [parseBinaryOperator] at h
      exact Option.noConfusion h
  | Jump t =>
    simp only [parseInstruction, Option.some.injEq, Prod.mk.injEq] at h
    obtain ⟨rfl, rfl⟩ := h
    refine ⟨⟨[], by simp⟩, ?_, fun hw => hw, ?_⟩
    · intro j hj op hop
      simp only [List.mem_cons, List.not_mem_nil, or_false] at hj
      subst hj
      simp only [operandsOf, List.not_mem_nil] at hop
    · intro id
      rw [mem_varNamesOf]
      simp [valsOf]
  | JumpIfZero c t =>
    rcases hp1 : parseOperand c st with ⟨a, st1⟩
    simp only [parseInstruction] at h
    rw [hp1] at h
    simp only [Option.some.injEq, Prod.mk.injEq] at h
    obtain ⟨rfl, rfl⟩ := h
    obtain ⟨he1, hr1, hw1, hk1⟩ := parseOperand_spec hp1
    refine ⟨he1, ?_, fun hw => hw1 (hw), ?_⟩
    · intro j hj op hop
      simp only [List.mem_cons, List.not_mem_nil, or_false] at hj
      rcases hj with rfl | rfl
      · simp only [operandsOf, List.mem_cons, List.not_mem_nil, or_false] at hop
        rcases hop with rfl | rfl
        · exact RegOk.imm _ _
        · exact hr1
      · simp only [operandsOf, List.not_mem_nil] at hop
    · intro id
      rw [mem_varNamesOf]
      simp only [valsOf, List.mem_cons, List.not_mem_nil, or_false]
      exact hk1 id
  | JumpIfNotZero c t =>
    rcases hp1 : parseOperand c st with ⟨a, st1⟩
    simp only [parseInstruction] at h
    rw [hp1] at h
    simp only [Option.some.injEq, Prod.mk.injEq] at h
    obtain ⟨rfl, rfl⟩ := h
    obtain ⟨he1, hr1, hw1, hk1⟩ := parseOperand_spec hp1
    refine ⟨he1, ?_, fun hw => hw1 (hw), ?_⟩
    · intro j hj op hop
      simp only [List.mem_cons, List.not_mem_nil, or_false] at hj
      rcases hj with rfl | rfl
      · simp only [operandsOf, List.mem_cons, List.not_mem_nil, or_false] at hop
        rcases hop with rfl | rfl
        · exact RegOk.imm _ _
        · exact hr1
      · simp only [operandsOf, List.not_mem_nil] at hop
    · intro id
      rw [mem_varNamesOf]
      simp only [valsOf, List.mem_cons, List.not_mem_nil, or_false]
      exact hk1 id
  | Copy s d =>
    rcases hp1 : parseOperand s st with ⟨a, st1⟩
    rcases hp2 : parseOperand d st1 with ⟨b, st2x⟩
    simp only [parseInstruction] at h
    rw [hp1] at h
    simp only [] at h
    rw [hp2] at h
    simp only [Option.some.injEq, Prod.mk.injEq] at h
    obtain ⟨rfl, rfl⟩ := h
    obtain ⟨he1, hr1, hw1, hk1⟩ := parseOperand_spec hp1
    obtain ⟨he2, hr2, hw2, hk2⟩ := parseOperand_spec hp2
    refine ⟨extTrans he1 he2, ?_, fun hw => hw2 (hw1 (hw)), ?_⟩
    · intro j hj op hop
      simp only [List.mem_cons, List.not_mem_nil, or_false] at hj
      subst hj
      simp only [operandsOf, List.mem_cons, List.not_mem_nil, or_false] at hop
      rcases hop with rfl | rfl
      · exact hr1.monoReg he2
      · exact hr2
    · intro id
      rw [mem_varNamesOf]
      simp only [valsOf, List.mem_cons, List.not_mem_nil, or_false]
      have hc := hk2 id
      rw [hk1 id] at hc
      rw [hc]
      exact orCopy
  | Label n =>
    simp only [parseInstruction, Option.some.injEq, Prod.mk.injEq] at h
    obtain ⟨rfl, rfl⟩ := h
    refine ⟨⟨[], by simp⟩, ?_, fun hw => hw, ?_⟩
    · intro j hj op hop
      simp only [List.mem_cons, List.not_mem_nil, or_false] at hj
      subst hj
      simp only [operandsOf, List.not_mem_nil] at hop
    · intro id
      rw [mem_varNamesOf]
      simp [valsOf]

/-- The selection loop: the map is append-only across the whole run,
every operand of the emitted sequence is registered in the final map, the
offset invariant is preserved, and the final key set is the initial one
plus the variables of the lowered IR. -/
theorem selectInstrs_spec {l : List Tac.Instruction} : ∀ {st : AsmState}
    {is : List Asm.Instruction} {stF : AsmState},
    selectInstrs l st = some (is, stF) →
    (∃ t, stF.pseudo_registers = st.pseudo_registers ++ t) ∧
    (∀ j ∈ is, ∀ op ∈ operandsOf j, RegOk stF op) ∧
    (WFAsm st → WFAsm stF) ∧
    (∀ id, Asm.Operand.Pseudo id ∈ mapKeys stF.pseudo_registers ↔
      (Asm.Operand.Pseudo id ∈ mapKeys st.pseudo_registers ∨
        id ∈ l.flatMap varNamesOf)) := by
  induction l with
  | nil =>
    intro st is stF h
    simp only [selectInstrs, Option.some.injEq, Prod.mk.injEq] at h
    obtain ⟨rfl, rfl⟩ := h
    refine ⟨⟨[], by simp⟩, ?_, fun hw => hw, ?_⟩
    · intro j hj
      simp at hj
    · intro id
      simp
  | cons i rest ih =>
    intro st is stF h
    simp only [selectInstrs] at h
    cases hp : parseInstruction i st with
    | none =>
      rw [hp] at h
      exact Option.noConfusion h
    | some p =>
      obtain ⟨is1, st1⟩ := p
      rw [hp] at h
      simp only [] at h
      cases hs : selectInstrs rest st1 with
      | none =>
        rw [hs] at h
        exact Option.noConfusion h
      | some q =>
        obtain ⟨is2, st2x⟩ := q
        rw [hs] at h
        simp only [Option.some.injEq, Prod.mk.injEq] at h
        obtain ⟨rfl, rfl⟩ := h
        obtain ⟨he1, hr1, hw1, hk1⟩ := parseInstruction_spec hp
        obtain ⟨he2, hr2, hw2, hk2⟩ := ih hs
        refine ⟨extTrans he1 he2, ?_, fun hw => hw2 (hw1 hw), ?_⟩
        · intro j hj op hop
          rw [List.mem_append] at hj
          rcases hj with hj | hj
          · exact (hr1 j hj op hop).monoReg he2
          · exact hr2 j hj op hop
        · intro id
          simp only [List.flatMap_cons, List.mem_append]
          have hc := hk2 id
          rw [hk1 id] at hc
          rw [hc]
          exact orCopy

/-- Running the selection loop on an appended list splits into the two
runs, the second starting from the first run's final state: the map built
by a prefix of the body is never changed or shrunk by the rest. -/
theorem selectInstrs_append {l1 : List Tac.Instruction} : ∀ {l2 : List Tac.Instruction}
    {st st1 : AsmState} {is1 : List Asm.Instruction},
    selectInstrs l1 st = some (is1, st1) →
    selectInstrs (l1 ++ l2) st =
      (match selectInstrs l2 st1 with
       | none => none
       | some (is2, st2x) => some (is1 ++ is2, st2x)) := by
  induction l1 with
  | nil =>
    intro l2 st st1 is1 h
    simp only [selectInstrs, Option.some.injEq, Prod.mk.injEq] at h
    obtain ⟨rfl, rfl⟩ := h
    cases ht : selectInstrs l2 st with
    | none => simp [ht]
    | some q =>
      obtain ⟨a, b⟩ := q
      simp [ht]
  | cons i rest ih =>
    intro l2 st st1 is1 h
    simp only [selectInstrs] at h
    cases hp : parseInstruction i st with
    | none =>
      rw [hp] at h
      exact Option.noConfusion h
    | some p =>
      obtain ⟨isH, stH⟩ := p
      rw [hp] at h
      simp only [] at h
      cases hs : selectInstrs rest stH with
      | none =>
        rw [hs] at h
        exact Option.noConfusion h
      | some q =>
        obtain ⟨isT, stT⟩ := q
        rw [hs] at h
        simp only [Option.some.injEq, Prod.mk.injEq] at h
        obtain ⟨rfl, rfl⟩ := h
        have hrec := @ih l2 stH stT isT hs
        show selectInstrs (i :: (rest ++ l2)) st = _
        simp only [selectInstrs]
        rw [hp]
        simp only []
        rw [hrec]
        cases ht : selectInstrs l2 stT with
        | none => rfl
        | some r =>
          obtain ⟨a, b⟩ := r
          simp [List.append_assoc]

/-- `ReplacePseudoRegisters` rewrites exactly the operand slots. -/
theorem operandsOf_replace (m : List (Asm.Operand × Int)) (i : Asm.Instruction) :
    operandsOf (replacePseudoInstr m i) = (operandsOf i).map (getStackValue m) := by
  cases i <;> rfl

theorem isImm_false_of_isStack {o : Asm.Operand} (h : isStack o = true) :
    isImm o = false := by
  cases o <;> simp [isStack, isImm] at h ⊢

theorem isPseudo_getStackValue_of_reg {st : AsmState} {op : Asm.Operand}
    (h : RegOk st op) : isPseudo (getStackValue st.pseudo_registers op) = false := by
  unfold getStackValue
  cases hps : isPseudo op with
  | true =>
    obtain ⟨w, hw⟩ := h hps
    rw [hw]
    rfl
  | false =>
    cases hlk : mapLookup st.pseudo_registers op with
    | none => exact hps
    | some w => rfl

/-- Every `Mov` produced by `RewriteMov` is legal; nothing else changes. -/
theorem rewriteMov_movLegal (l : List Asm.Instruction) :
    ∀ i ∈ rewriteMov l, movLegal i = true := by
  induction l with
  | nil =>
    intro i hi
    simp [rewriteMov] at hi
  | cons j rest ih =>
    intro i hi
    simp only [rewriteMov, List.mem_append] at hi
    rcases hi with hi | hi
    · cases j with
      | Mov src dst =>
        simp only [] at hi
        by_cases hc : (isStack src && isStack dst) = true
        · rw [if_pos hc] at hi
          simp only [List.mem_cons, List.not_mem_nil, or_false] at hi
          rcases hi with rfl | rfl <;> simp [movLegal, isStack]
        · rw [if_neg hc] at hi
          simp only [List.mem_cons, List.not_mem_nil, or_false] at hi
          subst hi
          simp only [movLegal]
          cases hb : (isStack src && isStack dst) with
          | true => exact absurd hb hc
          | false => rfl
      | Unary op o =>
        simp only [List.mem_cons, List.not_mem_nil, or_false] at hi
        subst hi
        rfl
      | Binary op o1 o2 =>
        simp only [List.mem_cons, List.not_mem_nil, or_false] at hi
        subst hi
        rfl
      | Idiv o =>
        simp only [List.mem_cons, List.not_mem_nil, or_false] at hi
        subst hi
        rfl
      | Cdq =>
        simp only [List.mem_cons, List.not_mem_nil, or_false] at hi
        subst hi
        rfl
      | AllocateStack n =>
        simp only [List.mem_cons, List.not_mem_nil, or_false] at hi
        subst hi
        rfl
      | Ret =>
        simp only [List.mem_cons, List.not_mem_nil, or_false] at hi
        subst hi
        rfl
      | Cmp a b =>
        simp only [List.mem_cons, List.not_mem_nil, or_false] at hi
        subst hi
        rfl
      | Jmp t =>
        simp only [List.mem_cons, List.not_mem_nil, or_false] at hi
        subst hi
        rfl
      | JumpCC c t =>
        simp only [List.mem_cons, List.not_mem_nil, or_false] at hi
        subst hi
        rfl
      | SetCC c o =>
        simp only [List.mem_cons, List.not_mem_nil, or_false] at hi
        subst hi
        rfl
      | Label t =>
        simp only [List.mem_cons, List.not_mem_nil, or_false] at hi
        subst hi
        rfl
    · exact ih i hi

/-- After `RewriteBinaryOp` (given legal `Mov`s in, as `RewriteMov`
guarantees) every instruction has a legal `Mov` shape, no `Mult` with a
`Stack` destination, and no `Idiv` with an `Imm` operand. -/
theorem rewriteBinaryOp_legal (l : List Asm.Instruction) : ∀ (l2 : List Asm.Instruction),
    rewriteBinaryOp l = some l2 → (∀ i ∈ l, movLegal i = true) →
    ∀ i ∈ l2, movLegal i = true ∧ multLegal i = true ∧ idivLegal i = true := by
  induction l with
  | nil =>
    intro l2 h hm i hi
    simp only [rewriteBinaryOp, Option.some.injEq] at h
    subst h
    simp at hi
  | cons j rest ih =>
    intro l2 h hm i hi
    simp only [rewriteBinaryOp] at h
    cases j with
      | Mov src dst =>
        simp only [] at h
        cases hrec : rewriteBinaryOp rest with
        | none =>
          rw [hrec] at h
          exact Option.noConfusion h
        | some rs =>
          rw [hrec] at h
          simp only [Option.some.injEq] at h
          subst h
          simp only [List.cons_append, List.nil_append, List.mem_cons] at hi
          rcases hi with rfl | hi
          · exact ⟨hm _ (List.mem_cons_self _ _), rfl, rfl⟩
          · exact ih rs hrec (fun k hk => hm k (List.mem_cons_of_mem _ hk)) i hi
      | Unary uo o =>
        simp only [] at h
        cases hrec : rewriteBinaryOp rest with
        | none =>
          rw [hrec] at h
          exact Option.noConfusion h
        | some rs =>
          rw [hrec] at h
          simp only [Option.some.injEq] at h
          subst h
          simp only [List.cons_append, List.nil_append, List.mem_cons] at hi
          rcases hi with rfl | hi
          · exact ⟨hm _ (List.mem_cons_self _ _), rfl, rfl⟩
          · exact ih rs hrec (fun k hk => hm k (List.mem_cons_of_mem _ hk)) i hi
      | Binary op src dst =>
        cases op with
        | Add =>
          simp only [] at h
          cases hrec : rewriteBinaryOp rest with
          | none =>
            rw [hrec] at h
            exact Option.noConfusion h
          | some rs =>
            rw [hrec] at h
            simp only [Option.some.injEq] at h
            subst h
            simp only [List.cons_append, List.nil_append, List.mem_cons] at hi
            rcases hi with rfl | rfl | hi
            · exact ⟨by simp [movLegal, isStack], rfl, rfl⟩
            · exact ⟨rfl, rfl, rfl⟩
            · exact ih rs hrec (fun k hk => hm k (List.mem_cons_of_mem _ hk)) i hi
        | Sub =>
          simp only [] at h
          cases hrec : rewriteBinaryOp rest with
          | none =>
            rw [hrec] at h
            exact Option.noConfusion h
          | some rs =>
            rw [hrec] at h
            simp only [Option.some.injEq] at h
            subst h
            simp only [List.cons_append, List.nil_append, List.mem_cons] at hi
            rcases hi with rfl | rfl | hi
            · exact ⟨by simp [movLegal, isStack], rfl, rfl⟩
            · exact ⟨rfl, rfl, rfl⟩
            · exact ih rs hrec (fun k hk => hm k (List.mem_cons_of_mem _ hk)) i hi
        | Mult =>
          simp only [] at h
          cases hrec : rewriteBinaryOp rest with
          | none =>
            rw [hrec] at h
            exact Option.noConfusion h
          | some rs =>
            rw [hrec] at h
            simp only [Option.some.injEq] at h
            subst h
            simp only [List.cons_append, List.nil_append, List.mem_cons] at hi
            rcases hi with rfl | rfl | rfl | hi
            · exact ⟨by simp [movLegal, isStack], rfl, rfl⟩
            · exact ⟨rfl, rfl, rfl⟩
            · exact ⟨rfl, rfl, rfl⟩
            · exact ih rs hrec (fun k hk => hm k (List.mem_cons_of_mem _ hk)) i hi
        | Divide =>
          simp only [] at h
          exact Option.noConfusion h
        | Remainder =>
          simp only [] at h
          exact Option.noConfusion h
      | Idiv o =>
        simp only [] at h
        cases hrec : rewriteBinaryOp rest with
        | none =>
          rw [hrec] at h
          exact Option.noConfusion h
        | some rs =>
          rw [hrec] at h
          simp only [Option.some.injEq] at h
          subst h
          simp only [List.cons_append, List.nil_append, List.mem_cons] at hi
          rcases hi with rfl | rfl | hi
          · exact ⟨by simp [movLegal, isStack], rfl, rfl⟩
          · exact ⟨rfl, rfl, rfl⟩
          · exact ih rs hrec (fun k hk => hm k (List.mem_cons_of_mem _ hk)) i hi
      | Cdq =>
        simp only [] at h
        cases hrec : rewriteBinaryOp rest with
        | none =>
          rw [hrec] at h
          exact Option.noConfusion h
        | some rs =>
          rw [hrec] at h
          simp only [Option.some.injEq] at h
          subst h
          simp only [List.cons_append, List.nil_append, List.mem_cons] at hi
          rcases hi with rfl | hi
          · exact ⟨hm _ (List.mem_cons_self _ _), rfl, rfl⟩
          · exact ih rs hrec (fun k hk => hm k (List.mem_cons_of_mem _ hk)) i hi
      | AllocateStack n =>
        simp only [] at h
        cases hrec : rewriteBinaryOp rest with
        | none =>
          rw [hrec] at h
          exact Option.noConfusion h
        | some rs =>
          rw [hrec] at h
          simp only [Option.some.injEq] at h
          subst h
          simp only [List.cons_append, List.nil_append, List.mem_cons] at hi
          rcases hi with rfl | hi
          · exact ⟨hm _ (List.mem_cons_self _ _), rfl, rfl⟩
          · exact ih rs hrec (fun k hk => hm k (List.mem_cons_of_mem _ hk)) i hi
      | Ret =>
        simp only [] at h
        cases hrec : rewriteBinaryOp rest with
        | none =>
          rw [hrec] at h
          exact Option.noConfusion h
        | some rs =>
          rw [hrec] at h
          simp only [Option.some.injEq] at h
          subst h
          simp only [List.cons_append, List.nil_append, List.mem_cons] at hi
          rcases hi with rfl | hi
          · exact ⟨hm _ (List.mem_cons_self _ _), rfl, rfl⟩
          · exact ih rs hrec (fun k hk => hm k (List.mem_cons_of_mem _ hk)) i hi
      | Cmp a b =>
        simp only [] at h
        cases hrec : rewriteBinaryOp rest with
        | none =>
          rw [hrec] at h
          exact Option.noConfusion h
        | some rs =>
          rw [hrec] at h
          simp only [Option.some.injEq] at h
          subst h
          simp only [List.cons_append, List.nil_append, List.mem_cons] at hi
          rcases hi with rfl | hi
          · exact ⟨hm _ (List.mem_cons_self _ _), rfl, rfl⟩
          · exact ih rs hrec (fun k hk => hm k (List.mem_cons_of_mem _ hk)) i hi
      | Jmp t =>
        simp only [] at h
        cases hrec : rewriteBinaryOp rest with
        | none =>
          rw [hrec] at h
          exact Option.noConfusion h
        | some rs =>
          rw [hrec] at h
          simp only [Option.some.injEq] at h
          subst h
          simp only [List.cons_append, List.nil_append, List.mem_cons] at hi
          rcases hi with rfl | hi
          · exact ⟨hm _ (List.mem_cons_self _ _), rfl, rfl⟩
          · exact ih rs hrec (fun k hk => hm k (List.mem_cons_of_mem _ hk)) i hi
      | JumpCC c t =>
        simp only [] at h
        cases hrec : rewriteBinaryOp rest with
        | none =>
          rw [hrec] at h
          exact Option.noConfusion h
        | some rs =>
          rw [hrec] at h
          simp only [Option.some.injEq] at h
          subst h
          simp only [List.cons_append, List.nil_append, List.mem_cons] at hi
          rcases hi with rfl | hi
          · exact ⟨hm _ (List.mem_cons_self _ _), rfl, rfl⟩
          · exact ih rs hrec (fun k hk => hm k (List.mem_cons_of_mem _ hk)) i hi
      | SetCC c o =>
        simp only [] at h
        cases hrec : rewriteBinaryOp rest with
        | none =>
          rw [hrec] at h
          exact Option.noConfusion h
        | some rs =>
          rw [hrec] at h
          simp only [Option.some.injEq] at h
          subst h
          simp only [List.cons_append, List.nil_append, List.mem_cons] at hi
          rcases hi with rfl | hi
          · exact ⟨hm _ (List.mem_cons_self _ _), rfl, rfl⟩
          · exact ih rs hrec (fun k hk => hm k (List.mem_cons_of_mem _ hk)) i hi
      | Label t =>
        simp only [] at h
        cases hrec : rewriteBinaryOp rest with
        | none =>
          rw [hrec] at h
          exact Option.noConfusion h
        | some rs =>
          rw [hrec] at h
          simp only [Option.some.injEq] at h
          subst h
          simp only [List.cons_append, List.nil_append, List.mem_cons] at hi
          rcases hi with rfl | hi
          · exact ⟨hm _ (List.mem_cons_self _ _), rfl, rfl⟩
          · exact ih rs hrec (fun k hk => hm k (List.mem_cons_of_mem _ hk)) i hi

/-- After `RewriteCmp` (on a `RewriteBinaryOp` output) all four
legalization invariants hold for every instruction. -/
theorem rewriteCmp_legal (l : List Asm.Instruction) :
    (∀ i ∈ l, movLegal i = true ∧ multLegal i = true ∧ idivLegal i = true) →
    ∀ i ∈ rewriteCmp l, legalInstr i = true := by
  induction l with
  | nil =>
    intro hm i hi
    simp [rewriteCmp] at hi
  | cons j rest ih =>
    intro hm i hi
    simp only [rewriteCmp, List.mem_append] at hi
    rcases hi with hi | hi
    · cases j with
      | Cmp a b =>
        simp only [] at hi
        by_cases hc1 : (isStack a && isStack b) = true
        · rw [if_pos hc1] at hi
          simp only [List.mem_cons, List.not_mem_nil, or_false] at hi
          have hsb : isStack b = true := by
            have hx := hc1
            rw [Bool.and_eq_true] at hx
            exact hx.2
          rcases hi with rfl | rfl
          · simp [legalInstr, movLegal, cmpLegal, multLegal, idivLegal, isStack]
          · simp [legalInstr, movLegal, cmpLegal, multLegal, idivLegal, isStack,
              isImm_false_of_isStack hsb]
        · rw [if_neg hc1] at hi
          by_cases hc2 : isImm b = true
          · rw [if_pos hc2] at hi
            simp only [List.mem_cons, List.not_mem_nil, or_false] at hi
            rcases hi with rfl | rfl
            · simp [legalInstr, movLegal, cmpLegal, multLegal, idivLegal, isStack]
            · simp [legalInstr, movLegal, cmpLegal, multLegal, idivLegal, isStack, isImm]
          · rw [if_neg hc2] at hi
            simp only [List.mem_cons, List.not_mem_nil, or_false] at hi
            subst hi
            simp only [legalInstr, movLegal, cmpLegal, multLegal, idivLegal]
            cases hb1 : (isStack a && isStack b) with
            | true => exact absurd hb1 hc1
            | false =>
              cases hb2 : isImm b with
              | true => exact absurd hb2 hc2
              | false => simp
      | Mov src dst =>
        simp only [List.mem_cons, List.not_mem_nil, or_false] at hi
        subst hi
        obtain ⟨h1, h2, h3⟩ := hm _ (List.mem_cons_self _ _)
        simp [legalInstr, cmpLegal, h1, h2, h3]
      | Unary uo o =>
        simp only [List.mem_cons, List.not_mem_nil, or_false] at hi
        subst hi
        obtain ⟨h1, h2, h3⟩ := hm _ (List.mem_cons_self _ _)
        simp [legalInstr, cmpLegal, h1, h2, h3]
      | Binary op o1 o2 =>
        simp only [List.mem_cons, List.not_mem_nil, or_false] at hi
        subst hi
        obtain ⟨h1, h2, h3⟩ := hm _ (List.mem_cons_self _ _)
        simp [legalInstr, cmpLegal, h1, h2, h3]
      | Idiv o =>
        simp only [List.mem_cons, List.not_mem_nil, or_false] at hi
        subst hi
        obtain ⟨h1, h2, h3⟩ := hm _ (List.mem_cons_self _ _)
        simp [legalInstr, cmpLegal, h1, h2, h3]
      | Cdq =>
        simp only [List.mem_cons, List.not_mem_nil, or_false] at hi
        subst hi
        obtain ⟨h1, h2, h3⟩ := hm _ (List.mem_cons_self _ _)
        simp [legalInstr, cmpLegal, h1, h2, h3]
      | AllocateStack n =>
        simp only [List.mem_cons, List.not_mem_nil, or_false] at hi
        subst hi
        obtain ⟨h1, h2, h3⟩ := hm _ (List.mem_cons_self _ _)
        simp [legalInstr, cmpLegal, h1, h2, h3]
      | Ret =>
        simp only [List.mem_cons, List.not_mem_nil, or_false] at hi
        subst hi
        obtain ⟨h1, h2, h3⟩ := hm _ (List.mem_cons_self _ _)
        simp [legalInstr, cmpLegal, h1, h2, h3]
      | Jmp t =>
        simp only [List.mem_cons, List.not_mem_nil, or_false] at hi
        subst hi
        obtain ⟨h1, h2, h3⟩ := hm _ (List.mem_cons_self _ _)
        simp [legalInstr, cmpLegal, h1, h2, h3]
      | JumpCC c t =>
        simp only [List.mem_cons, List.not_mem_nil, or_false] at hi
        subst hi
        obtain ⟨h1, h2, h3⟩ := hm _ (List.mem_cons_self _ _)
        simp [legalInstr, cmpLegal, h1, h2, h3]
      | SetCC c o =>
        simp only [List.mem_cons, List.not_mem_nil, or_false] at hi
        subst hi
        obtain ⟨h1, h2, h3⟩ := hm _ (List.mem_cons_self _ _)
        simp [legalInstr, cmpLegal, h1, h2, h3]
      | Label t =>
        simp only [List.mem_cons, List.not_mem_nil, or_false] at hi
        subst hi
        obtain ⟨h1, h2, h3⟩ := hm _ (List.mem_cons_self _ _)
        simp [legalInstr, cmpLegal, h1, h2, h3]
    · exact ih (fun k hk => hm k (List.mem_cons_of_mem _ hk)) i hi

/-- C2: after the stack-allocation pass (`ReplacePseudoRegisters`, run
with the map built by the instruction selector) no `Pseudo` operand
remains anywhere in the selector output, and the emitter aborts on any
remaining `Pseudo` operand rather than rendering it. -/
theorem pseudo_registers_eliminated (tf : Tac.Function) (af : Asm.Function) (st : AsmState)
    (h : parseAsmFunction tf = some (af, st)) :
    pseudoFree (replacePseudoRegisters st.pseudo_registers af.instructions) = true ∧
    (∀ id, formatOperand (.Pseudo id) = none) := by
  refine ⟨?_, fun id => rfl⟩
  unfold parseAsmFunction at h
  cases hsel : selectInstrs tf.body initAsm with
  | none =>
    rw [hsel] at h
    exact Option.noConfusion h
  | some p =>
    obtain ⟨instrs, stf⟩ := p
    rw [hsel] at h
    simp only [Option.some.injEq, Prod.mk.injEq] at h
    obtain ⟨rfl, rfl⟩ := h
    obtain ⟨-, hreg, -, -⟩ := selectInstrs_spec hsel
    unfold pseudoFree replacePseudoRegisters
    rw [List.all_eq_true]
    intro jr hjr
    rw [List.mem_map] at hjr
    obtain ⟨j, hj, rfl⟩ := hjr
    rw [List.all_eq_true]
    intro op hop
    rw [operandsOf_replace, List.mem_map] at hop
    obtain ⟨op0, hop0, rfl⟩ := hop
    rw [Bool.not_eq_true']
    exact isPseudo_getStackValue_of_reg (hreg j hj op0 hop0)

/-- Witness for C2 on the scenario-2 selection run. -/
theorem pseudo_registers_eliminated_witness :
    pseudoFree (replacePseudoRegisters sampleSt.pseudo_registers sampleSel.instructions) = true ∧
    formatOperand (.Pseudo "tmp.1") = none := by
  have H := pseudo_registers_eliminated sampleIR sampleSel sampleSt (by rfl)
  exact ⟨H.1, H.2 "tmp.1"⟩

/-- C9: `get_stack_value` replaces a mapped `Pseudo` operand by
`Stack(offset)`, passes an unmapped operand through unchanged, and for a
successful selector run the miss branch is unreachable on the `Pseudo`
operands of the output (every one is registered in the final map). -/
theorem get_stack_value_spec :
    (∀ (m : List (Asm.Operand × Int)) (op : Asm.Operand) (v : Int),
      mapLookup m op = some v → getStackValue m op = .Stack v) ∧
    (∀ (m : List (Asm.Operand × Int)) (op : Asm.Operand),
      mapLookup m op = none → getStackValue m op = op) ∧
    (∀ (tf : Tac.Function) (af : Asm.Function) (st : AsmState),
      parseAsmFunction tf = some (af, st) →
      ∀ j ∈ af.instructions, ∀ op ∈ operandsOf j, isPseudo op = true →
        ∃ w, mapLookup st.pseudo_registers op = some w) := by
  refine ⟨?_, ?_, ?_⟩
  · intro m op v hl
    unfold getStackValue
    rw [hl]
  · intro m op hl
    unfold getStackValue
    rw [hl]
  · intro tf af st h j hj op hop hp
    unfold parseAsmFunction at h
    cases hsel : selectInstrs tf.body initAsm with
    | none =>
      rw [hsel] at h
      exact Option.noConfusion h
    | some p =>
      obtain ⟨instrs, stf⟩ := p
      rw [hsel] at h
      simp only [Option.some.injEq, Prod.mk.injEq] at h
      obtain ⟨rfl, rfl⟩ := h
      obtain ⟨-, hreg, -, -⟩ := selectInstrs_spec hsel
      exact hreg j hj op hop hp

/-- Witness for C9: a hit, a miss, and a registered operand of the
scenario-2 run. -/
theorem get_stack_value_spec_witness :
    getStackValue [(.Pseudo "a", 4)] (.Pseudo "a") = .Stack 4 ∧
    getStackValue [] (.Pseudo "b") = .Pseudo "b" ∧
    (∃ w, mapLookup sampleSt.pseudo_registers (.Pseudo "tmp.1") = some w) := by
  have H := get_stack_value_spec
  refine ⟨H.1 _ _ _ (by rfl), H.2.1 _ _ (by rfl), ?_⟩
  exact H.2.2 sampleIR sampleSel sampleSt (by rfl)
    (.Mov (.Imm 4) (.Pseudo "tmp.1")) (by decide)
    (.Pseudo "tmp.1") (by decide) (by rfl)

/-- C5: the selector's pseudo-register map registers each distinct
variable name exactly once (keys are pairwise distinct and are exactly
the variables of the IR body), the `n`-th registered variable (first-use
order) holds offset `4 * (n + 1)` — strictly increasing, 4-byte slots —
the map built by any body split is only ever extended (never changed or
removed), the final running offset is `4 ×` the number of distinct
variables, and that value is exactly what the prepended `AllocateStack`
carries. -/
theorem stack_offset_assignment (tf : Tac.Function) (af : Asm.Function) (st : AsmState)
    (h : parseAsmFunction tf = some (af, st)) :
    (mapKeys st.pseudo_registers).Nodup ∧
    (∀ id, Asm.Operand.Pseudo id ∈ mapKeys st.pseudo_registers ↔
      id ∈ tf.body.flatMap varNamesOf) ∧
    (∀ n (hn : n < st.pseudo_registers.length),
      (st.pseudo_registers.get ⟨n, hn⟩).2 = 4 * ((n : Int) + 1)) ∧
    st.offset = 4 * (st.pseudo_registers.length : Int) ∧
    (∀ l1 l2 is1 st1, tf.body = l1 ++ l2 →
      selectInstrs l1 initAsm = some (is1, st1) →
      ∃ t, st.pseudo_registers = st1.pseudo_registers ++ t) ∧
    (∀ l out, legalize st l = some out →
      out.head? = some (.AllocateStack st.offset)) := by
  unfold parseAsmFunction at h
  cases hsel : selectInstrs tf.body initAsm with
  | none =>
    rw [hsel] at h
    exact Option.noConfusion h
  | some p =>
    obtain ⟨instrs, stf⟩ := p
    rw [hsel] at h
    simp only [Option.some.injEq, Prod.mk.injEq] at h
    obtain ⟨rfl, rfl⟩ := h
    obtain ⟨hext, -, hwf, hkeys⟩ := selectInstrs_spec hsel
    have hwf0 : WFAsm initAsm := by
      refine ⟨by simp [initAsm], ?_, by simp [initAsm, mapKeys]⟩
      intro n hn
      simp [initAsm] at hn
    obtain ⟨hoff, hget, hnd⟩ := hwf hwf0
    refine ⟨hnd, ?_, hget, hoff, ?_, ?_⟩
    · intro id
      have hk := hkeys id
      simpa [initAsm, mapKeys] using hk
    · intro l1 l2 is1 st1 hb hsel1
      have hsplit := @selectInstrs_append l1 l2 initAsm st1 is1 hsel1
      rw [← hb] at hsplit
      rw [hsel] at hsplit
      cases ht : selectInstrs l2 st1 with
      | none =>
        rw [ht] at hsplit
        exact Option.noConfusion hsplit
      | some q =>
        obtain ⟨is2, st2y⟩ := q
        rw [ht] at hsplit
        simp only [Option.some.injEq, Prod.mk.injEq] at hsplit
        obtain ⟨-, rfl⟩ := hsplit
        exact (selectInstrs_spec ht).1
    · intro l out hleg
      unfold legalize at hleg
      cases hrb : rewriteBinaryOp (rewriteMov (replacePseudoRegisters
          stf.pseudo_registers l)) with
      | none =>
        rw [hrb] at hleg
        exact Option.noConfusion hleg
      | some l2 =>
        rw [hrb] at hleg
        simp only [Option.some.injEq] at hleg
        subst hleg
        rfl

/-- Witness for C5 on the scenario-2 selection run. -/
theorem stack_offset_assignment_witness :
    (mapKeys sampleSt.pseudo_registers).Nodup ∧
    sampleSt.offset = 4 * (sampleSt.pseudo_registers.length : Int) ∧
    (Asm.Operand.Pseudo "tmp.2" ∈ mapKeys sampleSt.pseudo_registers ↔
      "tmp.2" ∈ sampleIR.body.flatMap varNamesOf) := by
  have H := stack_offset_assignment sampleIR sampleSel sampleSt (by rfl)
  exact ⟨H.1, H.2.2.2.1, H.2.1 "tmp.2"⟩

/-- C3: on a selector output followed by pseudo replacement, after the
three passes in driver order (`RewriteMov`, `RewriteBinaryOp`,
`RewriteCmp`, then the `AllocateStack` prepend) every instruction
satisfies all four legalization invariants: no `Mov`/`Cmp` with two
`Stack` operands, no `Cmp` with an `Imm` second operand, no `Mult` with a
`Stack` destination, no `Idiv` with an `Imm` operand. -/
theorem legalization_invariants (tf : Tac.Function) (af : Asm.Function) (st : AsmState)
    (out : List Asm.Instruction)
    (hsel : parseAsmFunction tf = some (af, st))
    (hleg : legalize st af.instructions = some out) :
    ∀ i ∈ out, legalInstr i = true := by
  unfold legalize at hleg
  cases hrb : rewriteBinaryOp (rewriteMov (replacePseudoRegisters
      st.pseudo_registers af.instructions)) with
  | none =>
    rw [hrb] at hleg
    exact Option.noConfusion hleg
  | some l2 =>
    rw [hrb] at hleg
    simp only [Option.some.injEq] at hleg
    subst hleg
    intro i hi
    simp only [allocateStack, List.mem_cons] at hi
    rcases hi with rfl | hi
    · rfl
    · exact rewriteCmp_legal l2
        (rewriteBinaryOp_legal _ l2 hrb (rewriteMov_movLegal _)) i hi

/-- Witness for C3 on the scenario-2 run: the first rewritten `Mov` of
the legalized output is legal. -/
theorem legalization_invariants_witness :
    legalInstr (.Mov (.Imm 4) (.Stack 4)) = true := by
  have H := legalization_invariants sampleIR sampleSel sampleSt
    [.AllocateStack 12,
     .Mov (.Imm 4) (.Stack 4),
     .Mov (.Imm 2) (.Register .R10),
     .Binary .Sub (.Register .R10) (.Stack 4),
     .Mov (.Stack 4) (.Register .R10),
     .Mov (.Register .R10) (.Stack 8),
     .Mov (.Imm 2) (.Register .R10),
     .Binary .Add (.Register .R10) (.Stack 8),
     .Mov (.Stack 8) (.Register .R10),
     .Mov (.Register .R10) (.Stack 12),
     .Mov (.Imm 3) (.Register .R10),
     .Binary .Sub (.Register .R10) (.Stack 12),
     .Mov (.Stack 12) (.Register .AX),
     .Ret] (by rfl) (by rfl)
  exact H (.Mov (.Imm 4) (.Stack 4)) (by decide)

end Nous
